import Mathlib

/-!
# gollama: the MCP client (`mcp_client.go`, `mcp_types.go`)

A shallow embedding of the line-delimited JSON-RPC client: the wire types, the
pending-request registry, the reader loop, `sendRequest`, `sendNotification`,
the handshake and `CallTool`.

Conventions of the embedding.

* A Go `error` is identified with its message (`Error := String`).
* `json.RawMessage` is `Option String`: `none` is the nil slice, `some s` the
  raw bytes `s` of one JSON value.
* `encoding/json` is the standard library, not code of this repository: its
  `Marshal` and the `Unmarshal` calls made by the client are the fields of a
  `Codec`, and every theorem holds for every codec.
* The child process is the environment: the lines `reader.ReadBytes` returns
  before its first error are a `List String`, and the outcome of a
  `c.stdin.Write` is an `Option Error`.
* A channel `make(chan *JsonRpcResponse, 1)` is a natural number handed out by
  an allocation counter; the sends `ch <- &response` are kept in order in
  `McpClient.delivered`.
-/

namespace Gollama

/-! ## Wire types (`mcp_types.go`) -/

/-- A Go `error`, identified with the text `Error()` returns. -/
abbrev Error := String

/-- The type `json.RawMessage`: `none` is the nil slice. -/
abbrev RawMessage := Option String

/-- A Go value passed as `params interface{}` or held in a `map[string]any`,
given by its JSON shape. A number is kept as its literal; `null` is the nil
interface value. -/
inductive Json where
  | null : Json
  | bool (b : Bool) : Json
  | num (literal : String) : Json
  | str (s : String) : Json
  | arr (items : List Json) : Json
  | obj (members : List (String × Json)) : Json

/-- The struct `JsonRpcRequest`. -/
structure JsonRpcRequest where
  JSONRPC : String
  Method : String
  Params : Json
  ID : RawMessage

/-- The struct `JsonRpcError`. `Data` is kept as raw JSON. -/
structure JsonRpcError where
  Code : Int
  Message : String
  Data : RawMessage := none
deriving DecidableEq

/-- The struct `JsonRpcResponse`; `Error` is a pointer, `none` when nil. -/
structure JsonRpcResponse where
  JSONRPC : String := ""
  Result : RawMessage := none
  Error : Option JsonRpcError := none
  ID : RawMessage := none
deriving DecidableEq

/-- The struct `McpClientInfo`. -/
structure McpClientInfo where
  Name : String
  Version : String
deriving DecidableEq

/-- The struct `McpCapabilities`; both maps are nil when `none`. -/
structure McpCapabilities where
  Roots : Option (List (String × Json)) := none
  Sampling : Option (List (String × Json)) := none

/-- The struct `McpInitializeParams`. -/
structure McpInitializeParams where
  ProtocolVersion : String
  Capabilities : McpCapabilities
  ClientInfo : McpClientInfo

/-- The struct `McpInitializeResult`. -/
structure McpInitializeResult where
  ProtocolVersion : String
  Capabilities : List (String × Json)
  ServerInfo : McpClientInfo

/-- The struct `McpCallToolParams`. -/
structure McpCallToolParams where
  Name : String
  Arguments : List (String × Json)

/-- The struct `McpContent`; `Type_` is its field `Type`. -/
structure McpContent where
  Type_ : String
  Text : String := ""
deriving DecidableEq

/-- The struct `McpCallToolResult`. -/
structure McpCallToolResult where
  Content : List McpContent
  IsError : Bool := false
deriving DecidableEq

mutual
/-- The struct `ItemProperty` (`structs_gollama.go`); `Items` is a pointer. -/
inductive ItemProperty where
  | mk (Type_ : String) (Properties : List (String × FormatProperty)) (Enum : List String)
      (Required : List String) (Items : Option ItemProperty) : ItemProperty
/-- The struct `FormatProperty` (`structs_gollama.go`). -/
inductive FormatProperty where
  | mk (Type_ : String) (Description : String) (Enum : List String) (Items : ItemProperty) :
      FormatProperty
end

/-- The struct `StructuredFormat` (`structs_gollama.go`). -/
structure StructuredFormat where
  Type_ : String := ""
  Properties : List (String × FormatProperty) := []
  Required : List String := []

/-- The struct `ToolFunction` (`structs_gollama.go`). -/
structure ToolFunction where
  Name : String
  Description : String := ""
  Parameters : StructuredFormat := {}

/-- The struct `Tool` (`structs_gollama.go`). -/
structure Tool where
  Type_ : String
  Function : ToolFunction

/-- The struct `McpTool`. -/
structure McpTool where
  Name : String
  Description : String := ""
  InputSchema : StructuredFormat := {}

/-- The struct `McpToolListResult`. -/
structure McpToolListResult where
  Tools : List McpTool

/-- The JSON shape of a `McpCapabilities` value: both fields are `omitempty`. -/
def McpCapabilities.toJson (p : McpCapabilities) : Json :=
  Json.obj
    ((match p.Roots with
      | some (m :: ms) => [("roots", Json.obj (m :: ms))]
      | _ => []) ++
     (match p.Sampling with
      | some (m :: ms) => [("sampling", Json.obj (m :: ms))]
      | _ => []))

/-- The JSON shape of a `McpInitializeParams` value. -/
def McpInitializeParams.toJson (p : McpInitializeParams) : Json :=
  Json.obj
    [("protocolVersion", Json.str p.ProtocolVersion),
     ("capabilities", p.Capabilities.toJson),
     ("clientInfo",
      Json.obj [("name", Json.str p.ClientInfo.Name), ("version", Json.str p.ClientInfo.Version)])]

/-- The JSON shape of a `McpCallToolParams` value; `arguments` is `omitempty`. -/
def McpCallToolParams.toJson (p : McpCallToolParams) : Json :=
  Json.obj
    (("name", Json.str p.Name) ::
      (match p.Arguments with
       | [] => []
       | m :: ms => [("arguments", Json.obj (m :: ms))]))

/-- The calls into `encoding/json` the client makes. -/
structure Codec where
  /-- Models `json.Marshal(req)`. -/
  marshal : JsonRpcRequest → Except Error String
  /-- Models `json.Unmarshal(line, &response)` in `readLoop`. -/
  unmarshalResponse : String → Except Error JsonRpcResponse
  /-- Models `json.Unmarshal(resp.Result, &result)` in the handshake. -/
  unmarshalInitializeResult : RawMessage → Except Error McpInitializeResult
  /-- Models `json.Unmarshal(resp.Result, &result)` in `CallTool`. -/
  unmarshalCallToolResult : RawMessage → Except Error McpCallToolResult
  /-- Models `json.Unmarshal(resp.Result, &result)` in `ListTools`. -/
  unmarshalToolListResult : RawMessage → Except Error McpToolListResult

/-! ## The client state (`mcp_client.go`) -/

/-- A channel `chan *JsonRpcResponse`, named by its allocation number. -/
abbrev Chan := Nat

/-- The map `pending map[string]chan *JsonRpcResponse`, with at most one entry
for a key. -/
abbrev Registry := List (String × Chan)

/-- The lookup `ch, ok := m[k]`. -/
def Registry.get (m : Registry) (k : String) : Option Chan :=
  match m with
  | [] => none
  | e :: rest => if e.1 = k then some e.2 else Registry.get rest k

/-- The statement `delete(m, k)`. -/
def Registry.delete (m : Registry) (k : String) : Registry :=
  m.filter (fun e => decide (e.1 ≠ k))

/-- The assignment `m[k] = v`: an entry already under `k` is replaced. -/
def Registry.set (m : Registry) (k : String) (v : Chan) : Registry :=
  (k, v) :: Registry.delete m k

/-- The struct `McpClient`: `seq` and `pending` are its fields; `stdin` holds
the byte strings written to the child so far, `made` counts the channels
created, `delivered` lists the channel sends of the reader in order, and
`hasProcess` says that `c.cmd` and `c.cmd.Process` are set. -/
structure McpClient where
  seq : Int := 0
  pending : Registry := []
  stdin : List String := []
  made : Nat := 0
  delivered : List (Chan × JsonRpcResponse) := []
  hasProcess : Bool := false
deriving DecidableEq

/-- The function `NewMcpClient`: a zero counter and an empty registry. -/
def NewMcpClient : McpClient := {}

/-- What a channel has been sent so far, oldest first. -/
def McpClient.slot (c : McpClient) (ch : Chan) : List JsonRpcResponse :=
  (c.delivered.filter (fun d => decide (d.1 = ch))).map Prod.snd

/-- The two's-complement wrap of an `int64` result. -/
def wrapInt64 (x : Int) : Int := (x + 2 ^ 63) % 2 ^ 64 - 2 ^ 63

/-- The call `atomic.AddInt64(&c.seq, 1)`: the new value, and the client with
the counter advanced. -/
def McpClient.addSeq (c : McpClient) : Int × McpClient :=
  let id := wrapInt64 (c.seq + 1)
  (id, { c with seq := id })

/-- The call `make(chan *JsonRpcResponse, 1)`. -/
def McpClient.makeChan (c : McpClient) : Chan × McpClient :=
  (c.made, { c with made := c.made + 1 })

/-- One turn of the loop of `readLoop`, on a line `ReadBytes` returned without
error: a line that does not decode is skipped; a response with an id that is
registered is unregistered and sent to its channel; anything else is dropped. -/
def readLoopLine (cfg : Codec) (c : McpClient) (line : String) : McpClient :=
  match cfg.unmarshalResponse line with
  | .error _ => c
  | .ok response =>
    match response.ID with
    | none => c
    | some id =>
      match c.pending.get id with
      | some ch =>
        { c with pending := c.pending.delete id, delivered := c.delivered ++ [(ch, response)] }
      | none => c

/-- The method `readLoop`, run on the lines read before the first read error
(end of file included), at which the loop breaks and nothing else is done. -/
def readLoop (cfg : Codec) (lines : List String) (c : McpClient) : McpClient :=
  lines.foldl (readLoopLine cfg) c

/-- The method `Close`: kills the child when there is one and returns what
`Kill` returned; the client's own state is not touched. -/
def Close (c : McpClient) (kill : Option Error) : Option Error × McpClient :=
  (if c.hasProcess then kill else none, c)

/-- Lines 144-163 of `sendRequest`: allocate the id, marshal the request,
make the slot and register it under the id. Returns the id string, the
channel and the marshalled bytes, or the marshalling error. -/
def sendRequestRegister (cfg : Codec) (c : McpClient) (method : String) (params : Json) :
    Except Error (String × Chan × String) × McpClient :=
  let (id, c1) := c.addSeq
  let idStr := toString id
  let req : JsonRpcRequest := { JSONRPC := "2.0", Method := method, Params := params, ID := some idStr }
  match cfg.marshal req with
  | .error err => (.error err, c1)
  | .ok reqBytes =>
    let (ch, c2) := c1.makeChan
    (.ok (idStr, ch, reqBytes), { c2 with pending := c2.pending.set idStr ch })

/-- The call `c.stdin.Write(append(reqBytes, '\n'))` with outcome `werr`. -/
def stdinWrite (c : McpClient) (reqBytes : String) (werr : Option Error) :
    Option Error × McpClient :=
  match werr with
  | some err => (some err, c)
  | none => (none, { c with stdin := c.stdin ++ [reqBytes ++ "\n"] })

/-- Lines 144-168 of `sendRequest`, up to the wait: the channel the caller
will wait on, or the error it returns at once. -/
def sendRequestIssue (cfg : Codec) (c : McpClient) (method : String) (params : Json)
    (werr : Option Error) : Except Error (String × Chan) × McpClient :=
  match sendRequestRegister cfg c method params with
  | (.error err, c1) => (.error err, c1)
  | (.ok (idStr, ch, reqBytes), c3) =>
    match stdinWrite c3 reqBytes werr with
    | (some err, c4) => (.error err, c4)
    | (none, c4) => (.ok (idStr, ch), c4)

/-- Lines 172-176 of `sendRequest`: what it returns once `resp` is received. -/
def sendRequestAwait (resp : JsonRpcResponse) : Option JsonRpcResponse × Option Error :=
  match resp.Error with
  | some e => (none, some ("MCP error (" ++ toString e.Code ++ "): " ++ e.Message))
  | none => (some resp, none)

/-- What one blocking call meets: the outcome of its write and the lines the
reader goroutine processes while the caller waits. -/
structure Exchange where
  werr : Option Error := none
  inbound : List String := []

/-- The method `sendRequest`. The outer `none` is a caller that never
returns: it waits on a channel nothing is sent to. -/
def sendRequest (cfg : Codec) (c : McpClient) (method : String) (params : Json) (x : Exchange) :
    Option (Option JsonRpcResponse × Option Error) × McpClient :=
  match sendRequestIssue cfg c method params x.werr with
  | (.error err, c1) => (some (none, some err), c1)
  | (.ok (_, ch), c1) =>
    let c2 := readLoop cfg x.inbound c1
    match c2.slot ch with
    | [] => (none, c2)
    | resp :: _ => (some (sendRequestAwait resp), c2)

/-- The method `sendNotification`. -/
def sendNotification (cfg : Codec) (c : McpClient) (method : String) (params : Json)
    (werr : Option Error) : Option Error × McpClient :=
  let req : JsonRpcRequest := { JSONRPC := "2.0", Method := method, Params := params, ID := none }
  match cfg.marshal req with
  | .error err => (some err, c)
  | .ok reqBytes => stdinWrite c reqBytes werr

/-- A `context.Context`, as far as a caller can tell: done or not. -/
structure Context where
  done : Bool := false
deriving DecidableEq

/-- The method `initialize`; `x` serves the request, `nerr` is the outcome of
the notification's write. The context is received and not consulted. The
outer `none` is a caller that never returns; a nil response with a nil error,
which `sendRequest` never returns, would be a nil dereference and gives no
result either. -/
def initializeHandshake (cfg : Codec) (_ctx : Context) (c : McpClient) (x : Exchange)
    (nerr : Option Error) : Option (Option Error) × McpClient :=
  let params : McpInitializeParams :=
    { ProtocolVersion := "2024-11-05"
      Capabilities := {}
      ClientInfo := { Name := "gollama-mcp-client", Version := "1.0.0" } }
  match sendRequest cfg c "initialize" params.toJson x with
  | (none, c1) => (none, c1)
  | (some (_, some err), c1) => (some (some err), c1)
  | (some (none, none), c1) => (none, c1)
  | (some (some resp, none), c1) =>
    match cfg.unmarshalInitializeResult resp.Result with
    | .error err => (some (some err), c1)
    | .ok _ =>
      let (e, c2) := sendNotification cfg c1 "notifications/initialized" (Json.obj []) nerr
      (some e, c2)

/-- The loop of `CallTool` that combines the text content. -/
def combineText (content : List McpContent) : String :=
  content.foldl (fun output b => if b.Type_ = "text" then output ++ (b.Text ++ "\n") else output) ""

/-- The method `CallTool`. The outer `none` is a caller that never returns; a
nil response with a nil error, which `sendRequest` never returns, would be a
nil dereference and gives no result either. -/
def CallTool (cfg : Codec) (c : McpClient) (name : String) (arguments : List (String × Json))
    (x : Exchange) : Option (String × Option Error) × McpClient :=
  let params : McpCallToolParams := { Name := name, Arguments := arguments }
  match sendRequest cfg c "tools/call" params.toJson x with
  | (none, c1) => (none, c1)
  | (some (_, some err), c1) => (some ("", some err), c1)
  | (some (none, none), c1) => (none, c1)
  | (some (some resp, none), c1) =>
    match cfg.unmarshalCallToolResult resp.Result with
    | .error err => (some ("", some err), c1)
    | .ok result =>
      if result.IsError then (some ("", some "tool execution failed"), c1)
      else (some (combineText result.Content, none), c1)

/-- The method `ListTools`. The outer `none` is a caller that never returns; a
nil response with a nil error, which `sendRequest` never returns, would be a
nil dereference and gives no result either. -/
def ListTools (cfg : Codec) (c : McpClient) (x : Exchange) :
    Option (List Tool × Option Error) × McpClient :=
  match sendRequest cfg c "tools/list" (Json.obj []) x with
  | (none, c1) => (none, c1)
  | (some (_, some err), c1) => (some ([], some err), c1)
  | (some (none, none), c1) => (none, c1)
  | (some (some resp, none), c1) =>
    match cfg.unmarshalToolListResult resp.Result with
    | .error err => (some ([], some err), c1)
    | .ok result =>
      (some (result.Tools.foldl
          (fun tools mcpTool =>
            tools ++ [{ Type_ := "function",
                        Function := { Name := mcpTool.Name, Description := mcpTool.Description,
                                      Parameters := mcpTool.InputSchema } }])
          [], none), c1)

/-- The struct `McpConfig`. `Env` lists the entries of the map in the order the
`range` of `Start` visits them, an order Go does not fix; its keys are
distinct. -/
structure McpConfig where
  Command : String
  Args : List String := []
  Env : List (String × String) := []

/-- What the operating system answers to `Start`: the inherited environment
`os.Environ()`, and the outcomes of `StdinPipe`, `StdoutPipe`, `StderrPipe`
and `cmd.Start`. -/
structure Launch where
  environ : List String := []
  stdinPipe : Option Error := none
  stdoutPipe : Option Error := none
  stderrPipe : Option Error := none
  start : Option Error := none

/-- Lines 58-61 of `Start`: the environment given to the child, `os.Environ()`
with `fmt.Sprintf("%s=%s", k, v)` appended for each entry of `config.Env`. -/
def startEnv (environ : List String) (env : List (String × String)) : List String :=
  env.foldl (fun cmdEnv kv => cmdEnv ++ [kv.1 ++ "=" ++ kv.2]) environ

/-- The method `Start`, on the client's `config`: the environment it gives the
child, and what it returns. The reader started by `go c.readLoop()` is the one
whose lines the exchange `x` of the handshake holds. -/
def Start (cfg : Codec) (config : McpConfig) (ctx : Context) (c : McpClient) (os : Launch)
    (x : Exchange) (nerr : Option Error) : List String × Option (Option Error) × McpClient :=
  let cmdEnv := startEnv os.environ config.Env
  match os.stdinPipe with
  | some err => (cmdEnv, some (some ("failed to get stdin pipe: " ++ err)), c)
  | none =>
    match os.stdoutPipe with
    | some err => (cmdEnv, some (some ("failed to get stdout pipe: " ++ err)), c)
    | none =>
      match os.stderrPipe with
      | some err => (cmdEnv, some (some ("failed to get stderr pipe: " ++ err)), c)
      | none =>
        match os.start with
        | some err => (cmdEnv, some (some ("failed to start command: " ++ err)), c)
        | none => (cmdEnv, initializeHandshake cfg ctx { c with hasProcess := true } x nerr)

/-! ## The chat request (`chat.go`) -/

set_option linter.dupNamespace false

/-- A `float64`, by its bit pattern: it is carried, never computed with. The
zero value is the pattern 0. -/
structure Float64 where
  bits : Nat := 0
deriving DecidableEq

/-- The struct `PromptImage` (`structs_gollama.go`). -/
structure PromptImage where
  Filename : String
deriving DecidableEq

/-- The struct `ToolCallFunction` (`structs_gollama.go`). -/
structure ToolCallFunction where
  Name : String
  Arguments : List (String × Json)

/-- The struct `ToolCall` (`structs_gollama.go`). -/
structure ToolCall where
  Function : ToolCallFunction

/-- The struct `ChatOuput` (`structs_gollama.go`). -/
structure ChatOuput where
  Role : String
  Content : String
  ToolCalls : List ToolCall
  PromptTokens : Int
  ResponseTokens : Int

/-- Modelled from the spec: the struct `Gollama` is not among the sources and
the specification leaves it to the collaborator; these are the fields `Chat`
reads. -/
structure Gollama where
  ModelName : String
  SeedOrNegative : Int := 0
  TemperatureIfNegativeSeed : Float64 := {}
  TopK : Int := 0
  TopP : Float64 := {}
  ContextLength : Int := 0
  SystemPrompt : String := ""
  TrimSpace : Bool := false

/-- Modelled from the spec: the struct `chatMessage` is not among the sources;
these are the fields `Chat` sets. `Images` is nil when `none`. -/
structure chatMessage where
  Role : String
  Content : String
  Images : Option (List String) := none

/-- Modelled from the spec: the struct `chatOptionsRequest` is not among the
sources; these are the fields `Chat` sets. -/
structure chatOptionsRequest where
  Seed : Int
  Temperature : Float64
  TopK : Int
  TopP : Float64
  ContextLength : Int

/-- Modelled from the spec: the struct `chatRequest` is not among the sources;
these are the fields `Chat` sets. `Tools` and `Format` are pointers. -/
structure chatRequest where
  Stream : Bool
  Model : String
  Messages : List chatMessage
  Options : chatOptionsRequest
  Tools : Option (List Tool) := none
  Format : Option StructuredFormat := none

/-- Modelled from the spec: the struct `chatResponse` is not among the sources;
these are the fields `Chat` reads, those of `Message` flattened. -/
structure chatResponse where
  Model : String
  MessageRole : String
  MessageContent : String
  MessageToolCalls : List ToolCall
  PromptEvalCount : Int
  EvalCount : Int

/-- A value passed as a `ChatOption` (an `interface{}`), by its dynamic type: the
six types the switch of `Chat` names, a `[]string`, and any other type. A
`ToolSource` is given by what its `ListTools` returns. -/
inductive ChatOption where
  | promptImage (image : PromptImage) : ChatOption
  | promptImages (images : List PromptImage) : ChatOption
  | tool (t : Tool) : ChatOption
  | tools (ts : List Tool) : ChatOption
  | toolSource (listTools : Except Error (List Tool)) : ChatOption
  | structuredFormat (format : StructuredFormat) : ChatOption
  | strings (values : List String) : ChatOption
  | other : ChatOption

/-- What `Chat` calls outside `chat.go`: `base64EncodeFile`, which is not among
the sources, `apiPost` on "/api/chat", and `strings.TrimSpace`. -/
structure ChatEnv where
  base64EncodeFile : String → Except Error String
  apiPost : chatRequest → Except Error chatResponse
  trimSpace : String → String

/-- The variables `promptImages`, `tools` and `format` of `Chat`. -/
structure ChatSettings where
  promptImages : List PromptImage := []
  tools : List Tool := []
  format : StructuredFormat := {}

/-- The body of the loop over the options in `Chat` (lines 32-52). -/
def chatOption (s : ChatSettings) (option : ChatOption) : Except Error ChatSettings :=
  match option with
  | .promptImage opt => .ok { s with promptImages := s.promptImages ++ [opt] }
  | .promptImages opt => .ok { s with promptImages := opt }
  | .tool opt => .ok { s with tools := s.tools ++ [opt] }
  | .tools opt => .ok { s with tools := opt }
  | .toolSource listTools =>
    match listTools with
    | .error err => .error err
    | .ok t => .ok { s with tools := s.tools ++ t }
  | .structuredFormat opt => .ok { s with format := opt }
  | .strings _ => .ok s
  | .other => .ok s

/-- The loop over the options in `Chat` (lines 31-53). -/
def chatOptions (s : ChatSettings) (options : List ChatOption) : Except Error ChatSettings :=
  match options with
  | [] => .ok s
  | option :: rest =>
    match chatOption s option with
    | .error err => .error err
    | .ok s1 => chatOptions s1 rest

/-- The loop that encodes the images in `Chat` (lines 72-79). -/
def encodeImages (env : ChatEnv) (images : List PromptImage) (acc : List String) :
    Except Error (List String) :=
  match images with
  | [] => .ok acc
  | image :: rest =>
    match env.base64EncodeFile image.Filename with
    | .error err => .error err
    | .ok base64image => encodeImages env rest (acc ++ [base64image])

/-- Lines 22-106 of `Chat`: the request it posts to "/api/chat", or the error it
returns before posting. -/
def ChatRequestOf (c : Gollama) (env : ChatEnv) (prompt : String) (options : List ChatOption) :
    Except Error chatRequest :=
  match chatOptions {} options with
  | .error err => .error err
  | .ok s =>
    let temperature : Float64 := if c.SeedOrNegative < 0 then c.TemperatureIfNegativeSeed else {}
    let contextLength := c.ContextLength
    let messages : List chatMessage :=
      if c.SystemPrompt ≠ "" then [{ Role := "system", Content := c.SystemPrompt }] else []
    match encodeImages env s.promptImages [] with
    | .error err => .error err
    | .ok base64VisionImages =>
      let userMessage : chatMessage :=
        { Role := "user", Content := prompt,
          Images := if base64VisionImages.length > 0 then some base64VisionImages else none }
      .ok { Stream := false
            Model := c.ModelName
            Messages := messages ++ [userMessage]
            Options := { Seed := c.SeedOrNegative, Temperature := temperature, TopK := c.TopK,
                         TopP := c.TopP
                         ContextLength :=
                           if c.ContextLength ≠ 0 then c.ContextLength else contextLength }
            Tools := if s.tools.length > 0 then some s.tools else none
            Format := if s.format.Properties.length > 0 then some s.format else none }

/-- The method `Chat`. -/
def Chat (c : Gollama) (env : ChatEnv) (prompt : String) (options : List ChatOption) :
    Except Error ChatOuput :=
  match ChatRequestOf c env prompt options with
  | .error err => .error err
  | .ok req =>
    match env.apiPost req with
    | .error err => .error err
    | .ok resp =>
      if resp.Model ≠ c.ModelName then .error "model not found"
      else
        .ok { Role := resp.MessageRole
              Content := if c.TrimSpace then env.trimSpace resp.MessageContent
                         else resp.MessageContent
              ToolCalls := resp.MessageToolCalls
              PromptTokens := resp.PromptEvalCount
              ResponseTokens := resp.EvalCount }

/-! ## `encoding/json`, as far as requests go -/

/-- The lower-case hexadecimal digit of a number below 16. -/
def hexDigit (n : Nat) : Char :=
  if n < 10 then Char.ofNat (48 + n) else Char.ofNat (87 + n)

/-- The four hexadecimal digits of a number below 65536. -/
def hex4 (n : Nat) : List Char :=
  [hexDigit (n / 4096 % 16), hexDigit (n / 256 % 16), hexDigit (n / 16 % 16), hexDigit (n % 16)]

/-- What `encoding/json` writes for one character of a string: the quote and
the backslash behind a backslash, the line feed, carriage return and tab as
`\n`, `\r`, `\t`, the other control characters, `<`, `>`, `&`, U+2028 and
U+2029 as `\u` and four hexadecimal digits, any other character as itself. -/
def escapeChar (ch : Char) : List Char :=
  if ch = '"' then ['\\', '"']
  else if ch = '\\' then ['\\', '\\']
  else if ch = '\n' then ['\\', 'n']
  else if ch = '\r' then ['\\', 'r']
  else if ch = '\t' then ['\\', 't']
  else if ch.toNat < 32 ∨ ch = '<' ∨ ch = '>' ∨ ch = '&' ∨ ch.toNat = 8232 ∨ ch.toNat = 8233 then
    '\\' :: 'u' :: hex4 ch.toNat
  else [ch]

/-- The characters between the quotes of an encoded string. -/
def escapeChars (cs : List Char) : List Char :=
  match cs with
  | [] => []
  | ch :: rest => escapeChar ch ++ escapeChars rest

/-- What `encoding/json` writes for a string that is text, given by its
characters; `encodeGoString` is the encoder on the bytes of any Go string. -/
def encodeString (s : String) : List Char :=
  '"' :: (escapeChars s.data ++ ['"'])

/-- The characters a JSON number is made of. -/
def isNumChar (ch : Char) : Bool :=
  ch.isDigit || ch = '-' || ch = '+' || ch = '.' || ch = 'e' || ch = 'E'

/-- The exponent part of a JSON number, or nothing. -/
def validExponent (s : List Char) : Bool :=
  match s with
  | [] => true
  | e :: r =>
    (e = 'e' || e = 'E') &&
      (match r with
       | [] => false
       | sign :: t =>
         if sign = '+' ∨ sign = '-' then !t.isEmpty && t.all Char.isDigit
         else (sign :: t).all Char.isDigit)

/-- The fraction and exponent parts of a JSON number, or nothing. -/
def validFraction (s : List Char) : Bool :=
  match s with
  | [] => true
  | dot :: r =>
    if dot = '.' then
      !(r.takeWhile Char.isDigit).isEmpty && validExponent (r.dropWhile Char.isDigit)
    else validExponent (dot :: r)

/-- The text is a JSON number: an optional minus, `0` or a digit from 1 to 9
followed by digits, then an optional fraction and an optional exponent. -/
def validNumber (s : List Char) : Bool :=
  s.all isNumChar &&
    (match (match s with
            | [] => []
            | sign :: r => if sign = '-' then r else sign :: r) with
     | [] => false
     | d :: r =>
       if d = '0' then validFraction r
       else d.isDigit && validFraction (r.dropWhile Char.isDigit))

mutual
/-- What `encoding/json` writes for a value, in compact form; a number that has
no JSON literal (a NaN, an infinity) is refused. -/
def encodeJson (v : Json) : Except Error (List Char) :=
  match v with
  | .null => .ok ['n', 'u', 'l', 'l']
  | .bool true => .ok ['t', 'r', 'u', 'e']
  | .bool false => .ok ['f', 'a', 'l', 's', 'e']
  | .num literal =>
    if validNumber literal.data then .ok literal.data
    else .error ("json: unsupported value: " ++ literal)
  | .str s => .ok (encodeString s)
  | .arr [] => .ok ['[', ']']
  | .arr (v :: rest) =>
    match encodeJson v with
    | .error err => .error err
    | .ok first =>
      match encodeItems rest with
      | .error err => .error err
      | .ok more => .ok ('[' :: (first ++ more ++ [']']))
  | .obj [] => .ok ['\x7b', '\x7d']
  | .obj ((k, v) :: rest) =>
    match encodeJson v with
    | .error err => .error err
    | .ok value =>
      match encodeMembers rest with
      | .error err => .error err
      | .ok more => .ok ('\x7b' :: (encodeString k ++ ':' :: value ++ more ++ ['\x7d']))
/-- The elements of an array after the first, each behind a comma. -/
def encodeItems (items : List Json) : Except Error (List Char) :=
  match items with
  | [] => .ok []
  | v :: rest =>
    match encodeJson v with
    | .error err => .error err
    | .ok value =>
      match encodeItems rest with
      | .error err => .error err
      | .ok more => .ok (',' :: value ++ more)
/-- The members of an object after the first, each behind a comma. -/
def encodeMembers (members : List (String × Json)) : Except Error (List Char) :=
  match members with
  | [] => .ok []
  | (k, v) :: rest =>
    match encodeJson v with
    | .error err => .error err
    | .ok value =>
      match encodeMembers rest with
      | .error err => .error err
      | .ok more => .ok (',' :: (encodeString k ++ ':' :: value ++ more))
end

/-- The value of a hexadecimal digit. -/
def hexVal (ch : Char) : Option Nat :=
  if ch.isDigit then some (ch.toNat - 48)
  else if 97 ≤ ch.toNat ∧ ch.toNat ≤ 102 then some (ch.toNat - 87)
  else if 65 ≤ ch.toNat ∧ ch.toNat ≤ 70 then some (ch.toNat - 55)
  else none

/-- The character a simple escape stands for. -/
def unescape (ch : Char) : Option Char :=
  if ch = '"' then some '"'
  else if ch = '\\' then some '\\'
  else if ch = '/' then some '/'
  else if ch = 'b' then some (Char.ofNat 8)
  else if ch = 'f' then some (Char.ofNat 12)
  else if ch = 'n' then some '\n'
  else if ch = 'r' then some '\r'
  else if ch = 't' then some '\t'
  else none

/-- A decoder reads a JSON string, from behind its opening quote: the
characters read so far are `acc`; the result is the string and what follows
its closing quote. -/
def parseString (s : List Char) (acc : List Char) : Option (String × List Char) :=
  match s with
  | [] => none
  | ch :: rest =>
    if ch = '"' then some (String.mk acc, rest)
    else if ch = '\\' then
      match rest with
      | [] => none
      | e :: r =>
        if e = 'u' then
          match r with
          | a :: b :: c :: d :: r4 =>
            match hexVal a, hexVal b, hexVal c, hexVal d with
            | some x, some y, some z, some w =>
              parseString r4 (acc ++ [Char.ofNat (((x * 16 + y) * 16 + z) * 16 + w)])
            | _, _, _, _ => none
          | _ => none
        else
          match unescape e with
          | some x => parseString r (acc ++ [x])
          | none => none
    else if ch.toNat < 32 then none
    else parseString rest (acc ++ [ch])

/-- The text behind the literal `lit`, when the text starts with it. -/
def dropLiteral (lit : List Char) (s : List Char) : Option (List Char) :=
  match lit, s with
  | [], rest => some rest
  | _ :: _, [] => none
  | x :: xs, y :: ys => if x = y then dropLiteral xs ys else none

mutual
/-- A decoder reads one JSON value in compact form from the head of a text:
the value and the text behind it. `fuel` bounds the work; the length of the
text is enough. -/
def parseValue (fuel : Nat) (s : List Char) : Option (Json × List Char) :=
  match fuel with
  | 0 => none
  | fuel + 1 =>
    match s with
    | [] => none
    | ch :: rest =>
      if ch = 'n' then (dropLiteral ['u', 'l', 'l'] rest).map (fun r => (Json.null, r))
      else if ch = 't' then (dropLiteral ['r', 'u', 'e'] rest).map (fun r => (Json.bool true, r))
      else if ch = 'f' then
        (dropLiteral ['a', 'l', 's', 'e'] rest).map (fun r => (Json.bool false, r))
      else if ch = '"' then (parseString rest []).map (fun p => (Json.str p.1, p.2))
      else if ch = '[' then
        match rest with
        | [] => none
        | c2 :: r2 =>
          if c2 = ']' then some (Json.arr [], r2)
          else
            match parseValue fuel rest with
            | none => none
            | some (v, r) => parseItems fuel r [v]
      else if ch = '\x7b' then
        match rest with
        | [] => none
        | c2 :: r2 =>
          if c2 = '\x7d' then some (Json.obj [], r2)
          else parseMembers fuel rest []
      else
        let literal := (ch :: rest).takeWhile isNumChar
        if validNumber literal then
          some (Json.num (String.mk literal), (ch :: rest).dropWhile isNumChar)
        else none
/-- A decoder reads the rest of an array, behind an element: a comma and a
further element, or the closing bracket. -/
def parseItems (fuel : Nat) (s : List Char) (acc : List Json) : Option (Json × List Char) :=
  match fuel with
  | 0 => none
  | fuel + 1 =>
    match s with
    | [] => none
    | ch :: rest =>
      if ch = ']' then some (Json.arr acc, rest)
      else if ch = ',' then
        match parseValue fuel rest with
        | none => none
        | some (v, r) => parseItems fuel r (acc ++ [v])
      else none
/-- A decoder reads the members of an object from its first key on: a key, a
colon, a value, then a comma and a further member, or the closing brace. -/
def parseMembers (fuel : Nat) (s : List Char) (acc : List (String × Json)) :
    Option (Json × List Char) :=
  match fuel with
  | 0 => none
  | fuel + 1 =>
    match s with
    | [] => none
    | ch :: rest =>
      if ch = '"' then
        match parseString rest [] with
        | none => none
        | some (k, r) =>
          match r with
          | [] => none
          | colon :: r1 =>
            if colon = ':' then
              match parseValue fuel r1 with
              | none => none
              | some (v, r2) =>
                match r2 with
                | [] => none
                | c3 :: r3 =>
                  if c3 = '\x7d' then some (Json.obj (acc ++ [(k, v)]), r3)
                  else if c3 = ',' then parseMembers fuel r3 (acc ++ [(k, v)])
                  else none
            else none
      else none
end

/-- A peer decodes a line: one JSON value in compact form, then the line
break and nothing else. -/
def decodeLine (line : String) : Option Json :=
  match parseValue line.data.length line.data with
  | some (v, ['\n']) => some v
  | _ => none

/-- The member `name` of a decoded object; `none` when the value is no object
or has no such member. -/
def Json.member (v : Json) (name : String) : Option Json :=
  match v with
  | .obj members => (members.find? (fun m => decide (m.1 = name))).map Prod.snd
  | _ => none

/-- The member `params` of a marshalled request: left out when the params are
nil (`omitempty`). -/
def encodeParamsMember (params : Json) : Except Error (List Char) :=
  match params with
  | .null => .ok []
  | params =>
    match encodeJson params with
    | .error err => .error err
    | .ok text => .ok (",\"params\":".data ++ text)

/-- The member `id` of a marshalled request: left out when the raw id is empty
(`omitempty`), else the raw id as it stands; a raw id that is not one JSON
value in compact form is refused. -/
def encodeIdMember (id : RawMessage) : Except Error (List Char) :=
  match id with
  | none => .ok []
  | some raw =>
    if raw.data.isEmpty then .ok []
    else
      match parseValue raw.data.length raw.data with
      | some (_, []) => .ok (",\"id\":".data ++ raw.data)
      | _ => .error "json: error calling MarshalJSON for type json.RawMessage"

/-- What `json.Marshal` writes for a `JsonRpcRequest`, from its struct tags:
the members `jsonrpc` and `method`, then `params`, then `id`, between braces. -/
def marshalRequest (req : JsonRpcRequest) : Except Error String :=
  match encodeParamsMember req.Params with
  | .error err => .error err
  | .ok params =>
    match encodeIdMember req.ID with
    | .error err => .error err
    | .ok id =>
      .ok (String.mk
        ("\x7b\"jsonrpc\":".data ++ encodeString req.JSONRPC ++ ",\"method\":".data
          ++ encodeString req.Method ++ params ++ id ++ ['\x7d']))

/-! ## Go strings: bytes, and what `encoding/json` makes of them -/

/-- A Go `string`: a sequence of bytes (numbers below 256), which need not be
valid UTF-8. -/
abbrev GoString := List Nat

/-- The bytes of one character in UTF-8 (`utf8.AppendRune`). -/
def utf8EncodeChar (ch : Char) : List Nat :=
  if ch.toNat < 128 then [ch.toNat]
  else if ch.toNat < 2048 then [192 + ch.toNat / 64, 128 + ch.toNat % 64]
  else if ch.toNat < 65536 then
    [224 + ch.toNat / 4096, 128 + ch.toNat / 64 % 64, 128 + ch.toNat % 64]
  else
    [240 + ch.toNat / 262144, 128 + ch.toNat / 4096 % 64, 128 + ch.toNat / 64 % 64,
      128 + ch.toNat % 64]

/-- The Go string that holds a text: its characters in UTF-8. -/
def GoString.ofText (s : String) : GoString :=
  s.data.flatMap utf8EncodeChar

/-- The function `utf8.DecodeRuneInString` at the head of a Go string: the
character and the number of bytes of its encoding; `none` stands for
`RuneError` of width 1, the answer for a byte that starts no valid encoding. -/
def decodeRune (s : GoString) : Option (Char × Nat) :=
  match s with
  | [] => none
  | s0 :: r0 =>
    if s0 < 128 then some (Char.ofNat s0, 1)
    else if s0 < 194 ∨ 244 < s0 then none
    else
      match r0 with
      | [] => none
      | s1 :: r1 =>
        if s1 < (if s0 = 224 then 160 else if s0 = 240 then 144 else 128)
            ∨ (if s0 = 237 then 159 else if s0 = 244 then 143 else 191) < s1 then none
        else if s0 < 224 then some (Char.ofNat (s0 % 32 * 64 + s1 % 64), 2)
        else
          match r1 with
          | [] => none
          | s2 :: r2 =>
            if s2 < 128 ∨ 191 < s2 then none
            else if s0 < 240 then
              some (Char.ofNat (s0 % 16 * 4096 + s1 % 64 * 64 + s2 % 64), 3)
            else
              match r2 with
              | [] => none
              | s3 :: _ =>
                if s3 < 128 ∨ 191 < s3 then none
                else
                  some (Char.ofNat (s0 % 8 * 262144 + s1 % 64 * 4096 + s2 % 64 * 64 + s3 % 64),
                    4)

/-- What `encoding/json` writes between the quotes for a Go string: each
character that is validly encoded as `escapeChar` has it, each byte that
starts no valid encoding as the six characters `\ufffd`. -/
def escapeBytes (fuel : Nat) (s : GoString) : List Char :=
  match fuel, s with
  | 0, _ => []
  | _ + 1, [] => []
  | fuel + 1, b :: rest =>
    match decodeRune (b :: rest) with
    | none => '\\' :: 'u' :: 'f' :: 'f' :: 'f' :: 'd' :: escapeBytes fuel rest
    | some (ch, size) => escapeChar ch ++ escapeBytes fuel ((b :: rest).drop size)

/-- What `encoding/json` writes for a Go string. -/
def encodeGoString (s : GoString) : List Char :=
  '"' :: (escapeBytes s.length s ++ ['"'])

/-- The text a Go string reads as, character by character (`range`): a byte
that starts no valid encoding reads as U+FFFD. -/
def goText (fuel : Nat) (s : GoString) : List Char :=
  match fuel, s with
  | 0, _ => []
  | _ + 1, [] => []
  | fuel + 1, b :: rest =>
    match decodeRune (b :: rest) with
    | none => Char.ofNat 65533 :: goText fuel rest
    | some (ch, size) => ch :: goText fuel ((b :: rest).drop size)

/-- What `json.Marshal` writes for a `JsonRpcRequest` whose field `Method`
holds the Go string `method`, whatever its bytes. -/
def marshalRequestGo (method : GoString) (req : JsonRpcRequest) : Except Error String :=
  match encodeParamsMember req.Params with
  | .error err => .error err
  | .ok params =>
    match encodeIdMember req.ID with
    | .error err => .error err
    | .ok id =>
      .ok (String.mk
        ("\x7b\"jsonrpc\":".data ++ encodeString req.JSONRPC ++ ",\"method\":".data
          ++ encodeGoString method ++ params ++ id ++ ['\x7d']))

/-- The method `sendRequest` called with a method that is any Go string. The
bytes of the method reach `json.Marshal` alone (line 155). -/
def sendRequestGo (cfg : Codec) (c : McpClient) (method : GoString) (params : Json)
    (x : Exchange) : Option (Option JsonRpcResponse × Option Error) × McpClient :=
  sendRequest { cfg with marshal := marshalRequestGo method } c
    (String.mk (goText method.length method)) params x

/-- The method `sendNotification` called with a method that is any Go string. -/
def sendNotificationGo (cfg : Codec) (c : McpClient) (method : GoString) (params : Json)
    (werr : Option Error) : Option Error × McpClient :=
  sendNotification { cfg with marshal := marshalRequestGo method } c
    (String.mk (goText method.length method)) params werr

/-! ## What the specification says, in its own words -/

/-- The textual result as the specification words it: every block typed
"text", in arrival order, each followed by one line break. -/
def specText (content : List McpContent) : String :=
  String.join ((content.filter (fun b => decide (b.Type_ = "text"))).map (fun b => b.Text ++ "\n"))

/-- The rendering of a remote error as the specification words it:
`MCP error (<code>): <message>`. -/
def specRemoteError (code : Int) (message : String) : Error :=
  "MCP error (" ++ toString code ++ "): " ++ message

/-! ## A stand-in codec for concrete runs -/

/-- A response line carrying result `r` under the raw id `id`. -/
def sampleResultLine (id r : String) : String :=
  "\x7b\"jsonrpc\":\"2.0\",\"id\":" ++ id ++ ",\"result\":" ++ r ++ "\x7d\n"

/-- The response lines the stand-in codec knows, with what they decode to. -/
def sampleLines : List (String × JsonRpcResponse) :=
  [(sampleResultLine "1" "\"abc\"", { JSONRPC := "2.0", Result := some "\"abc\"", ID := some "1" }),
   (sampleResultLine "1" "\"err\"", { JSONRPC := "2.0", Result := some "\"err\"", ID := some "1" }),
   (sampleResultLine "1" "\"one\"", { JSONRPC := "2.0", Result := some "\"one\"", ID := some "1" }),
   (sampleResultLine "2" "\"two\"", { JSONRPC := "2.0", Result := some "\"two\"", ID := some "2" }),
   (sampleResultLine "3" "\"three\"", { JSONRPC := "2.0", Result := some "\"three\"", ID := some "3" }),
   ("\x7b\"jsonrpc\":\"2.0\",\"id\":1,\"error\":\x7b\"code\":-32601,\"message\":\"Method not found\"\x7d\x7d\n",
    { JSONRPC := "2.0", Error := some { Code := -32601, Message := "Method not found" }, ID := some "1" }),
   ("\x7b\"jsonrpc\":\"2.0\",\"method\":\"notifications/progress\"\x7d\n", { JSONRPC := "2.0" })]

/-- The tool-call results the stand-in codec knows. -/
def sampleToolResults : List (String × McpCallToolResult) :=
  [("\"abc\"",
    { Content := [{ Type_ := "text", Text := "a" }, { Type_ := "image" }, { Type_ := "text", Text := "b" }] }),
   ("\"err\"", { Content := [{ Type_ := "text", Text := "boom" }], IsError := true }),
   ("\"one\"", { Content := [{ Type_ := "image" }] })]

/-- A codec for concrete runs. It stands in for `encoding/json` on a handful of
lines only: a request is rendered by its method and id, a line or result
outside the tables fails to decode. -/
def sampleCodec : Codec where
  marshal req := .ok (req.Method ++ "#" ++ req.ID.getD "")
  unmarshalResponse line :=
    match sampleLines.lookup line with
    | some r => .ok r
    | none => .error "invalid character"
  unmarshalInitializeResult raw :=
    match raw with
    | some _ =>
      .ok { ProtocolVersion := "2024-11-05", Capabilities := [], ServerInfo := { Name := "s", Version := "1" } }
    | none => .error "unexpected end of JSON input"
  unmarshalCallToolResult raw :=
    match raw.bind (fun r => sampleToolResults.lookup r) with
    | some r => .ok r
    | none => .error "unexpected end of JSON input"
  unmarshalToolListResult raw :=
    match raw with
    | some "\"one\"" =>
      .ok { Tools := [{ Name := "read_file", Description := "Read a file",
                        InputSchema := { Type_ := "object", Required := ["path"] } }] }
    | some "\"two\"" =>
      .ok { Tools := [{ Name := "ls" }, { Name := "cat", Description := "Print a file" }] }
    | _ => .error "unexpected end of JSON input"

/-- A stand-in for what `Chat` calls outside `chat.go`, for concrete runs: a
file encodes to its path between `b64(` and `)`, the server echoes the model
and answers "ok". -/
def sampleChatEnv : ChatEnv where
  base64EncodeFile path := .ok ("b64(" ++ path ++ ")")
  apiPost req :=
    .ok { Model := req.Model, MessageRole := "assistant", MessageContent := "ok",
          MessageToolCalls := [], PromptEvalCount := 1, EvalCount := 1 }
  trimSpace text := text

/-- The codec of the concrete runs with `marshalRequest` for `json.Marshal`. -/
def jsonCodec : Codec := { sampleCodec with marshal := marshalRequest }

/-- A client on which three requests have been issued and none answered:
ids "1", "2", "3" wait on channels 0, 1, 2. -/
def sampleWaiting : McpClient :=
  { seq := 3, pending := [("3", 2), ("2", 1), ("1", 0)],
    stdin := ["tools/list#1\n", "tools/list#2\n", "tools/list#3\n"], made := 3 }

/-! ## Notions used to state the properties -/

/-- The first response among `lines`, in reading order, that decodes and
carries the raw id `id`. -/
def firstWithId (cfg : Codec) (lines : List String) (id : String) : Option JsonRpcResponse :=
  match lines with
  | [] => none
  | l :: ls =>
    match cfg.unmarshalResponse l with
    | .ok r => if r.ID = some id then some r else firstWithId cfg ls id
    | .error _ => firstWithId cfg ls id

/-- The raw id of a line once decoded; `none` when the line does not decode or
has no "id" member. -/
def lineId (cfg : Codec) (line : String) : RawMessage :=
  match cfg.unmarshalResponse line with
  | .ok r => r.ID
  | .error _ => none

/-- The line decodes: `json.Unmarshal` returns no error on it. -/
def decodes (cfg : Codec) (line : String) : Bool :=
  match cfg.unmarshalResponse line with
  | .ok _ => true
  | .error _ => false

/-- A step of a session: a caller runs `sendRequest` up to its wait, or the
reader takes one line. -/
inductive Op where
  | send (method : String) (params : Json) (werr : Option Error) : Op
  | line (l : String) : Op

/-- The effect of one step on the client. -/
def step (cfg : Codec) (c : McpClient) (op : Op) : McpClient :=
  match op with
  | .send method params werr => (sendRequestIssue cfg c method params werr).2
  | .line l => readLoopLine cfg c l

/-- The effect of a sequence of steps. -/
def run (cfg : Codec) (ops : List Op) (c : McpClient) : McpClient :=
  ops.foldl (step cfg) c

/-- The id strings allocated by the `send` steps of a run, in order. -/
def issuedIds (cfg : Codec) (ops : List Op) (c : McpClient) : List String :=
  match ops with
  | [] => []
  | .send method params werr :: rest =>
    toString c.addSeq.1 :: issuedIds cfg rest (step cfg c (.send method params werr))
  | .line l :: rest => issuedIds cfg rest (step cfg c (.line l))

/-- The number of `send` steps. -/
def sendCount (ops : List Op) : Nat :=
  match ops with
  | [] => 0
  | .send _ _ _ :: rest => sendCount rest + 1
  | .line _ :: rest => sendCount rest

/-- The state of the slots and the registry that every run keeps: one entry
for a key, one key for a channel, registered channels empty, no channel sent
more than its buffer of one holds. -/
structure Consistent (c : McpClient) : Prop where
  keys : (c.pending.map Prod.fst).Nodup
  chans : (c.pending.map Prod.snd).Nodup
  known : ∀ e ∈ c.pending, e.2 < c.made
  empty : ∀ e ∈ c.pending, c.slot e.2 = []
  sent : ∀ d ∈ c.delivered, d.1 < c.made
  once : ∀ ch : Chan, (c.slot ch).length ≤ 1

/-- The value of a decimal digit character. -/
def digitVal (ch : Char) : Nat := ch.toNat - 48

/-- The number that decimal digits write, most significant first, on top of
the number `acc` already read. -/
def digitsVal (acc : Nat) (cs : List Char) : Nat :=
  cs.foldl (fun a ch => 10 * a + digitVal ch) acc

/-- The tool the specification describes for a remote descriptor: its name,
description and parameter schema, typed "function". -/
def specTool (t : McpTool) : Tool :=
  { Type_ := "function",
    Function := { Name := t.Name, Description := t.Description, Parameters := t.InputSchema } }

/-- The value an environment entry gives the key `k`: the text after the first
`=` when the text before it is `k`; `none` for any other entry. -/
def entryValue (k : String) (entry : String) : Option String :=
  let name := entry.data.takeWhile (fun ch => decide (ch ≠ '='))
  match entry.data.dropWhile (fun ch => decide (ch ≠ '=')) with
  | [] => none
  | _ :: value => if name = k.data then some (String.mk value) else none

/-- The value of `k` in an environment list: that of the last entry for `k`,
the one a child process is given. -/
def lookupEnv (env : List String) (k : String) : Option String :=
  env.foldl (fun found entry => (entryValue k entry).orElse (fun _ => found)) none

/-- The params of the handshake's request, as `initialize` builds them. -/
def handshakeParams : Json :=
  McpInitializeParams.toJson
    { ProtocolVersion := "2024-11-05"
      Capabilities := {}
      ClientInfo := { Name := "gollama-mcp-client", Version := "1.0.0" } }

/-- The members a message has for its params: none for nil params
(`omitempty`), else the member `params`. -/
def paramsMember (params : Json) : List (String × Json) :=
  match params with
  | .null => []
  | params => [("params", params)]

/-- The members a message has for its id: none for a notification. -/
def idMember (id : Option Json) : List (String × Json) :=
  match id with
  | none => []
  | some v => [("id", v)]

/-- The JSON document of a message with the given method, params and id, its
members in the order of the fields of `JsonRpcRequest`. -/
def requestDocument (method : String) (params : Json) (id : Option Json) : Json :=
  .obj ([("jsonrpc", .str "2.0"), ("method", .str method)] ++ paramsMember params ++ idMember id)

/-- What a peer that decodes a document into a `JsonRpcRequest` finds in the
field `Params`: the member `params`, or nil when the document has none. -/
def peerParams (doc : Json) : Json :=
  (doc.member "params").getD .null

/-! ## Lemmas -/

theorem foldl_append_join (l : List String) (a : String) :
    l.foldl (fun r s => r ++ s) a = a ++ String.join l := by
  induction l generalizing a with
  | nil => simp [String.join]
  | cons s ss ih =>
    have h1 : String.join (s :: ss) = s ++ String.join ss := by
      show List.foldl (fun r s => r ++ s) "" (s :: ss) = _
      rw [List.foldl_cons, ih]
      simp
    rw [List.foldl_cons, ih, h1, String.append_assoc]

theorem join_cons (s : String) (ss : List String) :
    String.join (s :: ss) = s ++ String.join ss := by
  show List.foldl (fun r s => r ++ s) "" (s :: ss) = _
  rw [List.foldl_cons, foldl_append_join]
  simp

theorem foldl_combine (content : List McpContent) (acc : String) :
    content.foldl (fun output b => if b.Type_ = "text" then output ++ (b.Text ++ "\n") else output) acc
      = acc ++ specText content := by
  induction content generalizing acc with
  | nil => simp [specText, String.join]
  | cons b bs ih =>
    rw [List.foldl_cons, ih]
    by_cases h : b.Type_ = "text"
    · simp only [h, if_true, specText, List.filter_cons, decide_True, List.map_cons, join_cons,
        String.append_assoc]
    · simp [h, specText, List.filter_cons]

theorem combineText_eq_specText (content : List McpContent) :
    combineText content = specText content := by
  unfold combineText
  rw [foldl_combine]
  simp

theorem Registry.get_mem {m : Registry} {k : String} {v : Chan} (h : Registry.get m k = some v) :
    (k, v) ∈ m := by
  induction m with
  | nil => simp [Registry.get] at h
  | cons e rest ih =>
    unfold Registry.get at h
    by_cases hk : e.1 = k
    · simp only [hk, if_true, Option.some.injEq] at h
      have : e = (k, v) := Prod.ext hk h
      simp [this]
    · simp only [hk, if_false] at h
      exact List.mem_cons_of_mem _ (ih h)

theorem Registry.get_eq_none {m : Registry} {k : String} :
    Registry.get m k = none ↔ k ∉ m.map Prod.fst := by
  induction m with
  | nil => simp [Registry.get]
  | cons e rest ih =>
    unfold Registry.get
    by_cases hk : e.1 = k
    · simp [hk]
    · simp only [hk, if_false, ih, List.map_cons, List.mem_cons, not_or]
      constructor
      · intro h; exact ⟨fun h2 => hk h2.symm, h⟩
      · intro h; exact h.2

theorem Registry.get_of_mem {m : Registry} {k : String} {v : Chan}
    (hnd : (m.map Prod.fst).Nodup) (h : (k, v) ∈ m) : Registry.get m k = some v := by
  induction m with
  | nil => simp at h
  | cons e rest ih =>
    unfold Registry.get
    rw [List.map_cons, List.nodup_cons] at hnd
    rcases List.mem_cons.mp h with h1 | h1
    · simp [← h1]
    · have hne : e.1 ≠ k := by
        intro hk
        apply hnd.1
        rw [hk]
        exact List.mem_map_of_mem Prod.fst h1
      simp only [hne, if_false]
      exact ih hnd.2 h1

theorem Registry.mem_delete {m : Registry} {k : String} {e : String × Chan} :
    e ∈ Registry.delete m k ↔ e ∈ m ∧ e.1 ≠ k := by
  simp [Registry.delete]

theorem Registry.delete_absent {m : Registry} {k : String} (h : Registry.get m k = none) :
    Registry.delete m k = m := by
  rw [Registry.get_eq_none] at h
  unfold Registry.delete
  rw [List.filter_eq_self]
  intro e he
  have : e.1 ≠ k := fun hk => h (hk ▸ List.mem_map_of_mem Prod.fst he)
  simpa using this

theorem Registry.get_delete_self (m : Registry) (k : String) :
    Registry.get (Registry.delete m k) k = none := by
  rw [Registry.get_eq_none]
  intro h
  obtain ⟨e, he, hk⟩ := List.mem_map.mp h
  exact (Registry.mem_delete.mp he).2 hk

theorem Registry.get_delete_other (m : Registry) {k j : String} (h : j ≠ k) :
    Registry.get (Registry.delete m k) j = Registry.get m j := by
  induction m with
  | nil => rfl
  | cons e rest ih =>
    by_cases hk : e.1 = k
    · have : Registry.delete (e :: rest) k = Registry.delete rest k := by
        simp [Registry.delete, List.filter_cons, hk]
      rw [this, ih]
      have hj : e.1 ≠ j := fun hj => h (hj ▸ hk)
      simp [Registry.get, hj]
    · have : Registry.delete (e :: rest) k = e :: Registry.delete rest k := by
        simp [Registry.delete, List.filter_cons, hk]
      rw [this]
      unfold Registry.get
      rw [ih]

theorem Registry.delete_keys_nodup {m : Registry} (k : String) (h : (m.map Prod.fst).Nodup) :
    ((Registry.delete m k).map Prod.fst).Nodup :=
  List.Nodup.sublist ((List.filter_sublist m).map Prod.fst) h

theorem Registry.delete_chans_nodup {m : Registry} (k : String) (h : (m.map Prod.snd).Nodup) :
    ((Registry.delete m k).map Prod.snd).Nodup :=
  List.Nodup.sublist ((List.filter_sublist m).map Prod.snd) h

theorem readLoopLine_error {cfg : Codec} {c : McpClient} {l : String} {err : Error}
    (h : cfg.unmarshalResponse l = .error err) : readLoopLine cfg c l = c := by
  simp [readLoopLine, h]

theorem readLoopLine_noId {cfg : Codec} {c : McpClient} {l : String} {r : JsonRpcResponse}
    (h : cfg.unmarshalResponse l = .ok r) (hid : r.ID = none) : readLoopLine cfg c l = c := by
  simp [readLoopLine, h, hid]

theorem readLoopLine_unregistered {cfg : Codec} {c : McpClient} {l : String} {r : JsonRpcResponse}
    {id : String} (h : cfg.unmarshalResponse l = .ok r) (hid : r.ID = some id)
    (hget : c.pending.get id = none) : readLoopLine cfg c l = c := by
  simp [readLoopLine, h, hid, hget]

theorem readLoopLine_registered {cfg : Codec} {c : McpClient} {l : String} {r : JsonRpcResponse}
    {id : String} {ch : Chan} (h : cfg.unmarshalResponse l = .ok r) (hid : r.ID = some id)
    (hget : c.pending.get id = some ch) :
    readLoopLine cfg c l
      = { c with pending := c.pending.delete id, delivered := c.delivered ++ [(ch, r)] } := by
  simp [readLoopLine, h, hid, hget]

theorem readLoopLine_pending (cfg : Codec) (c : McpClient) (l : String) :
    (readLoopLine cfg c l).pending
      = c.pending.filter (fun e => (firstWithId cfg [l] e.1).isNone) := by
  cases h : cfg.unmarshalResponse l with
  | error err =>
    rw [readLoopLine_error h]
    simp [firstWithId, h]
  | ok r =>
    cases hid : r.ID with
    | none =>
      rw [readLoopLine_noId h hid]
      simp [firstWithId, h, hid]
    | some id =>
      have hdel : (readLoopLine cfg c l).pending = c.pending.delete id := by
        cases hget : c.pending.get id with
        | none => rw [readLoopLine_unregistered h hid hget, Registry.delete_absent hget]
        | some ch => rw [readLoopLine_registered h hid hget]
      rw [hdel, Registry.delete]
      apply List.filter_congr
      intro e _
      by_cases he : e.1 = id
      · simp [firstWithId, h, hid, he]
      · have : ¬ id = e.1 := fun h2 => he h2.symm
        simp [firstWithId, h, hid, he, this]

theorem firstWithId_cons (cfg : Codec) (l : String) (ls : List String) (id : String) :
    firstWithId cfg (l :: ls) id
      = (firstWithId cfg [l] id).orElse (fun _ => firstWithId cfg ls id) := by
  cases h : cfg.unmarshalResponse l with
  | error err => simp [firstWithId, h]
  | ok r =>
    by_cases hid : r.ID = some id
    · simp [firstWithId, h, hid]
    · simp [firstWithId, h, hid]

theorem readLoop_cons (cfg : Codec) (l : String) (ls : List String) (c : McpClient) :
    readLoop cfg (l :: ls) c = readLoop cfg ls (readLoopLine cfg c l) := rfl

theorem readLoop_append (cfg : Codec) (ls ms : List String) (c : McpClient) :
    readLoop cfg (ls ++ ms) c = readLoop cfg ms (readLoop cfg ls c) := by
  simp [readLoop, List.foldl_append]

/-- The registry after the reader has taken `ls`: the entries no line answered. -/
theorem readLoop_pending (cfg : Codec) (ls : List String) (c : McpClient) :
    (readLoop cfg ls c).pending
      = c.pending.filter (fun e => (firstWithId cfg ls e.1).isNone) := by
  induction ls generalizing c with
  | nil => simp [readLoop, firstWithId]
  | cons l ls ih =>
    rw [readLoop_cons, ih, readLoopLine_pending, List.filter_filter]
    apply List.filter_congr
    intro e _
    rw [firstWithId_cons cfg l ls]
    cases firstWithId cfg [l] e.1 <;> simp

theorem readLoopLine_frame (cfg : Codec) (c : McpClient) (l : String) :
    (readLoopLine cfg c l).seq = c.seq ∧ (readLoopLine cfg c l).stdin = c.stdin
      ∧ (readLoopLine cfg c l).made = c.made
      ∧ (readLoopLine cfg c l).hasProcess = c.hasProcess := by
  unfold readLoopLine
  split
  · simp
  · split
    · simp
    · split <;> simp

theorem readLoop_frame (cfg : Codec) (ls : List String) (c : McpClient) :
    (readLoop cfg ls c).seq = c.seq ∧ (readLoop cfg ls c).stdin = c.stdin
      ∧ (readLoop cfg ls c).made = c.made
      ∧ (readLoop cfg ls c).hasProcess = c.hasProcess := by
  induction ls generalizing c with
  | nil => simp [readLoop]
  | cons l ls ih =>
    rw [readLoop_cons]
    obtain ⟨h1, h2, h3, h4⟩ := ih (readLoopLine cfg c l)
    obtain ⟨g1, g2, g3, g4⟩ := readLoopLine_frame cfg c l
    exact ⟨h1.trans g1, h2.trans g2, h3.trans g3, h4.trans g4⟩

theorem slot_deliver (c : McpClient) (m : Registry) (ch0 ch : Chan) (r : JsonRpcResponse) :
    McpClient.slot { c with pending := m, delivered := c.delivered ++ [(ch0, r)] } ch
      = c.slot ch ++ (if ch0 = ch then [r] else []) := by
  by_cases h : ch0 = ch <;> simp [McpClient.slot, List.filter_append, List.filter_cons, h]

/-- A channel that is not registered is sent nothing by the reader. -/
theorem readLoop_slot_unregistered (cfg : Codec) (ls : List String) (c : McpClient) (ch : Chan)
    (h : ch ∉ c.pending.map Prod.snd) : (readLoop cfg ls c).slot ch = c.slot ch := by
  induction ls generalizing c with
  | nil => rfl
  | cons l ls ih =>
    rw [readLoop_cons]
    have hsub : ch ∉ (readLoopLine cfg c l).pending.map Prod.snd := by
      rw [readLoopLine_pending]
      intro hmem
      exact h ((List.filter_sublist c.pending).map Prod.snd |>.subset hmem)
    rw [ih _ hsub]
    cases hd : cfg.unmarshalResponse l with
    | error err => rw [readLoopLine_error hd]
    | ok r =>
      cases hid : r.ID with
      | none => rw [readLoopLine_noId hd hid]
      | some id =>
        cases hget : c.pending.get id with
        | none => rw [readLoopLine_unregistered hd hid hget]
        | some ch0 =>
          rw [readLoopLine_registered hd hid hget, slot_deliver]
          have hne : ch0 ≠ ch := by
            intro heq
            apply h
            rw [← heq]
            exact List.mem_map_of_mem Prod.snd (Registry.get_mem hget)
          simp [hne]

/-- A registered channel is sent the first response that carries its id, and
nothing else. -/
theorem readLoop_slot_registered (cfg : Codec) (ls : List String) (c : McpClient)
    (hk : (c.pending.map Prod.fst).Nodup) (hc : (c.pending.map Prod.snd).Nodup)
    (id : String) (ch : Chan) (hmem : (id, ch) ∈ c.pending) :
    (readLoop cfg ls c).slot ch = c.slot ch ++ (firstWithId cfg ls id).toList := by
  induction ls generalizing c with
  | nil => simp [readLoop, firstWithId]
  | cons l ls ih =>
    rw [readLoop_cons]
    cases hd : cfg.unmarshalResponse l with
    | error err =>
      rw [readLoopLine_error hd, ih c hk hc hmem]
      simp [firstWithId, hd]
    | ok r =>
      cases hid : r.ID with
      | none =>
        rw [readLoopLine_noId hd hid, ih c hk hc hmem]
        simp [firstWithId, hd, hid]
      | some id0 =>
        by_cases hsame : id0 = id
        · subst hsame
          have hget := Registry.get_of_mem hk hmem
          rw [readLoopLine_registered hd hid hget]
          rw [readLoop_slot_unregistered, slot_deliver]
          · simp [firstWithId, hd, hid]
          · intro hin
            obtain ⟨e, he, hech⟩ := List.mem_map.mp hin
            have he2 := Registry.mem_delete.mp he
            have : e = (id0, ch) := by
              apply List.inj_on_of_nodup_map hc he2.1 hmem
              exact hech
            exact he2.2 (by rw [this])
        · have hfirst : firstWithId cfg (l :: ls) id = firstWithId cfg ls id := by
            have : ¬ (some id0 = some id) := by simpa using hsame
            simp [firstWithId, hd, hid, this]
          rw [hfirst]
          cases hget : c.pending.get id0 with
          | none => rw [readLoopLine_unregistered hd hid hget, ih c hk hc hmem]
          | some ch0 =>
            rw [readLoopLine_registered hd hid hget]
            have hne : ch0 ≠ ch := by
              intro heq
              have : (id0, ch0) = (id, ch) := by
                apply List.inj_on_of_nodup_map hc (Registry.get_mem hget) hmem
                exact heq
              exact hsame (congrArg Prod.fst this)
            rw [ih _ (Registry.delete_keys_nodup id0 hk) (Registry.delete_chans_nodup id0 hc)
              (Registry.mem_delete.mpr ⟨hmem, fun h => hsame h.symm⟩), slot_deliver]
            simp [hne]

theorem firstWithId_some {cfg : Codec} {ls : List String} {id : String} {r : JsonRpcResponse}
    (h : firstWithId cfg ls id = some r) :
    ∃ l ∈ ls, cfg.unmarshalResponse l = .ok r ∧ r.ID = some id := by
  induction ls with
  | nil => simp [firstWithId] at h
  | cons l ls ih =>
    unfold firstWithId at h
    cases hd : cfg.unmarshalResponse l with
    | error err =>
      rw [hd] at h
      obtain ⟨l2, hl2, h2⟩ := ih h
      exact ⟨l2, List.mem_cons_of_mem _ hl2, h2⟩
    | ok r0 =>
      rw [hd] at h
      by_cases hid : r0.ID = some id
      · simp only [hid, if_true, Option.some.injEq] at h
        subst h
        exact ⟨l, List.mem_cons_self _ _, hd, hid⟩
      · simp only [hid, if_false] at h
        obtain ⟨l2, hl2, h2⟩ := ih h
        exact ⟨l2, List.mem_cons_of_mem _ hl2, h2⟩

theorem firstWithId_isSome {cfg : Codec} {ls : List String} {id : String} {l : String}
    (hl : l ∈ ls) (hid : lineId cfg l = some id) : (firstWithId cfg ls id).isSome = true := by
  induction ls with
  | nil => simp at hl
  | cons l0 ls ih =>
    unfold firstWithId
    cases hd : cfg.unmarshalResponse l0 with
    | error err =>
      rcases List.mem_cons.mp hl with h1 | h1
      · subst h1
        simp [lineId, hd] at hid
      · exact ih h1
    | ok r0 =>
      by_cases h0 : r0.ID = some id
      · simp [h0]
      · simp only [h0, if_false]
        rcases List.mem_cons.mp hl with h1 | h1
        · subst h1
          simp [lineId, hd] at hid
          exact absurd hid h0
        · exact ih h1

theorem firstWithId_none {cfg : Codec} {ls : List String} {id : String}
    (h : ∀ l ∈ ls, lineId cfg l ≠ some id) : firstWithId cfg ls id = none := by
  cases hf : firstWithId cfg ls id with
  | none => rfl
  | some r =>
    obtain ⟨l, hl, hd, hid⟩ := firstWithId_some hf
    exact absurd (by simp [lineId, hd, hid]) (h l hl)

/-- Under the hypotheses of C4 each registered id is answered by one line. -/
theorem routes_aux (cfg : Codec) (c : McpClient) (lines : List String)
    (hkeys : (c.pending.map Prod.fst).Nodup)
    (hchans : (c.pending.map Prod.snd).Nodup)
    (hempty : ∀ e ∈ c.pending, c.slot e.2 = [])
    (hperm : (lines.map (lineId cfg)).Perm (c.pending.map (fun e => some e.1))) :
    (readLoop cfg lines c).pending = []
    ∧ ∀ id ch, (id, ch) ∈ c.pending →
        ∃ l ∈ lines, ∃ r, cfg.unmarshalResponse l = .ok r ∧ r.ID = some id
          ∧ (readLoop cfg lines c).slot ch = [r] := by
  have hanswered : ∀ e ∈ c.pending, (firstWithId cfg lines e.1).isSome = true := by
    intro e he
    have : some e.1 ∈ lines.map (lineId cfg) :=
      hperm.symm.subset (List.mem_map_of_mem (fun e : String × Chan => some e.1) he)
    obtain ⟨l, hl, hid⟩ := List.mem_map.mp this
    exact firstWithId_isSome hl hid
  constructor
  · rw [readLoop_pending, List.filter_eq_nil_iff]
    intro e he
    have := hanswered e he
    cases hf : firstWithId cfg lines e.1 with
    | none => rw [hf] at this; simp at this
    | some r => simp
  · intro id ch hmem
    have hs := hanswered (id, ch) hmem
    obtain ⟨r, hr⟩ := Option.isSome_iff_exists.mp hs
    obtain ⟨l, hl, hd, hid⟩ := firstWithId_some hr
    refine ⟨l, hl, r, hd, hid, ?_⟩
    rw [readLoop_slot_registered cfg lines c hkeys hchans id ch hmem, hempty (id, ch) hmem]
    simp at hr
    simp [hr]


theorem sampleWaiting_reached :
    run sampleCodec [.send "tools/list" (Json.obj []) none, .send "tools/list" (Json.obj []) none,
      .send "tools/list" (Json.obj []) none] NewMcpClient = sampleWaiting := by
  decide

theorem digitVal_digitChar (k : Nat) (h : k < 10) : digitVal (Nat.digitChar k) = k := by
  interval_cases k <;> rfl

theorem digitsVal_toDigitsCore (fuel n : Nat) (ds : List Char) (h : n < fuel) :
    digitsVal 0 (Nat.toDigitsCore 10 fuel n ds) = digitsVal n ds := by
  induction fuel generalizing n ds with
  | zero => omega
  | succ fuel ih =>
    unfold Nat.toDigitsCore
    by_cases h0 : n / 10 = 0
    · simp only [h0, if_true]
      have hn : n % 10 = n := Nat.mod_eq_of_lt (by omega)
      rw [hn]
      simp [digitsVal, digitVal_digitChar n (by omega)]
    · simp only [h0, if_false]
      rw [ih (n / 10) _ (by omega)]
      simp only [digitsVal, List.foldl_cons, digitVal_digitChar (n % 10) (Nat.mod_lt _ (by norm_num))]
      congr 1
      omega

theorem toString_nat_injective (a b : Nat) (h : toString a = toString b) : a = b := by
  have h1 : Nat.toDigits 10 a = Nat.toDigits 10 b := by
    have := congrArg String.data h
    simpa [toString, Nat.repr, List.asString] using this
  have ha := digitsVal_toDigitsCore (a + 1) a [] (by omega)
  have hb := digitsVal_toDigitsCore (b + 1) b [] (by omega)
  unfold Nat.toDigits at h1
  rw [h1, hb] at ha
  simpa [digitsVal] using ha.symm

theorem wrapInt64_add (x y : Int) : wrapInt64 (wrapInt64 x + y) = wrapInt64 (x + y) := by
  unfold wrapInt64
  omega

theorem wrapInt64_small (x : Int) (h0 : -(2 ^ 63) ≤ x) (h1 : x < 2 ^ 63) : wrapInt64 x = x := by
  unfold wrapInt64
  omega

/-- What the part of `sendRequest` before the wait does to the client. -/
theorem sendRequestIssue_state (cfg : Codec) (c : McpClient) (method : String) (params : Json)
    (werr : Option Error) :
    (∃ err, cfg.marshal
          { JSONRPC := "2.0", Method := method, Params := params,
            ID := some (toString (wrapInt64 (c.seq + 1))) } = .error err
        ∧ sendRequestIssue cfg c method params werr
            = (.error err, { c with seq := wrapInt64 (c.seq + 1) }))
    ∨ (∃ reqBytes, cfg.marshal
          { JSONRPC := "2.0", Method := method, Params := params,
            ID := some (toString (wrapInt64 (c.seq + 1))) } = .ok reqBytes
        ∧ (sendRequestIssue cfg c method params werr).2
            = { c with
                seq := wrapInt64 (c.seq + 1)
                made := c.made + 1
                pending := c.pending.set (toString (wrapInt64 (c.seq + 1))) c.made
                stdin := if werr.isSome then c.stdin else c.stdin ++ [reqBytes ++ "\n"] }) := by
  cases hm : cfg.marshal
      { JSONRPC := "2.0", Method := method, Params := params,
        ID := some (toString (wrapInt64 (c.seq + 1))) } with
  | error err =>
    left
    exact ⟨err, rfl, by simp [sendRequestIssue, sendRequestRegister, McpClient.addSeq, hm]⟩
  | ok reqBytes =>
    right
    refine ⟨reqBytes, rfl, ?_⟩
    cases werr with
    | none =>
      simp [sendRequestIssue, sendRequestRegister, McpClient.addSeq, McpClient.makeChan, hm,
        stdinWrite]
    | some e =>
      simp [sendRequestIssue, sendRequestRegister, McpClient.addSeq, McpClient.makeChan, hm,
        stdinWrite]

theorem step_send_seq (cfg : Codec) (c : McpClient) (method : String) (params : Json)
    (werr : Option Error) :
    (step cfg c (.send method params werr)).seq = wrapInt64 (c.seq + 1) := by
  rcases sendRequestIssue_state cfg c method params werr with ⟨err, _, h⟩ | ⟨b, _, h⟩
  · simp [step, h]
  · simp [step, h]

theorem step_line_seq (cfg : Codec) (c : McpClient) (l : String) :
    (step cfg c (.line l)).seq = c.seq := (readLoopLine_frame cfg c l).1

theorem run_cons (cfg : Codec) (op : Op) (ops : List Op) (c : McpClient) :
    run cfg (op :: ops) c = run cfg ops (step cfg c op) := rfl

theorem run_append (cfg : Codec) (ops ops2 : List Op) (c : McpClient) :
    run cfg (ops ++ ops2) c = run cfg ops2 (run cfg ops c) := by
  simp [run, List.foldl_append]

theorem range_map_succ (n : Nat) (f : Nat → String) :
    (List.range (n + 1)).map f = f 0 :: (List.range n).map (fun j => f (j + 1)) := by
  rw [List.range_succ_eq_map, List.map_cons, List.map_map]
  rfl

/-- The ids a run allocates: the counter's successive values, wrapping. -/
theorem issuedIds_eq (cfg : Codec) (ops : List Op) (c : McpClient) :
    issuedIds cfg ops c
      = (List.range (sendCount ops)).map (fun j => toString (wrapInt64 (c.seq + ((j : Nat) + 1)))) := by
  induction ops generalizing c with
  | nil => simp [issuedIds, sendCount]
  | cons op ops ih =>
    cases op with
    | send m p w =>
      rw [issuedIds, sendCount, range_map_succ, ih, step_send_seq]
      simp only [McpClient.addSeq, wrapInt64_add, Nat.cast_zero, zero_add, Nat.cast_add,
        Nat.cast_one]
      congr 1
      apply List.map_congr_left
      intro j _
      congr 2
      ring
    | line l =>
      rw [issuedIds, sendCount, ih, step_line_seq]

/-- The counter after a run from a counter in range. -/
theorem run_seq (cfg : Codec) (ops : List Op) (c : McpClient) (h : wrapInt64 c.seq = c.seq) :
    (run cfg ops c).seq = wrapInt64 (c.seq + sendCount ops) := by
  induction ops generalizing c with
  | nil => simp [run, sendCount, h]
  | cons op ops ih =>
    rw [run_cons]
    cases op with
    | send m p w =>
      rw [ih _ (by rw [step_send_seq]; unfold wrapInt64; omega), step_send_seq,
        sendCount, wrapInt64_add]
      congr 1
      push_cast
      ring
    | line l =>
      rw [ih _ (by rw [step_line_seq]; exact h), step_line_seq, sendCount]

theorem issuedIds_append (cfg : Codec) (ops ops2 : List Op) (c : McpClient) :
    issuedIds cfg (ops ++ ops2) c = issuedIds cfg ops c ++ issuedIds cfg ops2 (run cfg ops c) := by
  induction ops generalizing c with
  | nil => simp [issuedIds, run]
  | cons op ops ih =>
    cases op with
    | send m p w => simp [issuedIds, run_cons, ih]
    | line l => simp [issuedIds, run_cons, ih]

theorem sendCount_append (ops ops2 : List Op) :
    sendCount (ops ++ ops2) = sendCount ops + sendCount ops2 := by
  induction ops with
  | nil => simp [sendCount]
  | cons op ops ih =>
    cases op with
    | send m p w => simp [sendCount, ih]; omega
    | line l => simp [sendCount, ih]

theorem toString_natCast (m : Nat) : toString ((m : Nat) : Int) = toString m := rfl

/-- From a new client and below 2^63 calls, the ids are "1", "2", ... in order. -/
theorem issuedIds_new (cfg : Codec) (ops : List Op) (h : sendCount ops < 2 ^ 63) :
    issuedIds cfg ops NewMcpClient = (List.range (sendCount ops)).map (fun j => toString (j + 1)) := by
  rw [issuedIds_eq]
  apply List.map_congr_left
  intro j hj
  have hj2 : j < sendCount ops := List.mem_range.mp hj
  have hseq : NewMcpClient.seq = 0 := rfl
  rw [hseq, wrapInt64_small _ (by omega) (by omega)]
  have : (0 : Int) + ((j : Int) + 1) = ((j + 1 : Nat) : Int) := by push_cast; ring
  rw [this, toString_natCast]

theorem issuedIds_new_nodup (cfg : Codec) (ops : List Op) (h : sendCount ops < 2 ^ 63) :
    (issuedIds cfg ops NewMcpClient).Nodup := by
  rw [issuedIds_new cfg ops h]
  apply List.Nodup.map _ (List.nodup_range _)
  intro a b hab
  have := toString_nat_injective _ _ hab
  omega

theorem slot_of_delivered {c c2 : McpClient} (h : c2.delivered = c.delivered) (ch : Chan) :
    c2.slot ch = c.slot ch := by
  simp [McpClient.slot, h]

theorem slot_empty_of_unsent {c : McpClient} {ch : Chan} (h : ∀ d ∈ c.delivered, d.1 ≠ ch) :
    c.slot ch = [] := by
  unfold McpClient.slot
  rw [List.map_eq_nil_iff, List.filter_eq_nil_iff]
  intro d hd
  simpa using h d hd

/-- A new client is consistent. -/
theorem consistent_new : Consistent NewMcpClient where
  keys := by simp [NewMcpClient]
  chans := by simp [NewMcpClient]
  known := by simp [NewMcpClient]
  empty := by simp [NewMcpClient]
  sent := by simp [NewMcpClient]
  once := by simp [NewMcpClient, McpClient.slot]

/-- Issuing a request keeps the state consistent. -/
theorem consistent_send (cfg : Codec) (c : McpClient) (method : String) (params : Json)
    (werr : Option Error) (hc : Consistent c) :
    Consistent (sendRequestIssue cfg c method params werr).2 := by
  rcases sendRequestIssue_state cfg c method params werr with ⟨err, _, h⟩ | ⟨b, _, h⟩
  · rw [h]
    exact ⟨hc.keys, hc.chans, hc.known, hc.empty, hc.sent, hc.once⟩
  · rw [h]
    refine ⟨?_, ?_, ?_, ?_, ?_, ?_⟩
    · show ((Registry.set c.pending _ c.made).map Prod.fst).Nodup
      rw [Registry.set, List.map_cons, List.nodup_cons]
      refine ⟨?_, Registry.delete_keys_nodup _ hc.keys⟩
      intro hin
      obtain ⟨e, he, hk⟩ := List.mem_map.mp hin
      exact (Registry.mem_delete.mp he).2 hk
    · show ((Registry.set c.pending _ c.made).map Prod.snd).Nodup
      rw [Registry.set, List.map_cons, List.nodup_cons]
      refine ⟨?_, Registry.delete_chans_nodup _ hc.chans⟩
      intro hin
      obtain ⟨e, he, hk⟩ := List.mem_map.mp hin
      have := hc.known e (Registry.mem_delete.mp he).1
      simp only at hk
      exact absurd hk (Nat.ne_of_lt this)
    · intro e he
      show e.2 < c.made + 1
      change e ∈ Registry.set c.pending _ c.made at he
      rcases List.mem_cons.mp he with h1 | h1
      · rw [h1]; simp
      · exact Nat.lt_succ_of_lt (hc.known e (Registry.mem_delete.mp h1).1)
    · intro e he
      change e ∈ Registry.set c.pending _ c.made at he
      show c.slot e.2 = []
      rcases List.mem_cons.mp he with h1 | h1
      · rw [h1]
        apply slot_empty_of_unsent
        intro d hd
        exact Nat.ne_of_lt (hc.sent d hd)
      · exact hc.empty e (Registry.mem_delete.mp h1).1
    · intro d hd
      show d.1 < c.made + 1
      exact Nat.lt_succ_of_lt (hc.sent d hd)
    · intro ch
      exact hc.once ch

/-- One turn of the reader keeps the state consistent. -/
theorem consistent_line (cfg : Codec) (c : McpClient) (l : String) (hc : Consistent c) :
    Consistent (readLoopLine cfg c l) := by
  cases hd : cfg.unmarshalResponse l with
  | error err => rw [readLoopLine_error hd]; exact hc
  | ok r =>
    cases hid : r.ID with
    | none => rw [readLoopLine_noId hd hid]; exact hc
    | some id =>
      cases hget : c.pending.get id with
      | none => rw [readLoopLine_unregistered hd hid hget]; exact hc
      | some ch =>
        rw [readLoopLine_registered hd hid hget]
        have hmem := Registry.get_mem hget
        have hother : ∀ e ∈ Registry.delete c.pending id, ch ≠ e.2 := by
          intro e he heq
          have he2 := Registry.mem_delete.mp he
          have : (id, ch) = e := List.inj_on_of_nodup_map hc.chans hmem he2.1 heq
          exact he2.2 (by rw [← this])
        refine ⟨Registry.delete_keys_nodup _ hc.keys, Registry.delete_chans_nodup _ hc.chans,
          ?_, ?_, ?_, ?_⟩
        · intro e he
          exact hc.known e (Registry.mem_delete.mp he).1
        · intro e he
          rw [slot_deliver, hc.empty e (Registry.mem_delete.mp he).1]
          simp [hother e he]
        · intro d hd2
          show d.1 < c.made
          change d ∈ c.delivered ++ [(ch, r)] at hd2
          rcases List.mem_append.mp hd2 with h1 | h1
          · exact hc.sent d h1
          · simp at h1
            rw [h1]
            exact hc.known _ hmem
        · intro x
          rw [slot_deliver]
          by_cases hx : ch = x
          · subst hx
            have := hc.empty _ hmem
            simp only at this
            simp [this]
          · simp [hx, hc.once x]

theorem consistent_step (cfg : Codec) (c : McpClient) (op : Op) (hc : Consistent c) :
    Consistent (step cfg c op) := by
  cases op with
  | send m p w => exact consistent_send cfg c m p w hc
  | line l => exact consistent_line cfg c l hc

/-- Every state a session reaches is consistent. -/
theorem consistent_run (cfg : Codec) (ops : List Op) (c : McpClient) (hc : Consistent c) :
    Consistent (run cfg ops c) := by
  induction ops generalizing c with
  | nil => exact hc
  | cons op ops ih => exact ih _ (consistent_step cfg c op hc)

/-- The ids registered after a run were registered before it or allocated in it. -/
theorem run_keys (cfg : Codec) (ops : List Op) (c : McpClient) (k : String)
    (hk : k ∈ (run cfg ops c).pending.map Prod.fst) :
    k ∈ c.pending.map Prod.fst ∨ k ∈ issuedIds cfg ops c := by
  induction ops generalizing c with
  | nil => exact Or.inl hk
  | cons op ops ih =>
    rw [run_cons] at hk
    rcases ih _ hk with h1 | h1
    · cases op with
      | send m p w =>
        rcases sendRequestIssue_state cfg c m p w with ⟨err, _, h⟩ | ⟨b, _, h⟩
        · left
          simpa [step, h] using h1
        · simp only [step, h] at h1
          change k ∈ (Registry.set c.pending _ c.made).map Prod.fst at h1
          rw [Registry.set, List.map_cons, List.mem_cons] at h1
          rcases h1 with h2 | h2
          · right
            simp [issuedIds, McpClient.addSeq, h2]
          · left
            obtain ⟨e, he, hek⟩ := List.mem_map.mp h2
            exact List.mem_map.mpr ⟨e, (Registry.mem_delete.mp he).1, hek⟩
      | line l =>
        left
        simp only [step] at h1
        rw [readLoopLine_pending] at h1
        exact ((List.filter_sublist c.pending).map Prod.fst).subset h1
    · right
      cases op with
      | send m p w => simp [issuedIds, h1]
      | line l => simpa [issuedIds] using h1

theorem sendCount_replicate (n : Nat) (m : String) (p : Json) (w : Option Error) :
    sendCount (List.replicate n (Op.send m p w)) = n := by
  induction n with
  | zero => rfl
  | succ n ih => rw [List.replicate_succ, sendCount, ih]

theorem issuedIds_getElem (cfg : Codec) (ops : List Op) (c : McpClient) (j : Nat)
    (hj : j < sendCount ops) :
    (issuedIds cfg ops c)[j]? = some (toString (wrapInt64 (c.seq + ((j : Nat) + 1)))) := by
  rw [issuedIds_eq, List.getElem?_map, List.getElem?_range hj]
  rfl

theorem sendRequestRegister_ok {cfg : Codec} {c c3 : McpClient} {method : String} {params : Json}
    {idStr reqBytes : String} {ch : Chan}
    (h : sendRequestRegister cfg c method params = (.ok (idStr, ch, reqBytes), c3)) :
    idStr = toString (wrapInt64 (c.seq + 1)) ∧ ch = c.made
    ∧ cfg.marshal { JSONRPC := "2.0", Method := method, Params := params, ID := some idStr }
        = .ok reqBytes
    ∧ c3 = { c with seq := wrapInt64 (c.seq + 1), made := c.made + 1,
                    pending := c.pending.set idStr c.made } := by
  unfold sendRequestRegister at h
  simp only [McpClient.addSeq, McpClient.makeChan] at h
  split at h
  · simp at h
  · rename_i b hb
    simp only [Prod.mk.injEq, Except.ok.injEq] at h
    obtain ⟨⟨h1, h2, h3⟩, h4⟩ := h
    subst h1 h2 h3
    exact ⟨rfl, rfl, hb, h4.symm⟩

theorem Registry.get_set_self (m : Registry) (k : String) (v : Chan) :
    Registry.get (Registry.set m k v) k = some v := by
  simp [Registry.set, Registry.get]

theorem sendRequestRegister_get {cfg : Codec} {c c3 : McpClient} {method : String}
    {params : Json} {idStr reqBytes : String} {ch : Chan}
    (h : sendRequestRegister cfg c method params = (.ok (idStr, ch, reqBytes), c3)) :
    c3.pending.get idStr = some ch ∧ c3.stdin = c.stdin := by
  obtain ⟨_, hch, _, hc3⟩ := sendRequestRegister_ok h
  rw [hc3, hch]
  exact ⟨Registry.get_set_self _ _ _, rfl⟩

/-- Entries no line answers stay, with empty slots. -/
theorem readLoop_unanswered (cfg : Codec) (c : McpClient) (lines : List String)
    (hc : Consistent c) (id : String) (ch : Chan) (hmem : (id, ch) ∈ c.pending)
    (hnone : firstWithId cfg lines id = none) :
    (id, ch) ∈ (readLoop cfg lines c).pending ∧ (readLoop cfg lines c).slot ch = [] := by
  constructor
  · rw [readLoop_pending, List.mem_filter]
    exact ⟨hmem, by simp [hnone]⟩
  · rw [readLoop_slot_registered cfg _ _ hc.keys hc.chans id ch hmem, hc.empty _ hmem, hnone]
    rfl

theorem consistent_readLoop (cfg : Codec) (ls : List String) (c : McpClient) (hc : Consistent c) :
    Consistent (readLoop cfg ls c) := by
  induction ls generalizing c with
  | nil => exact hc
  | cons l ls ih => exact ih _ (consistent_line cfg c l hc)

theorem firstWithId_at (cfg : Codec) (before after : List String) (l : String)
    (r : JsonRpcResponse) (id : String) (hbefore : ∀ b ∈ before, lineId cfg b ≠ some id)
    (hd : cfg.unmarshalResponse l = .ok r) (hid : r.ID = some id) :
    firstWithId cfg (before ++ l :: after) id = some r := by
  induction before with
  | nil => simp [firstWithId, hd, hid]
  | cons b bs ih =>
    have hb := hbefore b (List.mem_cons_self _ _)
    have ih2 := ih (fun x hx => hbefore x (List.mem_cons_of_mem _ hx))
    rw [List.cons_append, firstWithId_cons, ih2]
    have : firstWithId cfg [b] id = none :=
      firstWithId_none (fun x hx => by
        rw [List.mem_singleton] at hx
        rw [hx]
        exact hb)
    rw [this]
    rfl

theorem readLoopLine_malformed {cfg : Codec} {c : McpClient} {l : String}
    (h : decodes cfg l = false) : readLoopLine cfg c l = c := by
  unfold decodes at h
  cases hd : cfg.unmarshalResponse l with
  | error err => exact readLoopLine_error hd
  | ok r => simp [hd] at h

theorem sampleWaiting_consistent : Consistent sampleWaiting := by
  rw [← sampleWaiting_reached]
  exact consistent_run sampleCodec _ NewMcpClient consistent_new

theorem sendRequestIssue_ok {cfg : Codec} {c c1 : McpClient} {method : String} {params : Json}
    {werr : Option Error} {idStr : String} {ch : Chan}
    (h : sendRequestIssue cfg c method params werr = (.ok (idStr, ch), c1)) :
    (idStr, ch) ∈ c1.pending ∧ c1 = (sendRequestIssue cfg c method params werr).2 := by
  refine ⟨?_, by rw [h]⟩
  unfold sendRequestIssue at h
  cases hreg : sendRequestRegister cfg c method params with
  | mk res c3 =>
    rw [hreg] at h
    cases res with
    | error err => simp at h
    | ok t =>
      obtain ⟨i, k, b⟩ := t
      have hget := (sendRequestRegister_get hreg).1
      cases werr with
      | some e => simp [stdinWrite] at h
      | none =>
        simp only [stdinWrite, Prod.mk.injEq, Except.ok.injEq] at h
        obtain ⟨⟨h1, h2⟩, h3⟩ := h
        subst h1 h2 h3
        exact Registry.get_mem hget

/-- A caller whose id no line carries is never handed anything. -/
theorem sendRequest_blocked (cfg : Codec) (c c1 : McpClient) (method : String) (params : Json)
    (x : Exchange) (idStr : String) (ch : Chan) (hc : Consistent c)
    (hissue : sendRequestIssue cfg c method params x.werr = (.ok (idStr, ch), c1))
    (hnone : firstWithId cfg x.inbound idStr = none) :
    sendRequest cfg c method params x = (none, readLoop cfg x.inbound c1) := by
  obtain ⟨hmem, hc1⟩ := sendRequestIssue_ok hissue
  have hcons : Consistent c1 := by
    rw [hc1]
    exact consistent_send cfg c method params x.werr hc
  have hslot : (readLoop cfg x.inbound c1).slot ch = [] := by
    rw [readLoop_slot_registered cfg _ _ hcons.keys hcons.chans idStr ch hmem,
      hcons.empty _ hmem, hnone]
    rfl
  simp only [sendRequest, hissue, hslot]

theorem digitChar_plain (k : Nat) (h : k < 10) :
    Nat.digitChar k ≠ '-' ∧ Nat.digitChar k ≠ ')' := by
  interval_cases k <;> decide

theorem toDigitsCore_plain (fuel n : Nat) (ds : List Char)
    (hds : ∀ x ∈ ds, x ≠ '-' ∧ x ≠ ')') :
    ∀ x ∈ Nat.toDigitsCore 10 fuel n ds, x ≠ '-' ∧ x ≠ ')' := by
  induction fuel generalizing n ds with
  | zero => simpa [Nat.toDigitsCore] using hds
  | succ fuel ih =>
    have hcons : ∀ x ∈ Nat.digitChar (n % 10) :: ds, x ≠ '-' ∧ x ≠ ')' := by
      intro x hx
      rcases List.mem_cons.mp hx with h1 | h1
      · rw [h1]
        exact digitChar_plain _ (Nat.mod_lt _ (by norm_num))
      · exact hds x h1
    unfold Nat.toDigitsCore
    by_cases h0 : n / 10 = 0
    · simpa only [h0, if_true] using hcons
    · simp only [h0, if_false]
      exact ih (n / 10) _ hcons

theorem toString_nat_data (n : Nat) : (toString n).data = Nat.toDigits 10 n := rfl

theorem toString_nat_plain (n : Nat) : ∀ x ∈ (toString n).data, x ≠ '-' ∧ x ≠ ')' := by
  rw [toString_nat_data]
  exact toDigitsCore_plain _ _ [] (by simp)

theorem toString_int_ofNat (n : Nat) : toString (Int.ofNat n) = toString n := rfl

theorem toString_int_negSucc (n : Nat) :
    toString (Int.negSucc n) = "-" ++ toString (n + 1) := rfl

theorem toString_int_injective (a b : Int) (h : toString a = toString b) : a = b := by
  cases a with
  | ofNat m =>
    cases b with
    | ofNat k =>
      rw [toString_int_ofNat, toString_int_ofNat] at h
      rw [toString_nat_injective m k h]
    | negSucc k =>
      rw [toString_int_ofNat, toString_int_negSucc] at h
      have hd := congrArg String.data h
      rw [String.data_append] at hd
      have hmem : '-' ∈ (toString m).data := by
        rw [hd]
        simp
      exact absurd rfl (toString_nat_plain m '-' hmem).1
  | negSucc m =>
    cases b with
    | ofNat k =>
      rw [toString_int_ofNat, toString_int_negSucc] at h
      have hd := congrArg String.data h
      rw [String.data_append] at hd
      have hmem : '-' ∈ (toString k).data := by
        rw [← hd]
        simp
      exact absurd rfl (toString_nat_plain k '-' hmem).1
    | negSucc k =>
      rw [toString_int_negSucc, toString_int_negSucc] at h
      have hd := congrArg String.data h
      rw [String.data_append, String.data_append] at hd
      have hd2 := List.append_cancel_left hd
      have := toString_nat_injective (m + 1) (k + 1) (String.ext hd2)
      have hmk : m = k := by omega
      rw [hmk]

theorem toString_int_no_paren (a : Int) : ')' ∉ (toString a).data := by
  cases a with
  | ofNat m =>
    rw [toString_int_ofNat]
    intro hmem
    exact absurd rfl (toString_nat_plain m ')' hmem).2
  | negSucc m =>
    rw [toString_int_negSucc, String.data_append]
    intro hmem
    rcases List.mem_append.mp hmem with h1 | h1
    · simp at h1
    · exact absurd rfl (toString_nat_plain (m + 1) ')' h1).2

theorem split_at_first {a : Char} (l1 l2 r1 r2 : List Char) (h1 : a ∉ l1) (h2 : a ∉ l2)
    (h : l1 ++ a :: r1 = l2 ++ a :: r2) : l1 = l2 ∧ r1 = r2 := by
  induction l1 generalizing l2 with
  | nil =>
    cases l2 with
    | nil => simpa using h
    | cons y ys =>
      simp only [List.nil_append, List.cons_append, List.cons.injEq] at h
      exact absurd (List.mem_cons_self _ _) (h.1 ▸ h2)
  | cons x xs ih =>
    cases l2 with
    | nil =>
      simp only [List.nil_append, List.cons_append, List.cons.injEq] at h
      exact absurd (List.mem_cons_self _ _) (h.1 ▸ h1)
    | cons y ys =>
      simp only [List.cons_append, List.cons.injEq] at h
      obtain ⟨hxy, hrest⟩ := h
      obtain ⟨e1, e2⟩ := ih ys (fun hm => h1 (List.mem_cons_of_mem _ hm))
        (fun hm => h2 (List.mem_cons_of_mem _ hm)) hrest
      exact ⟨by rw [hxy, e1], e2⟩

/-- The error text determines the code and the message it was built from. -/
theorem specRemoteError_injective (c1 c2 : Int) (m1 m2 : String)
    (h : specRemoteError c1 m1 = specRemoteError c2 m2) : c1 = c2 ∧ m1 = m2 := by
  unfold specRemoteError at h
  have hd := congrArg String.data h
  simp only [String.data_append] at hd
  rw [List.append_assoc, List.append_assoc, List.append_assoc, List.append_assoc] at hd
  have hd2 := List.append_cancel_left hd
  have hsplit := split_at_first (toString c1).data (toString c2).data
    (':' :: ' ' :: m1.data) (':' :: ' ' :: m2.data)
    (toString_int_no_paren c1) (toString_int_no_paren c2) hd2
  refine ⟨toString_int_injective c1 c2 (String.ext hsplit.1), ?_⟩
  have := hsplit.2
  simp only [List.cons.injEq, true_and] at this
  exact String.ext this

/-! ## Tools, the handshake, the environment -/

theorem foldl_tools (ts : List McpTool) (acc : List Tool) :
    ts.foldl
        (fun tools mcpTool =>
          tools ++ [{ Type_ := "function",
                      Function := { Name := mcpTool.Name, Description := mcpTool.Description,
                                    Parameters := mcpTool.InputSchema } }])
        acc
      = acc ++ ts.map specTool := by
  induction ts generalizing acc with
  | nil => simp
  | cons t ts ih =>
    rw [List.foldl_cons, ih, List.map_cons, List.append_assoc]
    rfl

theorem startEnv_eq (environ : List String) (env : List (String × String)) :
    startEnv environ env = environ ++ env.map (fun kv => kv.1 ++ "=" ++ kv.2) := by
  unfold startEnv
  induction env generalizing environ with
  | nil => simp
  | cons kv rest ih =>
    rw [List.foldl_cons, ih, List.map_cons, List.append_assoc]
    rfl

theorem lookupEnv_append_one (env : List String) (e k : String) :
    lookupEnv (env ++ [e]) k = (entryValue k e).orElse (fun _ => lookupEnv env k) := by
  simp [lookupEnv, List.foldl_append]

theorem takeWhile_append_eq (a : List Char) (b : List Char) (h : '=' ∉ a) :
    (a ++ '=' :: b).takeWhile (fun ch => decide (ch ≠ '=')) = a
    ∧ (a ++ '=' :: b).dropWhile (fun ch => decide (ch ≠ '=')) = '=' :: b := by
  induction a with
  | nil => simp
  | cons x xs ih =>
    have hx : x ≠ '=' := fun hx => h (by simp [hx])
    have hxs : '=' ∉ xs := fun hm => h (List.mem_cons_of_mem _ hm)
    obtain ⟨h1, h2⟩ := ih hxs
    have hd : decide (x ≠ '=') = true := decide_eq_true hx
    constructor
    · simp only [List.cons_append, List.takeWhile_cons, hd, if_true, h1]
    · simp only [List.cons_append, List.dropWhile_cons, hd, if_true, h2]

theorem entryValue_made (k k2 v : String) (h : '=' ∉ k2.data) :
    entryValue k (k2 ++ "=" ++ v) = if k2 = k then some v else none := by
  have hdata : (k2 ++ "=" ++ v).data = k2.data ++ '=' :: v.data := by
    simp [String.data_append]
  obtain ⟨h1, h2⟩ := takeWhile_append_eq k2.data v.data h
  unfold entryValue
  simp only [hdata, h1, h2]
  by_cases hk : k2 = k
  · simp [hk]
  · have : ¬ k2.data = k.data := fun hd => hk (String.ext hd)
    simp [hk, this]

/-- The value a key has in the environment `Start` builds, when no override
key holds a `=`. -/
theorem lookupEnv_startEnv (environ : List String) (env : List (String × String))
    (hnd : (env.map Prod.fst).Nodup) (hkeys : ∀ kv ∈ env, '=' ∉ kv.1.data) (k : String) :
    lookupEnv (startEnv environ env) k
      = match env.find? (fun kv => decide (kv.1 = k)) with
        | some kv => some kv.2
        | none => lookupEnv environ k := by
  induction env generalizing environ with
  | nil => simp [startEnv]
  | cons kv rest ih =>
    rw [List.map_cons, List.nodup_cons] at hnd
    have hrest : ∀ x ∈ rest, '=' ∉ x.1.data := fun x hx => hkeys x (List.mem_cons_of_mem _ hx)
    have hstep : startEnv environ (kv :: rest) = startEnv (environ ++ [kv.1 ++ "=" ++ kv.2]) rest :=
      rfl
    rw [hstep, ih _ hnd.2 hrest, lookupEnv_append_one,
      entryValue_made k kv.1 kv.2 (hkeys kv (List.mem_cons_self _ _))]
    by_cases hk : kv.1 = k
    · have hnot : rest.find? (fun x => decide (x.1 = k)) = none := by
        rw [List.find?_eq_none]
        intro x hx
        have : x.1 ≠ k := by
          intro hxk
          apply hnd.1
          rw [hk, ← hxk]
          exact List.mem_map_of_mem Prod.fst hx
        simpa using this
      simp [hnot, hk, List.find?_cons]
    · simp [hk, List.find?_cons]

theorem sendRequest_write_fails (cfg : Codec) (c : McpClient) (method : String) (params : Json)
    (x : Exchange) (err : Error) (reqBytes : String) (hw : x.werr = some err)
    (hm : cfg.marshal
        { JSONRPC := "2.0", Method := method, Params := params,
          ID := some (toString (wrapInt64 (c.seq + 1))) } = .ok reqBytes) :
    sendRequest cfg c method params x
      = (some (none, some err),
          { c with seq := wrapInt64 (c.seq + 1), made := c.made + 1,
                   pending := c.pending.set (toString (wrapInt64 (c.seq + 1))) c.made }) := by
  simp [sendRequest, sendRequestIssue, sendRequestRegister, McpClient.addSeq, McpClient.makeChan,
    hm, hw, stdinWrite]

/-! ## The options of `Chat` -/

theorem chatOptions_skip (s : ChatSettings) (before after : List ChatOption) (x : ChatOption)
    (hx : ∀ t : ChatSettings, chatOption t x = .ok t) :
    chatOptions s (before ++ x :: after) = chatOptions s (before ++ after) := by
  induction before generalizing s with
  | nil => simp [chatOptions, hx]
  | cons o os ih =>
    simp only [List.cons_append, chatOptions]
    cases chatOption s o with
    | error err => rfl
    | ok s1 => exact ih s1

/-! ## Strings: what is written is read back -/

theorem hexVal_hexDigit (d : Nat) (h : d < 16) : hexVal (hexDigit d) = some d := by
  interval_cases d <;> rfl

theorem hex4_value (n : Nat) (h : n < 65536) :
    ((n / 4096 % 16 * 16 + n / 256 % 16) * 16 + n / 16 % 16) * 16 + n % 16 = n := by
  omega

theorem parseString_hex4 (n : Nat) (h : n < 65536) (tail acc : List Char) :
    parseString ('\\' :: 'u' :: (hex4 n ++ tail)) acc
      = parseString tail (acc ++ [Char.ofNat n]) := by
  have h1 := hexVal_hexDigit (n / 4096 % 16) (Nat.mod_lt _ (by norm_num))
  have h2 := hexVal_hexDigit (n / 256 % 16) (Nat.mod_lt _ (by norm_num))
  have h3 := hexVal_hexDigit (n / 16 % 16) (Nat.mod_lt _ (by norm_num))
  have h4 := hexVal_hexDigit (n % 16) (Nat.mod_lt _ (by norm_num))
  rw [parseString.eq_def]
  simp only [hex4, List.cons_append, List.nil_append, if_true, h1, h2, h3, h4, hex4_value n h]
  rw [if_neg (by decide)]

theorem parseString_plain (ch : Char) (tail acc : List Char) (h1 : ch ≠ '"') (h2 : ch ≠ '\\')
    (h3 : ¬ ch.toNat < 32) :
    parseString (ch :: tail) acc = parseString tail (acc ++ [ch]) := by
  rw [parseString.eq_def]
  simp only [h1, h2, h3, if_false]

theorem parseString_simple (e x : Char) (tail acc : List Char) (he : e ≠ 'u')
    (hx : unescape e = some x) :
    parseString ('\\' :: e :: tail) acc = parseString tail (acc ++ [x]) := by
  rw [parseString.eq_def]
  simp only [if_true, he, if_false, hx]
  rw [if_neg (by decide)]

/-- Reading what was written for one character gives the character. -/
theorem parseString_escapeChar (ch : Char) (tail acc : List Char) :
    parseString (escapeChar ch ++ tail) acc = parseString tail (acc ++ [ch]) := by
  unfold escapeChar
  by_cases h1 : ch = '"'
  · subst h1
    exact parseString_simple '"' '"' tail acc (by decide) rfl
  by_cases h2 : ch = '\\'
  · subst h2
    exact parseString_simple '\\' '\\' tail acc (by decide) rfl
  by_cases h3 : ch = '\n'
  · subst h3
    exact parseString_simple 'n' '\n' tail acc (by decide) rfl
  by_cases h4 : ch = '\r'
  · subst h4
    exact parseString_simple 'r' '\r' tail acc (by decide) rfl
  by_cases h5 : ch = '\t'
  · subst h5
    exact parseString_simple 't' '\t' tail acc (by decide) rfl
  simp only [h1, h2, h3, h4, h5, if_false]
  by_cases h6 : ch.toNat < 32 ∨ ch = '<' ∨ ch = '>' ∨ ch = '&' ∨ ch.toNat = 8232 ∨ ch.toNat = 8233
  · rw [if_pos h6]
    have hlt : ch.toNat < 65536 := by
      rcases h6 with h | h | h | h | h | h
      · omega
      · subst h; decide
      · subst h; decide
      · subst h; decide
      · omega
      · omega
    have := parseString_hex4 ch.toNat hlt tail acc
    simp only [List.cons_append] at this ⊢
    rw [this, Char.ofNat_toNat]
  · rw [if_neg h6]
    have h7 : ¬ ch.toNat < 32 := fun h => h6 (Or.inl h)
    exact parseString_plain ch tail acc h1 h2 h7

/-- Reading what was written for a string, up to its closing quote, gives the
string. -/
theorem parseString_escapeChars (cs tail acc : List Char) :
    parseString (escapeChars cs ++ '"' :: tail) acc = some (String.mk (acc ++ cs), tail) := by
  induction cs generalizing acc with
  | nil =>
    rw [escapeChars, List.nil_append, parseString.eq_def]
    simp
  | cons ch rest ih =>
    rw [escapeChars, List.append_assoc, parseString_escapeChar, ih]
    simp

theorem parseString_encodeString (s : String) (tail : List Char) :
    ∃ body, encodeString s = '"' :: body
      ∧ parseString (body ++ tail) [] = some (s, tail) := by
  refine ⟨escapeChars s.data ++ ['"'], rfl, ?_⟩
  rw [List.append_assoc]
  have := parseString_escapeChars s.data tail []
  simpa using this

/-! ## Numbers and values: what is written is read back -/

theorem numChar_not_punct (ch : Char) (h : isNumChar ch = true) :
    ch ≠ 'n' ∧ ch ≠ 't' ∧ ch ≠ 'f' ∧ ch ≠ '"' ∧ ch ≠ '[' ∧ ch ≠ '\x7b' ∧ ch ≠ ']'
      ∧ ch ≠ '\x7d' ∧ ch ≠ ',' ∧ ch ≠ ':' ∧ ch ≠ '\n' := by
  refine ⟨?_, ?_, ?_, ?_, ?_, ?_, ?_, ?_, ?_, ?_, ?_⟩ <;>
    (intro hc; subst hc; revert h; decide)

theorem takeWhile_numChars (lit rest : List Char) (hall : lit.all isNumChar = true)
    (hstop : ∀ c t, rest = c :: t → isNumChar c = false) :
    (lit ++ rest).takeWhile isNumChar = lit ∧ (lit ++ rest).dropWhile isNumChar = rest := by
  induction lit with
  | nil =>
    cases rest with
    | nil => simp
    | cons c t =>
      have := hstop c t rfl
      simp [List.takeWhile_cons, List.dropWhile_cons, this]
  | cons x xs ih =>
    rw [List.all_cons, Bool.and_eq_true] at hall
    obtain ⟨h1, h2⟩ := ih hall.2
    simp only [List.cons_append, List.takeWhile_cons, List.dropWhile_cons, hall.1, if_true, h1, h2,
      and_self]

theorem validNumber_cons {lit : List Char} (h : validNumber lit = true) :
    ∃ c l, lit = c :: l ∧ isNumChar c = true ∧ lit.all isNumChar = true := by
  unfold validNumber at h
  rw [Bool.and_eq_true] at h
  cases lit with
  | nil => simp at h
  | cons c l =>
    refine ⟨c, l, rfl, ?_, h.1⟩
    have := h.1
    rw [List.all_cons, Bool.and_eq_true] at this
    exact this.1

/-- A number literal at the head of a text is read back as it stands. -/
theorem parseValue_number (lit rest : List Char) (fuel : Nat) (h : validNumber lit = true)
    (hf : lit.length ≤ fuel) (hstop : ∀ c t, rest = c :: t → isNumChar c = false) :
    parseValue fuel (lit ++ rest) = some (Json.num (String.mk lit), rest) := by
  obtain ⟨c, l, hlit, hc, hall⟩ := validNumber_cons h
  obtain ⟨h1, h2, h3, h4, h5, h6, _⟩ := numChar_not_punct c hc
  obtain ⟨ht, hd⟩ := takeWhile_numChars lit rest hall hstop
  cases fuel with
  | zero => rw [hlit] at hf; simp at hf
  | succ f =>
    rw [parseValue.eq_def]
    subst hlit
    simp only [List.cons_append, h1, h2, h3, h4, h5, h6, if_false]
    simp only [List.cons_append] at ht hd
    rw [ht, hd, if_pos h]

theorem encodeJson_head (v : Json) (text : List Char) (h : encodeJson v = .ok text) :
    ∃ c t, text = c :: t ∧ c ≠ ']' := by
  cases v with
  | null => simp [encodeJson] at h; exact ⟨_, _, h.symm, by decide⟩
  | bool b =>
    cases b <;> simp [encodeJson] at h <;> exact ⟨_, _, h.symm, by decide⟩
  | num literal =>
    simp only [encodeJson] at h
    split at h
    · rename_i hv
      simp only [Except.ok.injEq] at h
      obtain ⟨c, l, hlit, hc, _⟩ := validNumber_cons hv
      refine ⟨c, l, by rw [← h, hlit], (numChar_not_punct c hc).2.2.2.2.2.2.1⟩
    · simp at h
  | str s =>
    simp only [encodeJson, encodeString, Except.ok.injEq] at h
    exact ⟨_, _, h.symm, by decide⟩
  | arr items =>
    cases items with
    | nil => simp [encodeJson] at h; exact ⟨_, _, h.symm, by decide⟩
    | cons x xs =>
      simp only [encodeJson] at h
      split at h
      · simp at h
      · split at h
        · simp at h
        · simp only [Except.ok.injEq] at h
          exact ⟨_, _, h.symm, by decide⟩
  | obj members =>
    cases members with
    | nil => simp [encodeJson] at h; exact ⟨_, _, h.symm, by decide⟩
    | cons m ms =>
      obtain ⟨k, x⟩ := m
      simp only [encodeJson] at h
      split at h
      · simp at h
      · split at h
        · simp at h
        · simp only [Except.ok.injEq] at h
          exact ⟨_, _, h.symm, by decide⟩

theorem stop_comma (t : List Char) : ∀ c r, ',' :: t = c :: r → isNumChar c = false := by
  intro c r h
  simp only [List.cons.injEq] at h
  rw [← h.1]
  decide

theorem stop_bracket (t : List Char) : ∀ c r, ']' :: t = c :: r → isNumChar c = false := by
  intro c r h
  simp only [List.cons.injEq] at h
  rw [← h.1]
  decide

theorem stop_brace (t : List Char) : ∀ c r, '\x7d' :: t = c :: r → isNumChar c = false := by
  intro c r h
  simp only [List.cons.injEq] at h
  rw [← h.1]
  decide

theorem encodeItems_stop (xs : List Json) (more : List Char) (h : encodeItems xs = .ok more)
    (rest : List Char) : ∀ c r, more ++ ']' :: rest = c :: r → isNumChar c = false := by
  cases xs with
  | nil =>
    simp only [encodeItems, Except.ok.injEq] at h
    subst h
    exact stop_bracket rest
  | cons x xs =>
    simp only [encodeItems] at h
    split at h
    · simp at h
    · split at h
      · simp at h
      · simp only [Except.ok.injEq] at h
        subst h
        exact stop_comma _

theorem encodeMembers_stop (ms : List (String × Json)) (more : List Char)
    (h : encodeMembers ms = .ok more) (rest : List Char) :
    ∀ c r, more ++ '\x7d' :: rest = c :: r → isNumChar c = false := by
  cases ms with
  | nil =>
    simp only [encodeMembers, Except.ok.injEq] at h
    subst h
    exact stop_brace rest
  | cons m ms =>
    obtain ⟨k, x⟩ := m
    simp only [encodeMembers] at h
    split at h
    · simp at h
    · split at h
      · simp at h
      · simp only [Except.ok.injEq] at h
        subst h
        exact stop_comma _

mutual
/-- A decoder reads back the value `encoding/json` wrote, and stops behind
it. -/
theorem parseValue_encodeJson (v : Json) (text : List Char) (h : encodeJson v = .ok text)
    (rest : List Char) (fuel : Nat) (hf : text.length ≤ fuel)
    (hstop : ∀ c t, rest = c :: t → isNumChar c = false) :
    parseValue fuel (text ++ rest) = some (v, rest) := by
  match v, h with
  | .null, h =>
    simp only [encodeJson, Except.ok.injEq] at h
    subst h
    cases fuel with
    | zero => simp at hf
    | succ f => rfl
  | .bool true, h =>
    simp only [encodeJson, Except.ok.injEq] at h
    subst h
    cases fuel with
    | zero => simp at hf
    | succ f => rfl
  | .bool false, h =>
    simp only [encodeJson, Except.ok.injEq] at h
    subst h
    cases fuel with
    | zero => simp at hf
    | succ f => rfl
  | .num literal, h =>
    simp only [encodeJson] at h
    split at h
    · rename_i hv
      simp only [Except.ok.injEq] at h
      subst h
      exact parseValue_number literal.data rest fuel hv hf hstop
    · simp at h
  | .str s, h =>
    simp only [encodeJson, Except.ok.injEq] at h
    subst h
    obtain ⟨body, hb, hp⟩ := parseString_encodeString s rest
    cases fuel with
    | zero => simp [encodeString] at hf
    | succ f =>
      rw [hb, parseValue.eq_def]
      simp only [List.cons_append]
      rw [if_neg (by decide), if_neg (by decide), if_neg (by decide), if_pos (by trivial), hp]
      rfl
  | .arr [], h =>
    simp only [encodeJson, Except.ok.injEq] at h
    subst h
    cases fuel with
    | zero => simp at hf
    | succ f => rfl
  | .arr (x :: xs), h =>
    simp only [encodeJson] at h
    split at h
    · simp at h
    · rename_i first hfirst
      split at h
      · simp at h
      · rename_i more hmore
        simp only [Except.ok.injEq] at h
        subst h
        obtain ⟨c, t, hct, hc⟩ := encodeJson_head x first hfirst
        cases fuel with
        | zero => simp at hf
        | succ f =>
          simp only [List.length_cons, List.length_append, List.length_nil] at hf
          have hx := parseValue_encodeJson x first hfirst (more ++ ']' :: rest) f (by omega)
            (encodeItems_stop xs more hmore rest)
          have hxs := parseItems_encodeItems xs more hmore rest f [x] (by omega)
          rw [parseValue.eq_def]
          simp only [List.cons_append, List.append_assoc, List.nil_append]
          rw [if_neg (by decide), if_neg (by decide), if_neg (by decide), if_neg (by decide),
            if_pos (by trivial)]
          rw [hct] at hx ⊢
          simp only [List.cons_append, hc, if_false] at hx ⊢
          rw [hx]
          simp only [hxs, List.singleton_append]
  | .obj [], h =>
    simp only [encodeJson, Except.ok.injEq] at h
    subst h
    cases fuel with
    | zero => simp at hf
    | succ f => rfl
  | .obj ((k, x) :: ms), h =>
    simp only [encodeJson] at h
    split at h
    · simp at h
    · rename_i value hvalue
      split at h
      · simp at h
      · rename_i more hmore
        simp only [Except.ok.injEq] at h
        subst h
        cases fuel with
        | zero => simp at hf
        | succ f =>
          simp only [List.length_cons, List.length_append, List.length_nil] at hf
          have hms := parseMembers_encodeMembers k x ms value more hvalue hmore rest f []
            (by simp only [List.length_cons, List.length_append]; omega)
          rw [parseValue.eq_def]
          simp only [List.cons_append, List.append_assoc, List.nil_append]
          rw [if_neg (by decide), if_neg (by decide), if_neg (by decide), if_neg (by decide),
            if_neg (by decide), if_pos (by trivial)]
          simp only [encodeString, List.cons_append, List.append_assoc, List.nil_append] at hms ⊢
          rw [if_neg (by decide), hms]
termination_by sizeOf v
/-- A decoder reads back the elements `encoding/json` wrote behind the first,
up to the closing bracket. -/
theorem parseItems_encodeItems (xs : List Json) (more : List Char)
    (h : encodeItems xs = .ok more) (rest : List Char) (fuel : Nat) (acc : List Json)
    (hf : more.length + 1 ≤ fuel) :
    parseItems fuel (more ++ ']' :: rest) acc = some (Json.arr (acc ++ xs), rest) := by
  match xs, h with
  | [], h =>
    simp only [encodeItems, Except.ok.injEq] at h
    subst h
    cases fuel with
    | zero => simp at hf
    | succ f =>
      rw [parseItems.eq_def]
      simp
  | x :: xs, h =>
    simp only [encodeItems] at h
    split at h
    · simp at h
    · rename_i value hvalue
      split at h
      · simp at h
      · rename_i tail htail
        simp only [Except.ok.injEq] at h
        subst h
        cases fuel with
        | zero => simp at hf
        | succ f =>
          simp only [List.length_cons, List.length_append] at hf
          have hx := parseValue_encodeJson x value hvalue (tail ++ ']' :: rest) f (by omega)
            (encodeItems_stop xs tail htail rest)
          have hxs := parseItems_encodeItems xs tail htail rest f (acc ++ [x]) (by omega)
          rw [parseItems.eq_def]
          simp only [List.cons_append, List.append_assoc]
          rw [if_neg (by decide), if_pos (by trivial), hx]
          simp only [hxs, List.append_assoc, List.singleton_append]
termination_by sizeOf xs
/-- A decoder reads back the members `encoding/json` wrote, from a key on up to
the closing brace. -/
theorem parseMembers_encodeMembers (k : String) (x : Json) (ms : List (String × Json))
    (value more : List Char) (hvalue : encodeJson x = .ok value)
    (h : encodeMembers ms = .ok more) (rest : List Char) (fuel : Nat)
    (acc : List (String × Json))
    (hf : (encodeString k ++ ':' :: value ++ more).length + 1 ≤ fuel) :
    parseMembers fuel (encodeString k ++ ':' :: (value ++ (more ++ '\x7d' :: rest))) acc
      = some (Json.obj (acc ++ (k, x) :: ms), rest) := by
  match ms, h with
  | [], h =>
    simp only [encodeMembers, Except.ok.injEq] at h
    subst h
    cases fuel with
    | zero => simp at hf
    | succ f =>
      obtain ⟨body, hb, hp⟩ := parseString_encodeString k (':' :: (value ++ ([] ++ '\x7d' :: rest)))
      simp only [hb, List.length_cons, List.length_append] at hf
      have hx := parseValue_encodeJson x value hvalue ([] ++ '\x7d' :: rest) f (by omega)
        (stop_brace rest)
      rw [hb, parseMembers.eq_def]
      simp only [List.cons_append]
      rw [if_pos (by trivial), hp]
      simp only [if_true, hx]
      simp
  | (k2, x2) :: ms2, h =>
    simp only [encodeMembers] at h
    split at h
    · simp at h
    · rename_i value2 hvalue2
      split at h
      · simp at h
      · rename_i more2 hmore2
        simp only [Except.ok.injEq] at h
        subst h
        cases fuel with
        | zero => simp at hf
        | succ f =>
          obtain ⟨body, hb, hp⟩ := parseString_encodeString k
            (':' :: (value ++ ((',' :: (encodeString k2 ++ ':' :: value2 ++ more2)) ++ '\x7d' :: rest)))
          simp only [hb, List.length_cons, List.length_append] at hf
          have hx := parseValue_encodeJson x value hvalue
            ((',' :: (encodeString k2 ++ ':' :: value2 ++ more2)) ++ '\x7d' :: rest) f (by omega)
            (stop_comma _)
          have hrec := parseMembers_encodeMembers k2 x2 ms2 value2 more2 hvalue2 hmore2 rest f
            (acc ++ [(k, x)]) (by simp only [List.length_cons, List.length_append]; omega)
          rw [hb, parseMembers.eq_def]
          simp only [List.cons_append, List.append_assoc] at hp hx hrec ⊢
          rw [if_pos (by trivial), hp]
          simp only [if_true, hx]
          rw [hrec]
          simp
termination_by sizeOf x + sizeOf ms
end

theorem digitChar_isDigit (k : Nat) (h : k < 10) :
    (Nat.digitChar k).isDigit = true ∧ (k ≠ 0 → Nat.digitChar k ≠ '0') := by
  interval_cases k <;> decide

theorem toDigitsCore_shape (fuel n : Nat) (ds : List Char) (h : n < fuel) :
    ∃ d pre, Nat.toDigitsCore 10 fuel n ds = d :: (pre ++ ds) ∧ d.isDigit = true
      ∧ (∀ x ∈ pre, x.isDigit = true) ∧ (0 < n → d ≠ '0') := by
  induction fuel generalizing n ds with
  | zero => omega
  | succ fuel ih =>
    unfold Nat.toDigitsCore
    have hk := digitChar_isDigit (n % 10) (Nat.mod_lt _ (by norm_num))
    by_cases h0 : n / 10 = 0
    · simp only [h0, if_true]
      refine ⟨Nat.digitChar (n % 10), [], rfl, hk.1, by simp, ?_⟩
      intro hn
      exact hk.2 (by omega)
    · simp only [h0, if_false]
      obtain ⟨d, pre, he, hd, hpre, hz⟩ := ih (n / 10) (Nat.digitChar (n % 10) :: ds) (by omega)
      refine ⟨d, pre ++ [Nat.digitChar (n % 10)], ?_, hd, ?_, ?_⟩
      · rw [he]
        simp
      · intro x hx
        rcases List.mem_append.mp hx with h1 | h1
        · exact hpre x h1
        · rw [List.mem_singleton.mp h1]
          exact hk.1
      · intro _
        exact hz (by omega)

theorem toString_nat_shape (n : Nat) :
    ∃ d pre, (toString n).data = d :: pre ∧ d.isDigit = true
      ∧ (∀ x ∈ pre, x.isDigit = true) ∧ (0 < n → d ≠ '0') := by
  obtain ⟨d, pre, he, hd, hpre, hz⟩ := toDigitsCore_shape (n + 1) n [] (Nat.lt_succ_self n)
  refine ⟨d, pre, ?_, hd, hpre, hz⟩
  rw [toString_nat_data]
  simpa using he

theorem toString_zero_data : (toString (0 : Nat)).data = ['0'] := rfl

theorem isDigit_isNumChar (ch : Char) (h : ch.isDigit = true) : isNumChar ch = true := by
  simp [isNumChar, h]

theorem dropWhile_digits (pre : List Char) (h : ∀ x ∈ pre, x.isDigit = true) :
    pre.dropWhile Char.isDigit = [] := by
  induction pre with
  | nil => rfl
  | cons a l ih =>
    rw [List.dropWhile_cons, if_pos (h a (List.mem_cons_self a l))]
    exact ih (fun x hx => h x (List.mem_cons_of_mem a hx))

theorem validNumber_digits (d : Char) (pre : List Char) (hd : d.isDigit = true)
    (hpre : ∀ x ∈ pre, x.isDigit = true) (h0 : d = '0' → pre = []) :
    validNumber (d :: pre) = true := by
  have hall : (d :: pre).all isNumChar = true := by
    rw [List.all_eq_true]
    intro x hx
    rcases List.mem_cons.mp hx with h1 | h1
    · rw [h1]
      exact isDigit_isNumChar d hd
    · exact isDigit_isNumChar x (hpre x h1)
  have hminus : d ≠ '-' := by
    intro h
    rw [h] at hd
    exact absurd hd (by decide)
  unfold validNumber
  rw [hall, Bool.true_and]
  simp only [if_neg hminus]
  by_cases hz : d = '0'
  · rw [if_pos hz, h0 hz]
    rfl
  · rw [if_neg hz, hd, Bool.true_and, dropWhile_digits pre hpre]
    rfl

theorem validNumber_minus (d : Char) (pre : List Char) (hd : d.isDigit = true)
    (hpre : ∀ x ∈ pre, x.isDigit = true) (h0 : d ≠ '0') :
    validNumber ('-' :: d :: pre) = true := by
  have hall : ('-' :: d :: pre).all isNumChar = true := by
    rw [List.all_eq_true]
    intro x hx
    rcases List.mem_cons.mp hx with h1 | h1
    · rw [h1]
      decide
    · rcases List.mem_cons.mp h1 with h2 | h2
      · rw [h2]
        exact isDigit_isNumChar d hd
      · exact isDigit_isNumChar x (hpre x h2)
  unfold validNumber
  rw [hall, Bool.true_and]
  simp only [if_true]
  rw [if_neg h0, hd, Bool.true_and, dropWhile_digits pre hpre]
  rfl

/-- The decimal text `fmt.Sprintf("%d", id)` gives is a JSON number. -/
theorem validNumber_toString_int (i : Int) : validNumber (toString i).data = true := by
  cases i with
  | ofNat n =>
    rw [toString_int_ofNat]
    obtain ⟨d, pre, he, hd, hpre, hz⟩ := toString_nat_shape n
    rw [he]
    refine validNumber_digits d pre hd hpre ?_
    intro h
    have hn : n = 0 := by
      by_contra hne
      exact hz (Nat.pos_of_ne_zero hne) h
    rw [hn, toString_zero_data] at he
    simp only [List.cons.injEq] at he
    exact he.2.symm
  | negSucc n =>
    rw [toString_int_negSucc, String.data_append]
    obtain ⟨d, pre, he, hd, hpre, hz⟩ := toString_nat_shape (n + 1)
    rw [he]
    exact validNumber_minus d pre hd hpre (hz (Nat.succ_pos n))

theorem encodeIdMember_decimal (i : Int) :
    encodeIdMember (some (toString i)) = .ok (",\"id\":".data ++ (toString i).data) := by
  have hv := validNumber_toString_int i
  have hp := parseValue_number (toString i).data [] (toString i).data.length hv (Nat.le_refl _)
    (by intro c t h; cases h)
  rw [List.append_nil] at hp
  have hne : (toString i).data.isEmpty = false := by
    cases hd : (toString i).data with
    | nil =>
      rw [hd] at hv
      exact absurd hv (by decide)
    | cons a l => rfl
  simp only [encodeIdMember, hne, hp]
  rfl

theorem encodeMembers_cons (k : String) (v : Json) (rest : List (String × Json))
    (value more : List Char) (hv : encodeJson v = .ok value) (hr : encodeMembers rest = .ok more) :
    encodeMembers ((k, v) :: rest) = .ok (',' :: (encodeString k ++ ':' :: value ++ more)) := by
  simp only [encodeMembers, hv, hr]

theorem encodeString_params : encodeString "params" = "\"params\"".data := by decide

theorem encodeMembers_params (params : Json) (text : List Char) (h : encodeJson params = .ok text)
    (tail : List (String × Json)) (more : List Char) (ht : encodeMembers tail = .ok more) :
    ∃ pm, encodeParamsMember params = .ok pm
      ∧ encodeMembers (paramsMember params ++ tail) = .ok (pm ++ more) := by
  have hcons := encodeMembers_cons "params" params tail text more h ht
  rw [encodeString_params] at hcons
  cases params with
  | null => exact ⟨[], rfl, by simpa [paramsMember] using ht⟩
  | bool b => exact ⟨",\"params\":".data ++ text, by simp only [encodeParamsMember, h], hcons⟩
  | num n => exact ⟨",\"params\":".data ++ text, by simp only [encodeParamsMember, h], hcons⟩
  | str n => exact ⟨",\"params\":".data ++ text, by simp only [encodeParamsMember, h], hcons⟩
  | arr n => exact ⟨",\"params\":".data ++ text, by simp only [encodeParamsMember, h], hcons⟩
  | obj n => exact ⟨",\"params\":".data ++ text, by simp only [encodeParamsMember, h], hcons⟩

theorem encodeParamsMember_error (params : Json) (err : Error)
    (h : encodeJson params = .error err) : encodeParamsMember params = .error err := by
  cases params with
  | null => simp [encodeJson] at h
  | bool b => simp only [encodeParamsMember, h]
  | num n => simp only [encodeParamsMember, h]
  | str n => simp only [encodeParamsMember, h]
  | arr n => simp only [encodeParamsMember, h]
  | obj n => simp only [encodeParamsMember, h]

/-- What `json.Marshal` gives for a message is the compact text of its
document: a notification when the id is empty, a request with a number for id
when the id is a decimal. -/
theorem marshalRequest_document (method : String) (params : Json) (text : List Char)
    (h : encodeJson params = .ok text) (id : RawMessage) (idv : Option Json) (idm : List Char)
    (hid : encodeIdMember id = .ok idm) (hidm : encodeMembers (idMember idv) = .ok idm) :
    ∃ doc, marshalRequest { JSONRPC := "2.0", Method := method, Params := params, ID := id }
        = .ok (String.mk doc)
      ∧ encodeJson (requestDocument method params idv) = .ok doc := by
  obtain ⟨pm, hpm, hms⟩ := encodeMembers_params params text h (idMember idv) idm hidm
  refine ⟨"\x7b\"jsonrpc\":".data ++ encodeString "2.0" ++ ",\"method\":".data
    ++ encodeString method ++ pm ++ idm ++ ['\x7d'], by simp only [marshalRequest, hpm, hid], ?_⟩
  have hmeth : encodeMembers (("method", Json.str method) :: (paramsMember params ++ idMember idv))
      = .ok (',' :: (encodeString "method" ++ ':' :: encodeString method ++ (pm ++ idm))) := by
    simp only [encodeMembers, encodeJson, hms]
  simp only [requestDocument, List.cons_append, List.nil_append, List.append_assoc] at hmeth ⊢
  simp only [encodeJson, hmeth, Except.ok.injEq]
  simp [encodeString, escapeChars, escapeChar]

theorem encodeMembers_idNone : encodeMembers (idMember none) = .ok [] := rfl

theorem encodeMembers_idDecimal (i : Int) :
    encodeMembers (idMember (some (Json.num (toString i))))
      = .ok (",\"id\":".data ++ (toString i).data) := by
  simp only [idMember, encodeMembers, encodeJson, validNumber_toString_int, if_true]
  simp [encodeString, escapeChars, escapeChar]

theorem hexDigit_no_newline (n : Nat) (h : n < 16) : hexDigit n ≠ '\n' := by
  interval_cases n <;> decide

theorem escapeChar_no_newline (ch : Char) : '\n' ∉ escapeChar ch := by
  unfold escapeChar
  split
  · decide
  · split
    · decide
    · split
      · decide
      · split
        · decide
        · split
          · decide
          · split
            · simp only [hex4, List.mem_cons, List.mem_singleton, List.not_mem_nil, or_false,
                not_or]
              refine ⟨by decide, by decide, ?_, ?_, ?_, ?_⟩
              · exact fun h => hexDigit_no_newline _ (Nat.mod_lt _ (by norm_num)) h.symm
              · exact fun h => hexDigit_no_newline _ (Nat.mod_lt _ (by norm_num)) h.symm
              · exact fun h => hexDigit_no_newline _ (Nat.mod_lt _ (by norm_num)) h.symm
              · exact fun h => hexDigit_no_newline _ (Nat.mod_lt _ (by norm_num)) h.symm
            · rename_i h3 _ _ _
              simp only [List.mem_singleton]
              exact fun h => h3 h.symm

theorem escapeChars_no_newline (cs : List Char) : '\n' ∉ escapeChars cs := by
  induction cs with
  | nil => simp [escapeChars]
  | cons ch rest ih =>
    simp only [escapeChars, List.mem_append, not_or]
    exact ⟨escapeChar_no_newline ch, ih⟩

theorem encodeString_no_newline (s : String) : '\n' ∉ encodeString s := by
  simp only [encodeString, List.mem_cons, List.mem_append, List.mem_singleton, List.not_mem_nil,
    or_false, not_or]
  exact ⟨by decide, escapeChars_no_newline s.data, by decide⟩

theorem validNumber_no_newline (lit : List Char) (h : validNumber lit = true) : '\n' ∉ lit := by
  intro hm
  unfold validNumber at h
  rw [Bool.and_eq_true, List.all_eq_true] at h
  exact absurd (h.1 '\n' hm) (by decide)

mutual
/-- The compact text of a value holds no line feed. -/
theorem encodeJson_no_newline (v : Json) (text : List Char) (h : encodeJson v = .ok text) :
    '\n' ∉ text := by
  match v, h with
  | .null, h =>
    simp only [encodeJson, Except.ok.injEq] at h
    subst h
    decide
  | .bool true, h =>
    simp only [encodeJson, Except.ok.injEq] at h
    subst h
    decide
  | .bool false, h =>
    simp only [encodeJson, Except.ok.injEq] at h
    subst h
    decide
  | .num literal, h =>
    simp only [encodeJson] at h
    split at h
    · rename_i hv
      simp only [Except.ok.injEq] at h
      subst h
      exact validNumber_no_newline _ hv
    · simp at h
  | .str s, h =>
    simp only [encodeJson, Except.ok.injEq] at h
    subst h
    exact encodeString_no_newline s
  | .arr [], h =>
    simp only [encodeJson, Except.ok.injEq] at h
    subst h
    decide
  | .arr (x :: xs), h =>
    simp only [encodeJson] at h
    split at h
    · simp at h
    · rename_i first hfirst
      split at h
      · simp at h
      · rename_i more hmore
        simp only [Except.ok.injEq] at h
        subst h
        have h1 := encodeJson_no_newline x first hfirst
        have h2 := encodeItems_no_newline xs more hmore
        simp only [List.mem_cons, List.mem_append, List.mem_singleton, List.not_mem_nil,
          or_false, not_or]
        exact ⟨by decide, ⟨h1, h2⟩, by decide⟩
  | .obj [], h =>
    simp only [encodeJson, Except.ok.injEq] at h
    subst h
    decide
  | .obj ((k, x) :: ms), h =>
    simp only [encodeJson] at h
    split at h
    · simp at h
    · rename_i value hvalue
      split at h
      · simp at h
      · rename_i more hmore
        simp only [Except.ok.injEq] at h
        subst h
        have h1 := encodeJson_no_newline x value hvalue
        have h2 := encodeMembers_no_newline ms more hmore
        have h3 := encodeString_no_newline k
        simp only [List.mem_cons, List.mem_append, List.mem_singleton, List.not_mem_nil,
          or_false, not_or]
        exact ⟨by decide, ⟨⟨h3, by decide, h1⟩, h2⟩, by decide⟩
termination_by sizeOf v
/-- The text of the later elements of an array holds no line feed. -/
theorem encodeItems_no_newline (xs : List Json) (more : List Char)
    (h : encodeItems xs = .ok more) : '\n' ∉ more := by
  match xs, h with
  | [], h =>
    simp only [encodeItems, Except.ok.injEq] at h
    subst h
    simp
  | x :: xs, h =>
    simp only [encodeItems] at h
    split at h
    · simp at h
    · rename_i value hvalue
      split at h
      · simp at h
      · rename_i tail htail
        simp only [Except.ok.injEq] at h
        subst h
        have h1 := encodeJson_no_newline x value hvalue
        have h2 := encodeItems_no_newline xs tail htail
        simp only [List.mem_cons, List.mem_append, not_or]
        exact ⟨⟨by decide, h1⟩, h2⟩
termination_by sizeOf xs
/-- The text of the later members of an object holds no line feed. -/
theorem encodeMembers_no_newline (ms : List (String × Json)) (more : List Char)
    (h : encodeMembers ms = .ok more) : '\n' ∉ more := by
  match ms, h with
  | [], h =>
    simp only [encodeMembers, Except.ok.injEq] at h
    subst h
    simp
  | (k, x) :: ms, h =>
    simp only [encodeMembers] at h
    split at h
    · simp at h
    · rename_i value hvalue
      split at h
      · simp at h
      · rename_i tail htail
        simp only [Except.ok.injEq] at h
        subst h
        have h1 := encodeJson_no_newline x value hvalue
        have h2 := encodeMembers_no_newline ms tail htail
        have h3 := encodeString_no_newline k
        simp only [List.mem_cons, List.mem_append, not_or]
        exact ⟨by decide, ⟨h3, by decide, h1⟩, h2⟩
termination_by sizeOf ms
end

theorem decodeLine_encoded (v : Json) (doc : List Char) (h : encodeJson v = .ok doc) :
    decodeLine (String.mk doc ++ "\n") = some v := by
  have hp := parseValue_encodeJson v doc h ['\n'] (doc ++ ['\n']).length (by simp)
    (by
      intro c t hc
      simp only [List.cons.injEq] at hc
      rw [← hc.1]
      decide)
  have hd : (String.mk doc ++ "\n").data = doc ++ ['\n'] := rfl
  unfold decodeLine
  rw [hd, hp]
  rfl

/-- The line a marshalled message makes: no line feed before its end, and a
peer decodes it to the document of the message. -/
theorem marshalRequest_line (method : String) (params : Json) (text : List Char)
    (h : encodeJson params = .ok text) (id : RawMessage) (idv : Option Json) (idm : List Char)
    (hid : encodeIdMember id = .ok idm) (hidm : encodeMembers (idMember idv) = .ok idm) :
    ∃ body, marshalRequest { JSONRPC := "2.0", Method := method, Params := params, ID := id }
        = .ok body
      ∧ '\n' ∉ body.data
      ∧ decodeLine (body ++ "\n") = some (requestDocument method params idv) := by
  obtain ⟨doc, hm, hdoc⟩ := marshalRequest_document method params text h id idv idm hid hidm
  exact ⟨String.mk doc, hm, encodeJson_no_newline _ doc hdoc, decodeLine_encoded _ doc hdoc⟩

theorem marshalRequest_error (method : String) (params : Json) (err : Error)
    (h : encodeJson params = .error err) (id : RawMessage) :
    marshalRequest { JSONRPC := "2.0", Method := method, Params := params, ID := id }
      = .error err := by
  simp only [marshalRequest, encodeParamsMember_error params err h]

theorem requestDocument_members (method : String) (params : Json) (idv : Option Json) :
    (requestDocument method params idv).member "jsonrpc" = some (Json.str "2.0")
      ∧ (requestDocument method params idv).member "method" = some (Json.str method)
      ∧ peerParams (requestDocument method params idv) = params
      ∧ (requestDocument method params idv).member "id" = idv := by
  cases params <;> cases idv <;>
    simp [requestDocument, peerParams, Json.member, paramsMember, idMember, List.find?]

/-! ## Go strings: the UTF-8 of a text is read as the text -/

theorem char_toNat_valid (ch : Char) :
    ch.toNat < 55296 ∨ (57343 < ch.toNat ∧ ch.toNat < 1114112) := ch.valid

theorem decodeRune_one (n : Nat) (h : n < 128) (rest : GoString) :
    decodeRune (n :: rest) = some (Char.ofNat n, 1) := by
  simp only [decodeRune, if_pos h]

theorem decodeRune_two (n : Nat) (h1 : 128 ≤ n) (h2 : n < 2048) (rest : GoString) :
    decodeRune ((192 + n / 64) :: (128 + n % 64) :: rest) = some (Char.ofNat n, 2) := by
  have hn : (192 + n / 64) % 32 * 64 + (128 + n % 64) % 64 = n := by omega
  have hr : ¬((128 + n % 64 < if 192 + n / 64 = 224 then 160
        else if 192 + n / 64 = 240 then 144 else 128)
      ∨ (if 192 + n / 64 = 237 then 159 else if 192 + n / 64 = 244 then 143 else 191)
        < 128 + n % 64) := by
    rw [if_neg (by omega), if_neg (by omega), if_neg (by omega), if_neg (by omega)]
    omega
  simp only [decodeRune]
  rw [if_neg (by omega), if_neg (by omega), if_neg hr, if_pos (by omega), hn]

theorem decodeRune_three (n : Nat) (h1 : 2048 ≤ n) (h2 : n < 65536)
    (hv : n < 55296 ∨ 57343 < n) (rest : GoString) :
    decodeRune ((224 + n / 4096) :: (128 + n / 64 % 64) :: (128 + n % 64) :: rest)
      = some (Char.ofNat n, 3) := by
  have hn : (224 + n / 4096) % 16 * 4096 + (128 + n / 64 % 64) % 64 * 64 + (128 + n % 64) % 64
      = n := by omega
  have hr : ¬((128 + n / 64 % 64 < if 224 + n / 4096 = 224 then 160
        else if 224 + n / 4096 = 240 then 144 else 128)
      ∨ (if 224 + n / 4096 = 237 then 159 else if 224 + n / 4096 = 244 then 143 else 191)
        < 128 + n / 64 % 64) := by
    by_cases e0 : n / 4096 = 0
    · rw [if_pos (by omega), if_neg (by omega), if_neg (by omega)]
      omega
    · by_cases e13 : n / 4096 = 13
      · rw [if_neg (by omega), if_neg (by omega), if_pos (by omega)]
        omega
      · rw [if_neg (by omega), if_neg (by omega), if_neg (by omega), if_neg (by omega)]
        omega
  simp only [decodeRune]
  rw [if_neg (by omega), if_neg (by omega), if_neg hr, if_neg (by omega), if_neg (by omega),
    if_pos (by omega), hn]

theorem decodeRune_four (n : Nat) (h1 : 65536 ≤ n) (h2 : n < 1114112) (rest : GoString) :
    decodeRune
        ((240 + n / 262144) :: (128 + n / 4096 % 64) :: (128 + n / 64 % 64) :: (128 + n % 64)
          :: rest)
      = some (Char.ofNat n, 4) := by
  have hn : (240 + n / 262144) % 8 * 262144 + (128 + n / 4096 % 64) % 64 * 4096
      + (128 + n / 64 % 64) % 64 * 64 + (128 + n % 64) % 64 = n := by omega
  have hr : ¬((128 + n / 4096 % 64 < if 240 + n / 262144 = 224 then 160
        else if 240 + n / 262144 = 240 then 144 else 128)
      ∨ (if 240 + n / 262144 = 237 then 159 else if 240 + n / 262144 = 244 then 143 else 191)
        < 128 + n / 4096 % 64) := by
    by_cases e0 : n / 262144 = 0
    · rw [if_neg (by omega), if_pos (by omega), if_neg (by omega), if_neg (by omega)]
      omega
    · by_cases e4 : n / 262144 = 4
      · rw [if_neg (by omega), if_neg (by omega), if_neg (by omega), if_pos (by omega)]
        omega
      · rw [if_neg (by omega), if_neg (by omega), if_neg (by omega), if_neg (by omega)]
        omega
  simp only [decodeRune]
  rw [if_neg (by omega), if_neg (by omega), if_neg hr, if_neg (by omega), if_neg (by omega),
    if_neg (by omega), if_neg (by omega), hn]

/-- Decoding the UTF-8 of a character gives the character back, with the width
of its encoding. -/
theorem decodeRune_utf8EncodeChar (ch : Char) (rest : GoString) :
    decodeRune (utf8EncodeChar ch ++ rest) = some (ch, (utf8EncodeChar ch).length) := by
  have hv := char_toNat_valid ch
  unfold utf8EncodeChar
  by_cases h1 : ch.toNat < 128
  · simp only [if_pos h1, List.singleton_append, List.length_singleton]
    rw [decodeRune_one _ h1, Char.ofNat_toNat]
  · by_cases h2 : ch.toNat < 2048
    · simp only [if_neg h1, if_pos h2, List.cons_append, List.nil_append, List.length_cons,
        List.length_nil]
      rw [decodeRune_two _ (by omega) h2, Char.ofNat_toNat]
    · by_cases h3 : ch.toNat < 65536
      · simp only [if_neg h1, if_neg h2, if_pos h3, List.cons_append, List.nil_append,
          List.length_cons, List.length_nil]
        rw [decodeRune_three _ (by omega) h3 (by omega), Char.ofNat_toNat]
      · simp only [if_neg h1, if_neg h2, if_neg h3, List.cons_append, List.nil_append,
          List.length_cons, List.length_nil]
        rw [decodeRune_four _ (by omega) (by omega), Char.ofNat_toNat]

theorem utf8EncodeChar_length (ch : Char) :
    1 ≤ (utf8EncodeChar ch).length := by
  unfold utf8EncodeChar
  split_ifs <;> simp

theorem drop_length_append (a b : List Nat) : (a ++ b).drop a.length = b := by
  simp

/-- On the UTF-8 of a text the byte-wise encoder writes what the encoder of
the text writes. -/
theorem escapeBytes_ofText (cs : List Char) (fuel : Nat)
    (hf : (cs.flatMap utf8EncodeChar).length ≤ fuel) :
    escapeBytes fuel (cs.flatMap utf8EncodeChar) = escapeChars cs := by
  induction cs generalizing fuel with
  | nil =>
    cases fuel with
    | zero => rfl
    | succ f => rfl
  | cons ch rest ih =>
    have hlen := utf8EncodeChar_length ch
    have hdec := decodeRune_utf8EncodeChar ch (rest.flatMap utf8EncodeChar)
    simp only [List.flatMap_cons, List.length_append] at hf ⊢
    cases henc : utf8EncodeChar ch with
    | nil =>
      rw [henc] at hlen
      simp at hlen
    | cons b t =>
      cases fuel with
      | zero =>
        rw [henc] at hf
        simp at hf
      | succ f =>
        rw [henc] at hdec hf
        simp only [List.cons_append] at hdec ⊢
        simp only [escapeBytes, hdec, escapeChars]
        have hdrop : (b :: (t ++ rest.flatMap utf8EncodeChar)).drop (b :: t).length
            = rest.flatMap utf8EncodeChar := drop_length_append (b :: t) _
        rw [hdrop, ih f (by simp only [List.length_cons] at hf; omega)]

theorem encodeGoString_ofText (s : String) : encodeGoString (GoString.ofText s) = encodeString s := by
  unfold encodeGoString encodeString GoString.ofText
  rw [escapeBytes_ofText s.data _ (Nat.le_refl _)]

theorem marshalRequestGo_ofText (s : String) (req : JsonRpcRequest) :
    marshalRequestGo (GoString.ofText s) req = marshalRequest { req with Method := s } := by
  simp only [marshalRequestGo, marshalRequest, encodeGoString_ofText]

theorem goText_ofText (cs : List Char) (fuel : Nat)
    (hf : (cs.flatMap utf8EncodeChar).length ≤ fuel) :
    goText fuel (cs.flatMap utf8EncodeChar) = cs := by
  induction cs generalizing fuel with
  | nil =>
    cases fuel with
    | zero => rfl
    | succ f => rfl
  | cons ch rest ih =>
    have hlen := utf8EncodeChar_length ch
    have hdec := decodeRune_utf8EncodeChar ch (rest.flatMap utf8EncodeChar)
    simp only [List.flatMap_cons, List.length_append] at hf ⊢
    cases henc : utf8EncodeChar ch with
    | nil =>
      rw [henc] at hlen
      simp at hlen
    | cons b t =>
      cases fuel with
      | zero =>
        rw [henc] at hf
        simp at hf
      | succ f =>
        rw [henc] at hdec hf
        simp only [List.cons_append] at hdec ⊢
        simp only [goText, hdec]
        have hdrop : (b :: (t ++ rest.flatMap utf8EncodeChar)).drop (b :: t).length
            = rest.flatMap utf8EncodeChar := drop_length_append (b :: t) _
        rw [hdrop, ih f (by simp only [List.length_cons] at hf; omega)]

theorem readLoop_marshal (cfg : Codec) (m : JsonRpcRequest → Except Error String)
    (ls : List String) (c : McpClient) :
    readLoop { cfg with marshal := m } ls c = readLoop cfg ls c := by
  induction ls generalizing c with
  | nil => rfl
  | cons l ls ih =>
    rw [readLoop_cons, readLoop_cons, ih]
    rfl

/-- Called with the UTF-8 of a text, `sendRequest` does what the model on
texts does. -/
theorem sendRequestGo_ofText (cfg : Codec) (c : McpClient) (s : String) (params : Json)
    (x : Exchange) :
    sendRequestGo cfg c (GoString.ofText s) params x
      = sendRequest { cfg with marshal := marshalRequest } c s params x := by
  have ht : String.mk (goText (GoString.ofText s).length (GoString.ofText s)) = s := by
    unfold GoString.ofText
    rw [goText_ofText s.data _ (Nat.le_refl _)]
  unfold sendRequestGo
  rw [ht]
  simp only [sendRequest, sendRequestIssue, sendRequestRegister, marshalRequestGo_ofText,
    readLoop_marshal]

/-- Called with the UTF-8 of a text, `sendNotification` does what the model on
texts does. -/
theorem sendNotificationGo_ofText (cfg : Codec) (c : McpClient) (s : String) (params : Json)
    (werr : Option Error) :
    sendNotificationGo cfg c (GoString.ofText s) params werr
      = sendNotification { cfg with marshal := marshalRequest } c s params werr := by
  have ht : String.mk (goText (GoString.ofText s).length (GoString.ofText s)) = s := by
    unfold GoString.ofText
    rw [goText_ofText s.data _ (Nat.le_refl _)]
  unfold sendNotificationGo
  rw [ht]
  simp only [sendNotification, marshalRequestGo_ofText]

/-- On texts, request serialization round-trips. -/
theorem round_trip_text (cfg : Codec) (hm : cfg.marshal = marshalRequest)
    (c : McpClient) (method : String) (params : Json) (text : List Char)
    (hp : encodeJson params = .ok text) :
    (∃ line doc,
        (∀ inbound, (sendRequest cfg c method params { werr := none, inbound := inbound }).2.stdin
          = c.stdin ++ [line])
        ∧ decodeLine line = some doc
        ∧ doc.member "jsonrpc" = some (Json.str "2.0")
        ∧ doc.member "method" = some (Json.str method)
        ∧ peerParams doc = params)
    ∧ (∃ line doc,
        (sendNotification cfg c method params none).2.stdin = c.stdin ++ [line]
        ∧ decodeLine line = some doc
        ∧ doc.member "jsonrpc" = some (Json.str "2.0")
        ∧ doc.member "method" = some (Json.str method)
        ∧ peerParams doc = params) := by
  constructor
  · obtain ⟨body, hb, _, hdec⟩ :=
      marshalRequest_line method params text hp (some (toString (wrapInt64 (c.seq + 1))))
        (some (Json.num (toString (wrapInt64 (c.seq + 1))))) _
        (encodeIdMember_decimal _) (encodeMembers_idDecimal _)
    obtain ⟨h1, h2, h3, _⟩ := requestDocument_members method params
      (some (Json.num (toString (wrapInt64 (c.seq + 1)))))
    refine ⟨body ++ "\n", _, ?_, hdec, h1, h2, h3⟩
    intro inbound
    have hissue : sendRequestIssue cfg c method params none
        = (.ok (toString (wrapInt64 (c.seq + 1)), c.made),
            { c with
              seq := wrapInt64 (c.seq + 1)
              made := c.made + 1
              pending := c.pending.set (toString (wrapInt64 (c.seq + 1))) c.made
              stdin := c.stdin ++ [body ++ "\n"] }) := by
      simp only [sendRequestIssue, sendRequestRegister, McpClient.addSeq, McpClient.makeChan, hm,
        hb, stdinWrite]
    unfold sendRequest
    simp only [hissue]
    split
    · exact (readLoop_frame cfg inbound _).2.1
    · exact (readLoop_frame cfg inbound _).2.1
  · obtain ⟨body, hb, _, hdec⟩ :=
      marshalRequest_line method params text hp none none [] rfl encodeMembers_idNone
    obtain ⟨h1, h2, h3, _⟩ := requestDocument_members method params none
    refine ⟨body ++ "\n", _, ?_, hdec, h1, h2, h3⟩
    simp only [sendNotification, hm, hb, stdinWrite]

/-! ## C1 - C3: what `CallTool` and `sendRequest` return -/

/-- C1: when `sendRequest` hands `CallTool` a response whose result decodes with
the error flag not set, `CallTool` returns, with no error, the concatenation in
list order of `Text` and a line break for each block typed "text", other blocks
contributing nothing; for blocks text "a", a non-text block, text "b" that is
"a\nb\n", and with no text block it is the empty string. -/
theorem CallTool_returns_text (cfg : Codec) (c c1 : McpClient) (name : String)
    (arguments : List (String × Json)) (x : Exchange) (resp : JsonRpcResponse)
    (result : McpCallToolResult)
    (hsend : sendRequest cfg c "tools/call"
      (McpCallToolParams.toJson { Name := name, Arguments := arguments }) x
        = (some (some resp, none), c1))
    (hdec : cfg.unmarshalCallToolResult resp.Result = .ok result)
    (hflag : result.IsError = false) :
    CallTool cfg c name arguments x = (some (specText result.Content, none), c1)
    ∧ (∀ t s : String, t ≠ "text" →
        result.Content = [{ Type_ := "text", Text := "a" }, { Type_ := t, Text := s },
          { Type_ := "text", Text := "b" }] →
        CallTool cfg c name arguments x = (some ("a\nb\n", none), c1))
    ∧ ((∀ b ∈ result.Content, b.Type_ ≠ "text") →
        CallTool cfg c name arguments x = (some ("", none), c1)) := by
  have main : CallTool cfg c name arguments x = (some (specText result.Content, none), c1) := by
    unfold CallTool
    simp only [hsend, hdec, hflag, combineText_eq_specText]
    rfl
  refine ⟨main, ?_, ?_⟩
  · intro t s ht hc
    rw [main, hc]
    have : specText [{ Type_ := "text", Text := "a" }, { Type_ := t, Text := s },
        { Type_ := "text", Text := "b" }] = "a\nb\n" := by
      simp [specText, List.filter_cons, ht, join_cons, String.join]
    rw [this]
  · intro hno
    rw [main]
    have : result.Content.filter (fun b => decide (b.Type_ = "text")) = [] := by
      rw [List.filter_eq_nil_iff]
      intro b hb
      simpa using hno b hb
    simp [specText, this, String.join]

/-- C1, a concrete run: the peer answers request 1 with blocks text "a", image,
text "b". -/
theorem CallTool_returns_text_witness :
    CallTool sampleCodec NewMcpClient "echo" [] { inbound := [sampleResultLine "1" "\"abc\""] }
      = (some ("a\nb\n", none),
          { seq := 1, stdin := ["tools/call#1\n"], made := 1,
            delivered := [(0, { JSONRPC := "2.0", Result := some "\"abc\"", ID := some "1" })] }) :=
  ((CallTool_returns_text sampleCodec NewMcpClient _ "echo" []
      { inbound := [sampleResultLine "1" "\"abc\""] }
      { JSONRPC := "2.0", Result := some "\"abc\"", ID := some "1" }
      { Content := [{ Type_ := "text", Text := "a" }, { Type_ := "image" },
          { Type_ := "text", Text := "b" }] }
      (by decide) rfl rfl).2.1 "image" "" (by decide) rfl)

/-- C2: when `sendRequest` hands `CallTool` a response without a protocol-level
error whose result decodes, `CallTool` returns, and it returns an error exactly
when the result's `isError` flag is true; it then returns the empty string and
the error "tool execution failed", whatever the content blocks hold. -/
theorem CallTool_fails_iff_isError (cfg : Codec) (c c1 : McpClient) (name : String)
    (arguments : List (String × Json)) (x : Exchange) (resp : JsonRpcResponse)
    (result : McpCallToolResult)
    (hsend : sendRequest cfg c "tools/call"
      (McpCallToolParams.toJson { Name := name, Arguments := arguments }) x
        = (some (some resp, none), c1))
    (hdec : cfg.unmarshalCallToolResult resp.Result = .ok result) :
    ∃ out : String × Option Error,
      CallTool cfg c name arguments x = (some out, c1)
      ∧ (out.2 ≠ none ↔ result.IsError = true)
      ∧ (result.IsError = true → out = ("", some "tool execution failed")) := by
  unfold CallTool
  simp only [hsend, hdec]
  cases hflag : result.IsError
  · exact ⟨(combineText result.Content, none), by simp, by simp, by simp⟩
  · exact ⟨("", some "tool execution failed"), by simp, by simp, by simp⟩

/-- C2, a concrete run: the peer answers request 1 with a text block and the
error flag set; the text is not returned. -/
theorem CallTool_fails_iff_isError_witness :
    ∃ out : String × Option Error,
      CallTool sampleCodec NewMcpClient "echo" [] { inbound := [sampleResultLine "1" "\"err\""] }
        = (some out,
            { seq := 1, stdin := ["tools/call#1\n"], made := 1,
              delivered := [(0, { JSONRPC := "2.0", Result := some "\"err\"", ID := some "1" })] })
      ∧ (out.2 ≠ none ↔ true = true)
      ∧ (true = true → out = ("", some "tool execution failed")) :=
  CallTool_fails_iff_isError sampleCodec NewMcpClient _ "echo" []
    { inbound := [sampleResultLine "1" "\"err\""] }
    { JSONRPC := "2.0", Result := some "\"err\"", ID := some "1" }
    { Content := [{ Type_ := "text", Text := "boom" }], IsError := true }
    (by decide) rfl

/-- C3: once the request is issued and the reader has put `resp` first in the
caller's slot, `sendRequest` returns: with an error object, no response and
the error `MCP error (<code>): <message>` built from the object's code and
message, a text from which both can be read back; without one, that same
response and no error. -/
theorem sendRequest_resolves (cfg : Codec) (c c1 : McpClient) (method : String) (params : Json)
    (x : Exchange) (idStr : String) (ch : Chan) (resp : JsonRpcResponse)
    (rest : List JsonRpcResponse)
    (hissue : sendRequestIssue cfg c method params x.werr = (.ok (idStr, ch), c1))
    (hrecv : (readLoop cfg x.inbound c1).slot ch = resp :: rest) :
    (∀ e : JsonRpcError, resp.Error = some e →
        sendRequest cfg c method params x
          = (some (none, some (specRemoteError e.Code e.Message)), readLoop cfg x.inbound c1)
        ∧ ∀ (code : Int) (message : String),
            specRemoteError code message = specRemoteError e.Code e.Message →
            code = e.Code ∧ message = e.Message)
    ∧ (resp.Error = none →
        sendRequest cfg c method params x = (some (some resp, none), readLoop cfg x.inbound c1)) := by
  constructor
  · intro e he
    refine ⟨?_, fun code message h => specRemoteError_injective _ _ _ _ h⟩
    simp only [sendRequest, hissue, hrecv, sendRequestAwait, he, specRemoteError, String.append_assoc]
  · intro he
    simp only [sendRequest, hissue, hrecv, sendRequestAwait, he]

/-- C3, two concrete runs: request 1 answered with the error object
(-32601, "Method not found"), and answered with a result. -/
theorem sendRequest_resolves_witness :
    (sendRequest sampleCodec NewMcpClient "tools/list" (Json.obj [])
        { inbound := ["\x7b\"jsonrpc\":\"2.0\",\"id\":1,\"error\":\x7b\"code\":-32601,\"message\":\"Method not found\"\x7d\x7d\n"] }).1
      = some (none, some "MCP error (-32601): Method not found")
    ∧ (sendRequest sampleCodec NewMcpClient "tools/list" (Json.obj [])
        { inbound := [sampleResultLine "1" "\"one\""] }).1
      = some (some { JSONRPC := "2.0", Result := some "\"one\"", ID := some "1" }, none) :=
  ⟨congrArg Prod.fst ((sendRequest_resolves sampleCodec NewMcpClient _ "tools/list" (Json.obj [])
      { inbound := ["\x7b\"jsonrpc\":\"2.0\",\"id\":1,\"error\":\x7b\"code\":-32601,\"message\":\"Method not found\"\x7d\x7d\n"] }
      "1" 0
      { JSONRPC := "2.0", Error := some { Code := -32601, Message := "Method not found" }, ID := some "1" }
      [] rfl (by decide)).1 { Code := -32601, Message := "Method not found" } rfl).1,
   congrArg Prod.fst ((sendRequest_resolves sampleCodec NewMcpClient _ "tools/list" (Json.obj [])
      { inbound := [sampleResultLine "1" "\"one\""] }
      "1" 0 { JSONRPC := "2.0", Result := some "\"one\"", ID := some "1" }
      [] rfl (by decide)).2 rfl)⟩

/-! ## C4, C5: routing by id, fresh ids -/

/-- C4: for a registry with distinct ids, a channel of its own for each and
empty slots, and every list of lines whose decoded ids are the registered ids,
each exactly once and in whatever order (so every line decodes and has an
id): after `readLoop` has processed the list the registry is empty, every
waiter's slot holds exactly the one response whose id is its own, no slot
holds a response for another id, and every reordering of the lines leaves each
waiter with the same response. -/
theorem readLoop_routes_by_id (cfg : Codec) (c : McpClient) (lines : List String)
    (hkeys : (c.pending.map Prod.fst).Nodup)
    (hchans : (c.pending.map Prod.snd).Nodup)
    (hempty : ∀ e ∈ c.pending, c.slot e.2 = [])
    (hperm : (lines.map (lineId cfg)).Perm (c.pending.map (fun e => some e.1))) :
    (readLoop cfg lines c).pending = []
    ∧ (∀ id ch, (id, ch) ∈ c.pending →
        ∃ l ∈ lines, ∃ r, cfg.unmarshalResponse l = .ok r ∧ r.ID = some id
          ∧ (readLoop cfg lines c).slot ch = [r])
    ∧ (∀ id ch r, (id, ch) ∈ c.pending → r ∈ (readLoop cfg lines c).slot ch → r.ID = some id)
    ∧ (∀ lines' : List String, lines'.Perm lines →
        (readLoop cfg lines' c).pending = []
        ∧ ∀ e ∈ c.pending, (readLoop cfg lines' c).slot e.2 = (readLoop cfg lines c).slot e.2) := by
  obtain ⟨h1, h2⟩ := routes_aux cfg c lines hkeys hchans hempty hperm
  refine ⟨h1, h2, ?_, ?_⟩
  · intro id ch r hmem hr
    obtain ⟨l, _, r0, _, hid, hslot⟩ := h2 id ch hmem
    rw [hslot] at hr
    simp at hr
    rw [hr]
    exact hid
  · intro lines' hp
    have hperm' : (lines'.map (lineId cfg)).Perm (c.pending.map (fun e => some e.1)) :=
      (hp.map (lineId cfg)).trans hperm
    obtain ⟨g1, g2⟩ := routes_aux cfg c lines' hkeys hchans hempty hperm'
    refine ⟨g1, ?_⟩
    intro e he
    obtain ⟨l, hl, r, hd, hid, hslot⟩ := h2 e.1 e.2 he
    obtain ⟨l', hl', r', hd', hid', hslot'⟩ := g2 e.1 e.2 he
    rw [hslot, hslot']
    have hnd : (lines.map (lineId cfg)).Nodup := by
      rw [hperm.nodup_iff]
      have := hkeys.map (f := fun k : String => some k) (fun a b h => by simpa using h)
      simpa [List.map_map] using this
    have hll : l' = l := by
      apply List.inj_on_of_nodup_map hnd (hp.subset hl') hl
      simp [lineId, hd, hd', hid, hid']
    subst hll
    rw [hd] at hd'
    cases hd'
    rfl

/-- C4, a concrete run: requests "1", "2", "3" are waiting and the peer answers
in the order 3, 1, 2. -/
theorem readLoop_routes_by_id_witness :
    (readLoop sampleCodec
        [sampleResultLine "3" "\"three\"", sampleResultLine "1" "\"one\"",
          sampleResultLine "2" "\"two\""] sampleWaiting).pending = []
    ∧ (readLoop sampleCodec
        [sampleResultLine "3" "\"three\"", sampleResultLine "1" "\"one\"",
          sampleResultLine "2" "\"two\""] sampleWaiting).slot 0
        = [{ JSONRPC := "2.0", Result := some "\"one\"", ID := some "1" }]
    ∧ (readLoop sampleCodec
        [sampleResultLine "2" "\"two\"", sampleResultLine "3" "\"three\"",
          sampleResultLine "1" "\"one\""] sampleWaiting).slot 0
        = [{ JSONRPC := "2.0", Result := some "\"one\"", ID := some "1" }] :=
  have h := readLoop_routes_by_id sampleCodec sampleWaiting
    [sampleResultLine "3" "\"three\"", sampleResultLine "1" "\"one\"",
      sampleResultLine "2" "\"two\""]
    (by decide) (by decide) (by decide) (by decide)
  ⟨h.1, by decide,
    ((h.2.2.2 [sampleResultLine "2" "\"two\"", sampleResultLine "3" "\"three\"",
        sampleResultLine "1" "\"one\""] (by decide)).2 ("1", 0) (by decide)).trans (by decide)⟩

/-- C5, as amended: the counter of a new client starts at 0, and in every
session of fewer than 2^63 `sendRequest` calls, interleaved at will with lines
taken by the reader, the k-th call allocates the decimal rendering of k, no two
calls allocate the same id, the registry never holds two entries for one id,
and no call registers its slot over an entry still in the registry. -/
theorem sendRequest_ids_fresh (cfg : Codec) (ops : List Op) (h : sendCount ops < 2 ^ 63) :
    NewMcpClient.seq = 0
    ∧ issuedIds cfg ops NewMcpClient
        = (List.range (sendCount ops)).map (fun j => toString (j + 1))
    ∧ (issuedIds cfg ops NewMcpClient).Nodup
    ∧ ((run cfg ops NewMcpClient).pending.map Prod.fst).Nodup
    ∧ (∀ (pre post : List Op) (m : String) (p : Json) (w : Option Error),
        ops = pre ++ Op.send m p w :: post →
        (run cfg pre NewMcpClient).pending.get
          (toString (run cfg pre NewMcpClient).addSeq.1) = none) := by
  refine ⟨rfl, issuedIds_new cfg ops h, issuedIds_new_nodup cfg ops h,
    (consistent_run cfg ops _ consistent_new).keys, ?_⟩
  intro pre post m p w hops
  rw [Registry.get_eq_none]
  intro hin
  have hnd := issuedIds_new_nodup cfg ops h
  rw [hops, issuedIds_append] at hnd
  have hdis := (List.nodup_append.mp hnd).2.2
  rcases run_keys cfg pre NewMcpClient _ hin with h1 | h1
  · simp [NewMcpClient] at h1
  · exact hdis h1 (by simp [issuedIds])

/-- C5, a concrete session: three calls with a line answered in between. -/
theorem sendRequest_ids_fresh_witness :
    issuedIds sampleCodec
        [.send "initialize" Json.null none, .line (sampleResultLine "1" "\"one\""),
          .send "tools/list" (Json.obj []) none, .send "tools/call" Json.null (some "broken pipe")]
        NewMcpClient
      = ["1", "2", "3"] :=
  (sendRequest_ids_fresh sampleCodec
    [.send "initialize" Json.null none, .line (sampleResultLine "1" "\"one\""),
      .send "tools/list" (Json.obj []) none, .send "tools/call" Json.null (some "broken pipe")]
    (by decide)).2.1.trans (by decide)

/-- C5 as stated fails on the `int64` counter: the 2^63-th call on a new
client allocates "-9223372036854775808", which is not the decimal rendering of
2^63, and the (2^64+1)-th call allocates "1", the id of the first call. -/
theorem sendRequest_id_wraps :
    (issuedIds sampleCodec (List.replicate (2 ^ 63) (Op.send "ping" Json.null none))
        NewMcpClient)[2 ^ 63 - 1]? = some "-9223372036854775808"
    ∧ toString (2 ^ 63 : Nat) = "9223372036854775808"
    ∧ (issuedIds sampleCodec (List.replicate (2 ^ 64 + 1) (Op.send "ping" Json.null none))
        NewMcpClient)[0]? = some "1"
    ∧ (issuedIds sampleCodec (List.replicate (2 ^ 64 + 1) (Op.send "ping" Json.null none))
        NewMcpClient)[2 ^ 64]? = some "1" := by
  refine ⟨?_, by decide, ?_, ?_⟩
  · rw [issuedIds_getElem _ _ _ _ (by rw [sendCount_replicate]; norm_num)]
    decide
  · rw [issuedIds_getElem _ _ _ _ (by rw [sendCount_replicate]; norm_num)]
    decide
  · rw [issuedIds_getElem _ _ _ _ (by rw [sendCount_replicate]; norm_num)]
    decide

/-! ## C6 - C8: registration before the write, malformed lines, removal on delivery -/

/-- C6: when `sendRequest` has marshalled its request, the client state its
write is made in already holds the slot under the request's id, the id the
marshalled request carries, and nothing of the request has been written; the
write adds the line and leaves the registry alone. In a consistent client the
entry is still there at the write if the reader has meanwhile taken lines
`early`, none carrying the id of the request not yet sent, and whatever lines
the reader processes after the write, the first response that carries the id
is put in the caller's slot. -/
theorem sendRequest_registers_before_write (cfg : Codec) (c c3 : McpClient) (method : String)
    (params : Json) (idStr reqBytes : String) (ch : Chan)
    (hreg : sendRequestRegister cfg c method params = (.ok (idStr, ch, reqBytes), c3)) :
    c3.pending.get idStr = some ch
    ∧ c3.stdin = c.stdin
    ∧ cfg.marshal { JSONRPC := "2.0", Method := method, Params := params, ID := some idStr }
        = .ok reqBytes
    ∧ (∀ werr : Option Error,
        sendRequestIssue cfg c method params werr
          = (match stdinWrite c3 reqBytes werr with
             | (some err, c4) => (.error err, c4)
             | (none, c4) => (.ok (idStr, ch), c4)))
    ∧ sendRequestIssue cfg c method params none
        = (.ok (idStr, ch), { c3 with stdin := c.stdin ++ [reqBytes ++ "\n"] })
    ∧ (Consistent c →
        ∀ (early before after : List String) (l : String) (r : JsonRpcResponse),
        (∀ b ∈ early ++ before, lineId cfg b ≠ some idStr) →
        cfg.unmarshalResponse l = .ok r → r.ID = some idStr →
        (readLoop cfg early c3).pending.get idStr = some ch
        ∧ (readLoop cfg (before ++ l :: after)
            (stdinWrite (readLoop cfg early c3) reqBytes none).2).slot ch = [r]) := by
  obtain ⟨hid, hch, hm, hc3⟩ := sendRequestRegister_ok hreg
  have hget : c3.pending.get idStr = some ch := (sendRequestRegister_get hreg).1
  have hissue : ∀ werr : Option Error,
      sendRequestIssue cfg c method params werr
        = (match stdinWrite c3 reqBytes werr with
           | (some err, c4) => (.error err, c4)
           | (none, c4) => (.ok (idStr, ch), c4)) := by
    intro werr
    cases werr <;> simp [sendRequestIssue, hreg, stdinWrite]
  have hnone : sendRequestIssue cfg c method params none
      = (.ok (idStr, ch), { c3 with stdin := c.stdin ++ [reqBytes ++ "\n"] }) := by
    rw [hissue none]
    simp [stdinWrite, hc3]
  refine ⟨hget, by rw [hc3], hm, hissue, hnone, ?_⟩
  intro hcons early before after l r hquiet hd hidr
  have hc3c : Consistent c3 := by
    have h := consistent_send cfg c method params (some "") hcons
    rw [hissue (some "")] at h
    exact h
  have hce : Consistent (readLoop cfg early c3) := consistent_readLoop cfg early c3 hc3c
  have hmem : (idStr, ch) ∈ (readLoop cfg early c3).pending :=
    (readLoop_unanswered cfg c3 early hc3c idStr ch (Registry.get_mem hget)
      (firstWithId_none (fun b hb => hquiet b (List.mem_append_left _ hb)))).1
  refine ⟨Registry.get_of_mem hce.keys hmem, ?_⟩
  have hs : (stdinWrite (readLoop cfg early c3) reqBytes none).2
      = { readLoop cfg early c3 with
          stdin := (readLoop cfg early c3).stdin ++ [reqBytes ++ "\n"] } := rfl
  have hcs : Consistent { readLoop cfg early c3 with
      stdin := (readLoop cfg early c3).stdin ++ [reqBytes ++ "\n"] } :=
    ⟨hce.keys, hce.chans, hce.known, hce.empty, hce.sent, hce.once⟩
  rw [hs, readLoop_slot_registered cfg _ _ hcs.keys hcs.chans idStr ch hmem,
    firstWithId_at cfg before after l r idStr
      (fun b hb => hquiet b (List.mem_append_right _ hb)) hd hidr]
  have hempty : (readLoop cfg early c3).slot ch = [] := hce.empty _ hmem
  show (readLoop cfg early c3).slot ch ++ [r] = [r]
  rw [hempty]
  rfl

/-- C6, a concrete run: the first request of a new client; the reader takes a
notification before the write, and after it a line that is not JSON, the
answer, and a repeat of the answer. -/
theorem sendRequest_registers_before_write_witness :
    (readLoop sampleCodec
        ["\x7b\"jsonrpc\":\"2.0\",\"method\":\"notifications/progress\"\x7d\n"]
        { seq := 1, pending := [("1", 0)], made := 1 }).pending.get "1" = some 0
    ∧ (readLoop sampleCodec
        (["oops\n"] ++ sampleResultLine "1" "\"one\"" :: [sampleResultLine "1" "\"one\""])
        (stdinWrite
          (readLoop sampleCodec
            ["\x7b\"jsonrpc\":\"2.0\",\"method\":\"notifications/progress\"\x7d\n"]
            { seq := 1, pending := [("1", 0)], made := 1 })
          "tools/list#1" none).2).slot 0
      = [{ JSONRPC := "2.0", Result := some "\"one\"", ID := some "1" }] :=
  (sendRequest_registers_before_write sampleCodec NewMcpClient
      { seq := 1, pending := [("1", 0)], made := 1 } "tools/list" (Json.obj []) "1"
      "tools/list#1" 0 rfl).2.2.2.2.2 consistent_new
    ["\x7b\"jsonrpc\":\"2.0\",\"method\":\"notifications/progress\"\x7d\n"] ["oops\n"]
    [sampleResultLine "1" "\"one\""] (sampleResultLine "1" "\"one\"") _ (by decide) rfl rfl

/-- C7: on every sequence of lines `readLoop` ends in the same state, registry
and deliveries alike, as on the sequence with the lines that fail to decode
removed, all of them or any choice of them; a line that fails to decode
changes nothing, and the lines before and after it are processed as if it were
not there. -/
theorem readLoop_skips_malformed (cfg : Codec) (lines : List String) (c : McpClient) :
    readLoop cfg lines c = readLoop cfg (lines.filter (decodes cfg)) c
    ∧ (∀ keep : String → Bool, (∀ l ∈ lines, keep l = false → decodes cfg l = false) →
        readLoop cfg lines c = readLoop cfg (lines.filter keep) c)
    ∧ (∀ (before after : List String) (bad : String), decodes cfg bad = false →
        readLoopLine cfg (readLoop cfg before c) bad = readLoop cfg before c
        ∧ readLoop cfg (before ++ bad :: after) c = readLoop cfg after (readLoop cfg before c)
        ∧ readLoop cfg (before ++ bad :: after) c = readLoop cfg (before ++ after) c) := by
  have hfilter : ∀ (keep : String → Bool) (ls : List String) (d : McpClient),
      (∀ l ∈ ls, keep l = false → decodes cfg l = false) →
      readLoop cfg ls d = readLoop cfg (ls.filter keep) d := by
    intro keep ls
    induction ls with
    | nil => intro d _; rfl
    | cons l ls ih =>
      intro d hk
      have hrest : ∀ x ∈ ls, keep x = false → decodes cfg x = false :=
        fun x hx => hk x (List.mem_cons_of_mem _ hx)
      cases hl : keep l with
      | false =>
        rw [readLoop_cons, readLoopLine_malformed (hk l (List.mem_cons_self _ _) hl),
          ih d hrest, List.filter_cons_of_neg (by simp [hl])]
      | true => rw [readLoop_cons, ih _ hrest, List.filter_cons_of_pos hl, readLoop_cons]
  refine ⟨hfilter (decodes cfg) lines c (fun _ _ h => h), fun keep hk => hfilter keep lines c hk,
    ?_⟩
  intro before after bad hbad
  refine ⟨readLoopLine_malformed hbad, ?_, ?_⟩
  · rw [readLoop_append, readLoop_cons, readLoopLine_malformed hbad]
  · rw [readLoop_append, readLoop_cons, readLoopLine_malformed hbad, readLoop_append]

/-- C7, a concrete run: three requests wait; two lines that are not JSON stand
before and between the answers to "2" and "1". -/
theorem readLoop_skips_malformed_witness :
    readLoop sampleCodec
        ["oops\n", sampleResultLine "2" "\"two\"", "\x7b\"id\":\n", sampleResultLine "1" "\"one\""]
        sampleWaiting
      = readLoop sampleCodec [sampleResultLine "2" "\"two\"", sampleResultLine "1" "\"one\""]
          sampleWaiting :=
  (readLoop_skips_malformed sampleCodec
    ["oops\n", sampleResultLine "2" "\"two\"", "\x7b\"id\":\n", sampleResultLine "1" "\"one\""]
    sampleWaiting).1.trans (by decide)

/-- C8: in a consistent client, when `readLoop` processes a response whose id
is registered, it removes that entry and puts the response in that entry's
slot; whatever lines follow, the entry stays absent and the slot holds that
one response, a further response with the same id changes nothing, and the
entries of other ids are as they were; and in every session no slot is ever
sent more than the one response its buffer holds. -/
theorem readLoop_removes_once (cfg : Codec) (c : McpClient) (l : String) (r : JsonRpcResponse)
    (id : String) (ch : Chan) (hc : Consistent c)
    (hd : cfg.unmarshalResponse l = .ok r) (hid : r.ID = some id)
    (hget : c.pending.get id = some ch) :
    readLoopLine cfg c l
      = { c with pending := c.pending.delete id, delivered := c.delivered ++ [(ch, r)] }
    ∧ (∀ later : List String,
        (readLoop cfg later (readLoopLine cfg c l)).pending.get id = none
        ∧ (readLoop cfg later (readLoopLine cfg c l)).slot ch = [r]
        ∧ ∀ (l2 : String) (r2 : JsonRpcResponse), cfg.unmarshalResponse l2 = .ok r2 →
            r2.ID = some id →
            readLoopLine cfg (readLoop cfg later (readLoopLine cfg c l)) l2
              = readLoop cfg later (readLoopLine cfg c l))
    ∧ (∀ id2 : String, id2 ≠ id → (readLoopLine cfg c l).pending.get id2 = c.pending.get id2)
    ∧ (∀ (ops : List Op) (x : Chan), ((run cfg ops c).slot x).length ≤ 1) := by
  have hstep := readLoopLine_registered (c := c) hd hid hget
  have hmem := Registry.get_mem hget
  have habsent : ∀ later : List String,
      (readLoop cfg later (readLoopLine cfg c l)).pending.get id = none := by
    intro later
    rw [Registry.get_eq_none, readLoop_pending, hstep]
    intro hin
    obtain ⟨e, he, hk⟩ := List.mem_map.mp hin
    have he2 := (List.mem_filter.mp he).1
    exact (Registry.mem_delete.mp he2).2 hk
  refine ⟨hstep, ?_, ?_, ?_⟩
  · intro later
    refine ⟨habsent later, ?_, ?_⟩
    · rw [readLoop_slot_unregistered, hstep, slot_deliver, hc.empty _ hmem]
      · simp
      · rw [hstep]
        intro hin
        obtain ⟨e, he, hech⟩ := List.mem_map.mp hin
        have he2 := Registry.mem_delete.mp he
        have : e = (id, ch) := List.inj_on_of_nodup_map hc.chans he2.1 hmem hech
        exact he2.2 (by rw [this])
    · intro l2 r2 hd2 hid2
      exact readLoopLine_unregistered hd2 hid2 (habsent later)
  · intro id2 hne
    rw [hstep]
    exact Registry.get_delete_other _ hne
  · intro ops x
    exact (consistent_run cfg ops c hc).once x

/-- C8, a concrete run: of three waiting requests, "2" is answered twice. -/
theorem readLoop_removes_once_witness :
    readLoop sampleCodec [sampleResultLine "2" "\"two\"", sampleResultLine "2" "\"two\""]
        sampleWaiting
      = { sampleWaiting with
          pending := [("3", 2), ("1", 0)]
          delivered := [(1, { JSONRPC := "2.0", Result := some "\"two\"", ID := some "2" })] } :=
  have h := readLoop_removes_once sampleCodec sampleWaiting (sampleResultLine "2" "\"two\"")
    { JSONRPC := "2.0", Result := some "\"two\"", ID := some "2" } "2" 1
    sampleWaiting_consistent
    rfl rfl (by decide)
  ((h.2.1 []).2.2 (sampleResultLine "2" "\"two\"") _ rfl rfl).trans (h.1.trans (by decide))

/-! ## C9, C10: the end of the session, cancellation -/

/-- C9, as amended: the end of the session resolves no pending request.
`Close` leaves the client as it is, `readLoop` at the end of its input does
nothing more, and in a consistent client every entry whose id none of the
lines read before the end carried is still registered with an empty slot (all
of them when no line carried a registered id); a `sendRequest` caller whose id
no line carried never returns. -/
theorem session_end_resolves_nothing (cfg : Codec) (c : McpClient) (lines : List String)
    (hc : Consistent c) :
    (∀ kill : Option Error, (Close c kill).2 = c)
    ∧ readLoop cfg [] c = c
    ∧ (∀ (id : String) (ch : Chan), (id, ch) ∈ c.pending → firstWithId cfg lines id = none →
        (id, ch) ∈ (readLoop cfg lines c).pending ∧ (readLoop cfg lines c).slot ch = [])
    ∧ ((∀ e ∈ c.pending, firstWithId cfg lines e.1 = none) →
        (readLoop cfg lines c).pending = c.pending)
    ∧ (∀ (method : String) (params : Json) (x : Exchange) (idStr : String) (ch : Chan)
        (c1 : McpClient),
        sendRequestIssue cfg c method params x.werr = (.ok (idStr, ch), c1) →
        firstWithId cfg x.inbound idStr = none →
        (sendRequest cfg c method params x).1 = none) := by
  refine ⟨fun _ => rfl, rfl, ?_, ?_, ?_⟩
  · intro id ch hmem hnone
    exact readLoop_unanswered cfg c lines hc id ch hmem hnone
  · intro hall
    rw [readLoop_pending, List.filter_eq_self]
    intro e he
    simp [hall e he]
  · intro method params x idStr ch c1 hissue hnone
    rw [sendRequest_blocked cfg c c1 method params x idStr ch hc hissue hnone]

/-- C9, a concrete run: three requests wait, the peer answers "2" and the
stream ends; "3" and "1" are still registered, with empty slots. -/
theorem session_end_resolves_nothing_witness :
    (("3", 2) ∈ (readLoop sampleCodec [sampleResultLine "2" "\"two\""] sampleWaiting).pending
      ∧ (readLoop sampleCodec [sampleResultLine "2" "\"two\""] sampleWaiting).slot 2 = [])
    ∧ (("1", 0) ∈ (readLoop sampleCodec [sampleResultLine "2" "\"two\""] sampleWaiting).pending
      ∧ (readLoop sampleCodec [sampleResultLine "2" "\"two\""] sampleWaiting).slot 0 = []) :=
  have h := (session_end_resolves_nothing sampleCodec sampleWaiting
    [sampleResultLine "2" "\"two\""] sampleWaiting_consistent).2.2.1
  ⟨h "3" 2 (by decide) (by decide), h "1" 0 (by decide) (by decide)⟩

/-- C9 as stated fails: with three requests pending, the stream ends at once
and `Close` is called; all three are still registered, their slots are empty,
and a caller whose request got no answer before the end does not return. -/
theorem session_end_leaves_waiters :
    (readLoop sampleCodec [] sampleWaiting).pending = [("3", 2), ("2", 1), ("1", 0)]
    ∧ (readLoop sampleCodec [] sampleWaiting).slot 0 = []
    ∧ (readLoop sampleCodec [] sampleWaiting).slot 1 = []
    ∧ (readLoop sampleCodec [] sampleWaiting).slot 2 = []
    ∧ (Close { readLoop sampleCodec [] sampleWaiting with hasProcess := true } none).2.pending
        = [("3", 2), ("2", 1), ("1", 0)]
    ∧ (sendRequest sampleCodec NewMcpClient "tools/list" (Json.obj []) { inbound := [] }).1
        = none := by
  decide

/-- C10, as amended: nothing cancels a pending request. The handshake returns
the same for every context it is given, and in a consistent client an entry
leaves the registry under the reader only when a response carrying its id has
been put in its slot; a response for an id that is not registered changes
nothing. -/
theorem pending_leaves_only_on_delivery (cfg : Codec) (c : McpClient) (hc : Consistent c) :
    (∀ (ctx1 ctx2 : Context) (x : Exchange) (nerr : Option Error),
        initializeHandshake cfg ctx1 c x nerr = initializeHandshake cfg ctx2 c x nerr)
    ∧ (∀ (lines : List String) (id : String) (ch : Chan), (id, ch) ∈ c.pending →
        (readLoop cfg lines c).pending.get id = none →
        ∃ r, firstWithId cfg lines id = some r ∧ (readLoop cfg lines c).slot ch = [r])
    ∧ (∀ (l : String) (r : JsonRpcResponse) (id : String), cfg.unmarshalResponse l = .ok r →
        r.ID = some id → c.pending.get id = none → readLoopLine cfg c l = c) := by
  refine ⟨fun _ _ _ _ => rfl, ?_, ?_⟩
  · intro lines id ch hmem hgone
    cases hf : firstWithId cfg lines id with
    | none =>
      have hstill := (readLoop_unanswered cfg c lines hc id ch hmem hf).1
      rw [Registry.get_eq_none] at hgone
      exact absurd (List.mem_map_of_mem Prod.fst hstill) hgone
    | some r =>
      refine ⟨r, rfl, ?_⟩
      rw [readLoop_slot_registered cfg _ _ hc.keys hc.chans id ch hmem, hc.empty _ hmem, hf]
      rfl
  · intro l r id hd hid hget
    exact readLoopLine_unregistered hd hid hget

/-- C10, a concrete run: of three waiting requests "2" has left the registry
after the reader took two lines, and its slot holds the response. -/
theorem pending_leaves_only_on_delivery_witness :
    ∃ r, firstWithId sampleCodec ["oops\n", sampleResultLine "2" "\"two\""] "2" = some r
      ∧ (readLoop sampleCodec ["oops\n", sampleResultLine "2" "\"two\""] sampleWaiting).slot 1
          = [r] :=
  (pending_leaves_only_on_delivery sampleCodec sampleWaiting sampleWaiting_consistent).2.1
    ["oops\n", sampleResultLine "2" "\"two\""] "2" 1 (by decide) (by decide)

/-- C10 as stated fails: the handshake is given a context that is already
cancelled and the peer never answers; the caller does not return and its
entry "1" stays in the registry. -/
theorem handshake_ignores_cancelled_context :
    initializeHandshake sampleCodec { done := true } NewMcpClient { inbound := [] } none
      = (none, { seq := 1, pending := [("1", 0)], stdin := ["initialize#1\n"], made := 1 }) := by
  decide

/-! ## C11 - C13: the handshake, the tool list, the environment -/

/-- C11: in every run of the handshake, when the request's exchange returned a
response without error whose result decodes, the notification is sent in the
state that exchange left, after the request line; in every other case, a
failed write, an error object, an undecodable result or no answer at all, the
handshake returns what the exchange returned (the error, or never) in the
state the exchange left, so it writes nothing after the request; and `Start`,
once the child is launched, returns what the handshake returns. -/
theorem handshake_ordered (cfg : Codec) (ctx : Context) (c : McpClient) (x : Exchange)
    (nerr : Option Error) :
    (∀ (resp : JsonRpcResponse) (c1 : McpClient) (res : McpInitializeResult),
        sendRequest cfg c "initialize" handshakeParams x = (some (some resp, none), c1) →
        cfg.unmarshalInitializeResult resp.Result = .ok res →
        initializeHandshake cfg ctx c x nerr
          = (some (sendNotification cfg c1 "notifications/initialized" (Json.obj []) nerr).1,
              (sendNotification cfg c1 "notifications/initialized" (Json.obj []) nerr).2))
    ∧ (∀ (err : Error) (c1 : McpClient),
        sendRequest cfg c "initialize" handshakeParams x = (some (none, some err), c1) →
        initializeHandshake cfg ctx c x nerr = (some (some err), c1))
    ∧ (∀ (resp : JsonRpcResponse) (c1 : McpClient) (err : Error),
        sendRequest cfg c "initialize" handshakeParams x = (some (some resp, none), c1) →
        cfg.unmarshalInitializeResult resp.Result = .error err →
        initializeHandshake cfg ctx c x nerr = (some (some err), c1))
    ∧ (∀ c1 : McpClient, sendRequest cfg c "initialize" handshakeParams x = (none, c1) →
        initializeHandshake cfg ctx c x nerr = (none, c1))
    ∧ (∀ (err : Error) (reqBytes : String), x.werr = some err →
        cfg.marshal
          { JSONRPC := "2.0", Method := "initialize", Params := handshakeParams,
            ID := some (toString (wrapInt64 (c.seq + 1))) } = .ok reqBytes →
        (initializeHandshake cfg ctx c x nerr).1 = some (some err)
        ∧ (initializeHandshake cfg ctx c x nerr).2.stdin = c.stdin)
    ∧ (∀ (idStr : String) (ch : Chan) (c1 : McpClient) (resp : JsonRpcResponse)
        (rest : List JsonRpcResponse) (e : JsonRpcError),
        sendRequestIssue cfg c "initialize" handshakeParams x.werr = (.ok (idStr, ch), c1) →
        (readLoop cfg x.inbound c1).slot ch = resp :: rest → resp.Error = some e →
        initializeHandshake cfg ctx c x nerr
          = (some (some (specRemoteError e.Code e.Message)), readLoop cfg x.inbound c1))
    ∧ (∀ (r : Option (Option JsonRpcResponse × Option Error)) (c1 : McpClient),
        sendRequest cfg c "initialize" handshakeParams x = (r, c1) →
        (initializeHandshake cfg ctx c x nerr).2.stdin ≠ c1.stdin →
        ∃ resp res, r = some (some resp, none)
          ∧ cfg.unmarshalInitializeResult resp.Result = .ok res)
    ∧ (∀ (config : McpConfig) (os : Launch), os.stdinPipe = none → os.stdoutPipe = none →
        os.stderrPipe = none → os.start = none →
        (Start cfg config ctx c os x nerr).2
          = initializeHandshake cfg ctx { c with hasProcess := true } x nerr) := by
  have hparams : ∀ (y : Exchange) (d : McpClient),
      sendRequest cfg d "initialize"
        (McpInitializeParams.toJson
          { ProtocolVersion := "2024-11-05"
            Capabilities := {}
            ClientInfo := { Name := "gollama-mcp-client", Version := "1.0.0" } }) y
        = sendRequest cfg d "initialize" handshakeParams y := fun _ _ => rfl
  have hok : ∀ (resp : JsonRpcResponse) (c1 : McpClient) (res : McpInitializeResult),
      sendRequest cfg c "initialize" handshakeParams x = (some (some resp, none), c1) →
      cfg.unmarshalInitializeResult resp.Result = .ok res →
      initializeHandshake cfg ctx c x nerr
        = (some (sendNotification cfg c1 "notifications/initialized" (Json.obj []) nerr).1,
            (sendNotification cfg c1 "notifications/initialized" (Json.obj []) nerr).2) := by
    intro resp c1 res hs hd
    simp only [initializeHandshake, hparams, hs, hd]
  have herr : ∀ (err : Error) (c1 : McpClient),
      sendRequest cfg c "initialize" handshakeParams x = (some (none, some err), c1) →
      initializeHandshake cfg ctx c x nerr = (some (some err), c1) := by
    intro err c1 hs
    simp only [initializeHandshake, hparams, hs]
  have hdec : ∀ (resp : JsonRpcResponse) (c1 : McpClient) (err : Error),
      sendRequest cfg c "initialize" handshakeParams x = (some (some resp, none), c1) →
      cfg.unmarshalInitializeResult resp.Result = .error err →
      initializeHandshake cfg ctx c x nerr = (some (some err), c1) := by
    intro resp c1 err hs hd
    simp only [initializeHandshake, hparams, hs, hd]
  have hblock : ∀ c1 : McpClient,
      sendRequest cfg c "initialize" handshakeParams x = (none, c1) →
      initializeHandshake cfg ctx c x nerr = (none, c1) := by
    intro c1 hs
    simp only [initializeHandshake, hparams, hs]
  refine ⟨hok, herr, hdec, hblock, ?_, ?_, ?_, ?_⟩
  · intro err reqBytes hw hm
    rw [herr err _ (sendRequest_write_fails cfg c "initialize" handshakeParams x err reqBytes hw hm)]
    exact ⟨rfl, rfl⟩
  · intro idStr ch c1 resp rest e hissue hrecv he
    apply herr
    simp only [sendRequest, hissue, hrecv, sendRequestAwait, he, specRemoteError,
      String.append_assoc]
  · intro r c1 hs hne
    match r, hs with
    | none, hs => exact absurd (by rw [hblock c1 hs]) hne
    | some (none, none), hs =>
      exact absurd (by simp only [initializeHandshake, hparams, hs]) hne
    | some (_, some err), hs =>
      rename_i o
      cases o with
      | none => exact absurd (by rw [herr err c1 hs]) hne
      | some resp => exact absurd (by simp only [initializeHandshake, hparams, hs]) hne
    | some (some resp, none), hs =>
      cases hd : cfg.unmarshalInitializeResult resp.Result with
      | error err => exact absurd (by rw [hdec resp c1 err hs hd]) hne
      | ok res => exact ⟨resp, res, rfl, hd⟩
  · intro config os h1 h2 h3 h4
    simp only [Start, h1, h2, h3, h4]

/-- C11, a concrete run: the peer answers the handshake's request; the
notification line follows the request line. -/
theorem handshake_ordered_witness :
    initializeHandshake sampleCodec {} NewMcpClient
        { inbound := [sampleResultLine "1" "\"one\""] } none
      = (some none,
          { seq := 1, stdin := ["initialize#1\n", "notifications/initialized#\n"], made := 1,
            delivered := [(0, { JSONRPC := "2.0", Result := some "\"one\"", ID := some "1" })] }) :=
  ((handshake_ordered sampleCodec {} NewMcpClient
      { inbound := [sampleResultLine "1" "\"one\""] } none).1
    { JSONRPC := "2.0", Result := some "\"one\"", ID := some "1" }
    { seq := 1, stdin := ["initialize#1\n"], made := 1,
      delivered := [(0, { JSONRPC := "2.0", Result := some "\"one\"", ID := some "1" })] }
    { ProtocolVersion := "2024-11-05", Capabilities := [],
      ServerInfo := { Name := "s", Version := "1" } }
    (by decide) rfl).trans (by decide)

/-- C12: when `sendRequest` hands `ListTools` a response whose result decodes to
the tool list `ts`, `ListTools` returns, with no error, one tool for each
descriptor and in the same order: the list has the length of `ts` and its i-th
element is typed "function" and has the name, description and input schema of
`ts[i]`; when `sendRequest` returns an error (a protocol error among them) or
the result does not decode, it returns no tools and that error. -/
theorem ListTools_maps_in_order (cfg : Codec) (c : McpClient) (x : Exchange) :
    (∀ (resp : JsonRpcResponse) (c1 : McpClient) (result : McpToolListResult),
        sendRequest cfg c "tools/list" (Json.obj []) x = (some (some resp, none), c1) →
        cfg.unmarshalToolListResult resp.Result = .ok result →
        ∃ tools : List Tool,
          ListTools cfg c x = (some (tools, none), c1)
          ∧ tools = result.Tools.map specTool
          ∧ tools.length = result.Tools.length
          ∧ ∀ (i : Nat) (t : McpTool), result.Tools[i]? = some t →
              ∃ u : Tool, tools[i]? = some u ∧ u.Type_ = "function"
                ∧ u.Function.Name = t.Name ∧ u.Function.Description = t.Description
                ∧ u.Function.Parameters = t.InputSchema)
    ∧ (∀ (err : Error) (c1 : McpClient),
        sendRequest cfg c "tools/list" (Json.obj []) x = (some (none, some err), c1) →
        ListTools cfg c x = (some ([], some err), c1))
    ∧ (∀ (idStr : String) (ch : Chan) (c1 : McpClient) (resp : JsonRpcResponse)
        (rest : List JsonRpcResponse) (e : JsonRpcError),
        sendRequestIssue cfg c "tools/list" (Json.obj []) x.werr = (.ok (idStr, ch), c1) →
        (readLoop cfg x.inbound c1).slot ch = resp :: rest → resp.Error = some e →
        ListTools cfg c x
          = (some ([], some (specRemoteError e.Code e.Message)), readLoop cfg x.inbound c1))
    ∧ (∀ (resp : JsonRpcResponse) (c1 : McpClient) (err : Error),
        sendRequest cfg c "tools/list" (Json.obj []) x = (some (some resp, none), c1) →
        cfg.unmarshalToolListResult resp.Result = .error err →
        ListTools cfg c x = (some ([], some err), c1)) := by
  have herr : ∀ (err : Error) (c1 : McpClient),
      sendRequest cfg c "tools/list" (Json.obj []) x = (some (none, some err), c1) →
      ListTools cfg c x = (some ([], some err), c1) := by
    intro err c1 hs
    simp only [ListTools, hs]
  refine ⟨?_, herr, ?_, ?_⟩
  · intro resp c1 result hs hd
    refine ⟨result.Tools.map specTool, ?_, rfl, by simp, ?_⟩
    · simp only [ListTools, hs, hd, foldl_tools, List.nil_append]
    · intro i t hi
      refine ⟨specTool t, ?_, rfl, rfl, rfl, rfl⟩
      rw [List.getElem?_map, hi]
      rfl
  · intro idStr ch c1 resp rest e hissue hrecv he
    apply herr
    simp only [sendRequest, hissue, hrecv, sendRequestAwait, he, specRemoteError,
      String.append_assoc]
  · intro resp c1 err hs hd
    simp only [ListTools, hs, hd]

/-- C12, a concrete run: the peer lists one tool. -/
theorem ListTools_maps_in_order_witness :
    ∃ tools : List Tool,
      ListTools sampleCodec NewMcpClient { inbound := [sampleResultLine "1" "\"one\""] }
        = (some (tools, none),
            { seq := 1, stdin := ["tools/list#1\n"], made := 1,
              delivered := [(0, { JSONRPC := "2.0", Result := some "\"one\"", ID := some "1" })] })
      ∧ tools = [specTool { Name := "read_file", Description := "Read a file",
                            InputSchema := { Type_ := "object", Required := ["path"] } }] :=
  match (ListTools_maps_in_order sampleCodec NewMcpClient
      { inbound := [sampleResultLine "1" "\"one\""] }).1
    { JSONRPC := "2.0", Result := some "\"one\"", ID := some "1" }
    { seq := 1, stdin := ["tools/list#1\n"], made := 1,
      delivered := [(0, { JSONRPC := "2.0", Result := some "\"one\"", ID := some "1" })] }
    { Tools := [{ Name := "read_file", Description := "Read a file",
                  InputSchema := { Type_ := "object", Required := ["path"] } }] }
    (by decide) rfl with
  | ⟨tools, h1, h2, _⟩ => ⟨tools, h1, h2⟩

/-- C13, as amended: the environment `Start` gives the child is the inherited
list followed by one `key=value` entry for each override, in the order the
overrides are visited; when no override key holds a `=`, every override key
has in that list the override's value, and every other key has the value it
has in the inherited list. -/
theorem startEnv_overrides_win (environ : List String) (env : List (String × String))
    (hnd : (env.map Prod.fst).Nodup) (hkeys : ∀ kv ∈ env, '=' ∉ kv.1.data) :
    startEnv environ env = environ ++ env.map (fun kv => kv.1 ++ "=" ++ kv.2)
    ∧ (∀ (cfg : Codec) (config : McpConfig) (ctx : Context) (c : McpClient) (os : Launch)
        (x : Exchange) (nerr : Option Error),
        (Start cfg config ctx c os x nerr).1 = startEnv os.environ config.Env)
    ∧ (∀ k v : String, (k, v) ∈ env → lookupEnv (startEnv environ env) k = some v)
    ∧ (∀ k : String, k ∉ env.map Prod.fst →
        lookupEnv (startEnv environ env) k = lookupEnv environ k) := by
  refine ⟨startEnv_eq environ env, ?_, ?_, ?_⟩
  · intro cfg config ctx c os x nerr
    unfold Start
    cases os.stdinPipe <;> cases os.stdoutPipe <;> cases os.stderrPipe <;> cases os.start <;> rfl
  · intro k v hmem
    rw [lookupEnv_startEnv environ env hnd hkeys k]
    have hfind : env.find? (fun kv => decide (kv.1 = k)) = some (k, v) := by
      cases hf : env.find? (fun kv => decide (kv.1 = k)) with
      | none =>
        rw [List.find?_eq_none] at hf
        exact absurd (by simp) (hf (k, v) hmem)
      | some kv =>
        have hin := List.mem_of_find?_eq_some hf
        have hk : kv.1 = k := by simpa using List.find?_some hf
        have : kv = (k, v) := List.inj_on_of_nodup_map hnd hin hmem hk
        rw [this]
    rw [hfind]
  · intro k hk
    rw [lookupEnv_startEnv environ env hnd hkeys k]
    have hfind : env.find? (fun kv => decide (kv.1 = k)) = none := by
      rw [List.find?_eq_none]
      intro kv hkv
      have : kv.1 ≠ k := fun h => hk (h ▸ List.mem_map_of_mem Prod.fst hkv)
      simpa using this
    rw [hfind]

/-- C13, a concrete run: `PATH` is overridden and `HOME` is not, `DEBUG` is
new. -/
theorem startEnv_overrides_win_witness :
    startEnv ["PATH=/bin", "HOME=/root"] [("PATH", "/opt/bin"), ("DEBUG", "1")]
      = ["PATH=/bin", "HOME=/root", "PATH=/opt/bin", "DEBUG=1"]
    ∧ lookupEnv (startEnv ["PATH=/bin", "HOME=/root"] [("PATH", "/opt/bin"), ("DEBUG", "1")])
        "PATH" = some "/opt/bin"
    ∧ lookupEnv (startEnv ["PATH=/bin", "HOME=/root"] [("PATH", "/opt/bin"), ("DEBUG", "1")])
        "HOME" = some "/root" :=
  have h := startEnv_overrides_win ["PATH=/bin", "HOME=/root"]
    [("PATH", "/opt/bin"), ("DEBUG", "1")] (by decide) (by decide)
  ⟨h.1.trans (by decide), h.2.2.1 "PATH" "/opt/bin" (by decide),
    (h.2.2.2 "HOME" (by decide)).trans (by decide)⟩

/-- C13 as stated fails for an override key that holds a `=`: with the
overrides `A` to "1" and `A=B` to "2", visited in this order, the last entry
for `A` in the list `Start` builds carries "B=2", not the override's "1". -/
theorem startEnv_key_with_equals :
    startEnv ["A=0"] [("A", "1"), ("A=B", "2")] = ["A=0", "A=1", "A=B=2"]
    ∧ lookupEnv (startEnv ["A=0"] [("A", "1"), ("A=B", "2")]) "A" = some "B=2"
    ∧ lookupEnv (startEnv ["A=0"] [("A", "1"), ("A=B", "2")]) "A=B" = none := by
  decide

/-! ## C14 - C16: what is written to the server -/

/-- C14 (amended): `sendNotification` allocates no id, registers no slot and
waits for no reply, whatever the method and params. When the params can be
marshalled it makes one write, of one line that a peer decodes to a message
with "jsonrpc" "2.0", the given method and params and no "id" member, and it
returns the outcome of that write: nil and the line written, or the write's
error. When the params cannot be marshalled it returns the marshalling error
and writes nothing. -/
theorem sendNotification_uncorrelated (cfg : Codec) (hm : cfg.marshal = marshalRequest)
    (c : McpClient) (method : String) (params : Json) :
    (∀ werr, (sendNotification cfg c method params werr).2.seq = c.seq
        ∧ (sendNotification cfg c method params werr).2.pending = c.pending
        ∧ (sendNotification cfg c method params werr).2.made = c.made
        ∧ (sendNotification cfg c method params werr).2.delivered = c.delivered)
    ∧ (∀ text, encodeJson params = .ok text →
        ∃ body, '\n' ∉ body.data
          ∧ decodeLine (body ++ "\n") = some (requestDocument method params none)
          ∧ (requestDocument method params none).member "id" = none
          ∧ sendNotification cfg c method params none
              = (none, { c with stdin := c.stdin ++ [body ++ "\n"] })
          ∧ ∀ err, sendNotification cfg c method params (some err) = (some err, c))
    ∧ (∀ err, encodeJson params = .error err →
        ∀ werr, sendNotification cfg c method params werr = (some err, c)) := by
  refine ⟨?_, ?_, ?_⟩
  · intro werr
    cases hmar : cfg.marshal
        { JSONRPC := "2.0", Method := method, Params := params, ID := none } with
    | error err => simp only [sendNotification, hmar, and_self]
    | ok reqBytes =>
      cases werr with
      | none => simp only [sendNotification, hmar, stdinWrite, and_self]
      | some err => simp only [sendNotification, hmar, stdinWrite, and_self]
  · intro text hp
    obtain ⟨body, hb, hnl, hdec⟩ :=
      marshalRequest_line method params text hp none none [] rfl encodeMembers_idNone
    refine ⟨body, hnl, hdec, (requestDocument_members method params none).2.2.2, ?_, ?_⟩
    · simp only [sendNotification, hm, hb, stdinWrite]
    · intro err
      simp only [sendNotification, hm, hb, stdinWrite]
  · intro err hp werr
    simp only [sendNotification, hm, marshalRequest_error method params err hp none]

/-- C14, a concrete run: the notification after the handshake, on a write that
succeeds, goes out as one line without id, and nothing is registered. -/
theorem sendNotification_uncorrelated_witness :
    jsonCodec.marshal = marshalRequest
    ∧ (sendNotification jsonCodec sampleWaiting "notifications/initialized" (Json.obj [])
        none).2.pending = sampleWaiting.pending
    ∧ ∃ body, '\n' ∉ body.data
        ∧ decodeLine (body ++ "\n")
            = some (requestDocument "notifications/initialized" (Json.obj []) none)
        ∧ (requestDocument "notifications/initialized" (Json.obj []) none).member "id" = none
        ∧ sendNotification jsonCodec sampleWaiting "notifications/initialized" (Json.obj []) none
            = (none, { sampleWaiting with stdin := sampleWaiting.stdin ++ [body ++ "\n"] })
        ∧ ∀ err, sendNotification jsonCodec sampleWaiting "notifications/initialized"
            (Json.obj []) (some err) = (some err, sampleWaiting) :=
  have h := sendNotification_uncorrelated jsonCodec rfl sampleWaiting "notifications/initialized"
    (Json.obj [])
  ⟨rfl, (h.1 none).2.1, h.2.1 ['\x7b', '\x7d'] rfl⟩

/-- C14 as stated fails: for params that have no JSON form (a NaN) no message
is written at all, and the error returned is the marshalling error, although
the write would have succeeded. -/
theorem sendNotification_marshal_failure :
    sendNotification jsonCodec NewMcpClient "notifications/progress" (Json.num "NaN") none
      = (some "json: unsupported value: NaN", NewMcpClient) := by
  decide

/-- C15 (amended): a request `sendRequest` writes is one JSON document on one
line, with the members "jsonrpc" "2.0", "method", "params" (left out for nil
params) and "id", in this order. The "id" member is a JSON number, not a
string: its digits are the allocated identifier, the decimal text under which
the pending slot is registered. -/
theorem sendRequest_writes_document (cfg : Codec) (hm : cfg.marshal = marshalRequest)
    (c : McpClient) (method : String) (params : Json) (text : List Char)
    (hp : encodeJson params = .ok text) :
    ∃ body c1, '\n' ∉ body.data
      ∧ decodeLine (body ++ "\n")
          = some (requestDocument method params
              (some (Json.num (toString (wrapInt64 (c.seq + 1))))))
      ∧ sendRequestIssue cfg c method params none
          = (.ok (toString (wrapInt64 (c.seq + 1)), c.made), c1)
      ∧ c1.stdin = c.stdin ++ [body ++ "\n"]
      ∧ c1.pending.get (toString (wrapInt64 (c.seq + 1))) = some c.made
      ∧ ∀ inbound, (sendRequest cfg c method params { werr := none, inbound := inbound }).2.stdin
          = c.stdin ++ [body ++ "\n"] := by
  obtain ⟨body, hb, hnl, hdec⟩ :=
    marshalRequest_line method params text hp (some (toString (wrapInt64 (c.seq + 1))))
      (some (Json.num (toString (wrapInt64 (c.seq + 1))))) _
      (encodeIdMember_decimal _) (encodeMembers_idDecimal _)
  have hissue : sendRequestIssue cfg c method params none
      = (.ok (toString (wrapInt64 (c.seq + 1)), c.made),
          { c with
            seq := wrapInt64 (c.seq + 1)
            made := c.made + 1
            pending := c.pending.set (toString (wrapInt64 (c.seq + 1))) c.made
            stdin := c.stdin ++ [body ++ "\n"] }) := by
    simp only [sendRequestIssue, sendRequestRegister, McpClient.addSeq, McpClient.makeChan, hm,
      hb, stdinWrite]
  refine ⟨body, _, hnl, hdec, hissue, rfl, Registry.get_set_self _ _ _, ?_⟩
  intro inbound
  unfold sendRequest
  simp only [hissue]
  split
  · exact (readLoop_frame cfg inbound _).2.1
  · exact (readLoop_frame cfg inbound _).2.1

/-- C15, a concrete run: the first request of a client, `tools/list` with an
empty object for params, goes out under id 1 and channel 0. -/
theorem sendRequest_writes_document_witness :
    jsonCodec.marshal = marshalRequest ∧ encodeJson (Json.obj []) = .ok ['\x7b', '\x7d']
    ∧ ∃ body c1, '\n' ∉ body.data
      ∧ decodeLine (body ++ "\n")
          = some (requestDocument "tools/list" (Json.obj []) (some (Json.num "1")))
      ∧ sendRequestIssue jsonCodec NewMcpClient "tools/list" (Json.obj []) none
          = (.ok ("1", 0), c1)
      ∧ c1.stdin = [body ++ "\n"]
      ∧ c1.pending.get "1" = some 0
      ∧ ∀ inbound, (sendRequest jsonCodec NewMcpClient "tools/list" (Json.obj [])
            { werr := none, inbound := inbound }).2.stdin = [body ++ "\n"] :=
  ⟨rfl, rfl,
    sendRequest_writes_document jsonCodec rfl NewMcpClient "tools/list" (Json.obj [])
      ['\x7b', '\x7d'] rfl⟩

/-- C15 as stated fails: the first request of a client carries `"id":1`, a
JSON number; a peer that reads the member finds the number 1 and no string. -/
theorem sendRequest_id_is_number :
    (sendRequestIssue jsonCodec NewMcpClient "tools/list" (Json.obj []) none).2.stdin
      = ["\x7b\"jsonrpc\":\"2.0\",\"method\":\"tools/list\",\"params\":\x7b\x7d,\"id\":1\x7d\n"]
    ∧ (decodeLine
          "\x7b\"jsonrpc\":\"2.0\",\"method\":\"tools/list\",\"params\":\x7b\x7d,\"id\":1\x7d\n").bind
        (fun doc => doc.member "id") = some (Json.num "1")
    ∧ (decodeLine
          "\x7b\"jsonrpc\":\"2.0\",\"method\":\"tools/list\",\"params\":\x7b\x7d,\"id\":1\x7d\n").bind
        (fun doc => doc.member "id") ≠ some (Json.str "1") := by
  refine ⟨by decide, rfl, ?_⟩
  intro h
  have h2 : some (Json.num "1") = some (Json.str "1") := h
  cases h2

/-- C16 (amended): request serialization round-trips for text. For every
method that is valid UTF-8 (a Go string holding the bytes of a text) and
every params value that has a JSON form, the line `sendRequest` writes, and
the line `sendNotification` writes, is decoded by a peer to a message whose
"jsonrpc" is "2.0", whose method is the text of the given method and whose
params are the given params (nil params, left out of the line, are read back
as nil). -/
theorem request_round_trips (cfg : Codec) (c : McpClient) (method : String) (params : Json)
    (text : List Char) (hp : encodeJson params = .ok text) :
    (∃ line doc,
        (∀ inbound, (sendRequestGo cfg c (GoString.ofText method) params
            { werr := none, inbound := inbound }).2.stdin = c.stdin ++ [line])
        ∧ decodeLine line = some doc
        ∧ doc.member "jsonrpc" = some (Json.str "2.0")
        ∧ doc.member "method" = some (Json.str method)
        ∧ peerParams doc = params)
    ∧ (∃ line doc,
        (sendNotificationGo cfg c (GoString.ofText method) params none).2.stdin
          = c.stdin ++ [line]
        ∧ decodeLine line = some doc
        ∧ doc.member "jsonrpc" = some (Json.str "2.0")
        ∧ doc.member "method" = some (Json.str method)
        ∧ peerParams doc = params) := by
  have h := round_trip_text { cfg with marshal := marshalRequest } rfl c method params text hp
  obtain ⟨⟨line, doc, h1, h2⟩, ⟨line2, doc2, g1, g2⟩⟩ := h
  refine ⟨⟨line, doc, ?_, h2⟩, ⟨line2, doc2, ?_, g2⟩⟩
  · intro inbound
    rw [sendRequestGo_ofText]
    exact h1 inbound
  · rw [sendNotificationGo_ofText]
    exact g1

/-- C16, a concrete run: a `tools/call` request whose params hold a quote, a
line feed and a character outside ASCII, nested in an object and an array. -/
theorem request_round_trips_witness :
    (∃ text, encodeJson
        (Json.obj [("name", Json.str "say \"hé\"\n"),
              ("arguments", Json.arr [Json.num "-1.5e3", Json.null])]) = .ok text)
    ∧ (∃ line doc,
        (∀ inbound, (sendRequestGo sampleCodec NewMcpClient (GoString.ofText "tools/call")
            (Json.obj [("name", Json.str "say \"hé\"\n"),
              ("arguments", Json.arr [Json.num "-1.5e3", Json.null])])
            { werr := none, inbound := inbound }).2.stdin = [line])
        ∧ decodeLine line = some doc
        ∧ doc.member "jsonrpc" = some (Json.str "2.0")
        ∧ doc.member "method" = some (Json.str "tools/call")
        ∧ peerParams doc
            = Json.obj [("name", Json.str "say \"hé\"\n"),
                ("arguments", Json.arr [Json.num "-1.5e3", Json.null])]) :=
  ⟨⟨_, rfl⟩,
    (request_round_trips sampleCodec NewMcpClient "tools/call"
      (Json.obj [("name", Json.str "say \"hé\"\n"),
              ("arguments", Json.arr [Json.num "-1.5e3", Json.null])])
      _ rfl).1⟩

/-- C16 as stated fails for a method that is not valid UTF-8: for the method
"\xff", one byte that starts no encoding, the request written carries the
method `\ufffd`; the peer reads the text U+FFFD, whose bytes are EF BF BD and
not FF. -/
theorem request_method_not_utf8 :
    (sendRequestGo sampleCodec NewMcpClient [255] (Json.obj [])
        { werr := none, inbound := [] }).2.stdin
      = ["\x7b\"jsonrpc\":\"2.0\",\"method\":\"\\ufffd\",\"params\":\x7b\x7d,\"id\":1\x7d\n"]
    ∧ (decodeLine
          "\x7b\"jsonrpc\":\"2.0\",\"method\":\"\\ufffd\",\"params\":\x7b\x7d,\"id\":1\x7d\n").bind
        (fun doc => doc.member "method") = some (Json.str "\uFFFD")
    ∧ GoString.ofText "\uFFFD" = [239, 191, 189]
    ∧ GoString.ofText "\uFFFD" ≠ [255] := by
  refine ⟨by decide, rfl, by decide, by decide⟩

/-! ## C17 - C19: a failed write, the options of `Chat`, unmatched lines -/

/-- C17, as amended: when the write of a request fails, `sendRequest` returns
the write error at once and resolves no one: nothing is written, nothing is
sent to any slot, and every entry that was pending under another id is still
in the registry. -/
theorem sendRequest_write_failure (cfg : Codec) (c : McpClient) (method : String) (params : Json)
    (x : Exchange) (err : Error) (reqBytes : String) (hw : x.werr = some err)
    (hm : cfg.marshal
        { JSONRPC := "2.0", Method := method, Params := params,
          ID := some (toString (wrapInt64 (c.seq + 1))) } = .ok reqBytes) :
    (sendRequest cfg c method params x).1 = some (none, some err)
    ∧ (sendRequest cfg c method params x).2.stdin = c.stdin
    ∧ (sendRequest cfg c method params x).2.delivered = c.delivered
    ∧ (∀ ch : Chan, (sendRequest cfg c method params x).2.slot ch = c.slot ch)
    ∧ (∀ (id : String) (ch : Chan), (id, ch) ∈ c.pending →
        id ≠ toString (wrapInt64 (c.seq + 1)) →
        (id, ch) ∈ (sendRequest cfg c method params x).2.pending) := by
  rw [sendRequest_write_fails cfg c method params x err reqBytes hw hm]
  refine ⟨rfl, rfl, rfl, fun _ => rfl, ?_⟩
  intro id ch hmem hne
  show (id, ch) ∈ Registry.set c.pending _ c.made
  exact List.mem_cons_of_mem _ (Registry.mem_delete.mpr ⟨hmem, hne⟩)

/-- C17, a concrete run: three requests wait and the write of a fourth fails;
the caller gets the write error and the three still wait. -/
theorem sendRequest_write_failure_witness :
    (sendRequest sampleCodec sampleWaiting "tools/list" (Json.obj [])
        { werr := some "write |1: broken pipe" }).1 = some (none, some "write |1: broken pipe")
    ∧ ("2", 1) ∈ (sendRequest sampleCodec sampleWaiting "tools/list" (Json.obj [])
        { werr := some "write |1: broken pipe" }).2.pending :=
  have h := sendRequest_write_failure sampleCodec sampleWaiting "tools/list" (Json.obj [])
    { werr := some "write |1: broken pipe" } "write |1: broken pipe" "tools/list#4" rfl rfl
  ⟨h.1, h.2.2.2.2 "2" 1 (by decide) (by decide)⟩

/-- C17 as stated fails: three requests wait and the write of a fourth fails;
afterwards the registry holds all four entries, the failed request's "4"
among them, and every slot is empty: no one has been resolved. -/
theorem write_failure_leaves_pending :
    (sendRequest sampleCodec sampleWaiting "tools/list" (Json.obj [])
        { werr := some "write |1: broken pipe" }).2.pending
      = [("4", 3), ("3", 2), ("2", 1), ("1", 0)]
    ∧ (sendRequest sampleCodec sampleWaiting "tools/list" (Json.obj [])
        { werr := some "write |1: broken pipe" }).2.delivered = [] := by
  decide

/-- C18: the code at the failing input. A `[]string` among the options of
`Chat` matches no case of the switch and is skipped: the call does what it does
without that option, and with only that option the user message carries no
image and no file is read, whatever the paths; the same paths given as a
`[]PromptImage` are encoded and attached, and a `[]Tool` option supplies the
tools. -/
theorem Chat_skips_string_slice (c : Gollama) (env : ChatEnv) (prompt : String)
    (paths : List String) :
    (∀ s : ChatSettings, chatOption s (.strings paths) = .ok s)
    ∧ (∀ before after : List ChatOption,
        Chat c env prompt (before ++ .strings paths :: after) = Chat c env prompt (before ++ after))
    ∧ (∃ req : chatRequest, ChatRequestOf c env prompt [.strings paths] = .ok req
        ∧ req.Messages.getLast? = some { Role := "user", Content := prompt, Images := none })
    ∧ (∀ ts : List Tool, ∃ req : chatRequest, ChatRequestOf c env prompt [.tools ts] = .ok req
        ∧ req.Tools = if ts.length > 0 then some ts else none)
    ∧ ChatRequestOf { ModelName := "llava" } sampleChatEnv "describe" [.strings ["cat.png"]]
        = .ok { Stream := false, Model := "llava",
                Messages := [{ Role := "user", Content := "describe", Images := none }],
                Options := { Seed := 0, Temperature := {}, TopK := 0, TopP := {},
                             ContextLength := 0 } }
    ∧ ChatRequestOf { ModelName := "llava" } sampleChatEnv "describe"
          [.promptImages [{ Filename := "cat.png" }]]
        = .ok { Stream := false, Model := "llava",
                Messages := [{ Role := "user", Content := "describe",
                               Images := some ["b64(cat.png)"] }],
                Options := { Seed := 0, Temperature := {}, TopK := 0, TopP := {},
                             ContextLength := 0 } } := by
  refine ⟨fun _ => rfl, ?_, ?_, ?_, rfl, rfl⟩
  · intro before after
    simp only [Chat, ChatRequestOf, chatOptions_skip _ before after (.strings paths) (fun _ => rfl)]
  · refine ⟨_, rfl, ?_⟩
    simp [encodeImages]
  · intro ts
    exact ⟨_, rfl, rfl⟩

/-- C19: for every client state, when `readLoop` processes a line that decodes
and either has no id or has an id with no entry in the registry, the client is
left exactly as it was, registry and slots alike, and the loop goes on with
the next line. -/
theorem readLoop_ignores_unmatched (cfg : Codec) (c : McpClient) (l : String)
    (r : JsonRpcResponse) (hd : cfg.unmarshalResponse l = .ok r)
    (hun : r.ID = none ∨ ∃ id, r.ID = some id ∧ c.pending.get id = none) :
    readLoopLine cfg c l = c
    ∧ (readLoopLine cfg c l).pending = c.pending
    ∧ (readLoopLine cfg c l).delivered = c.delivered
    ∧ (∀ ch : Chan, (readLoopLine cfg c l).slot ch = c.slot ch)
    ∧ (∀ rest : List String, readLoop cfg (l :: rest) c = readLoop cfg rest c) := by
  have h : readLoopLine cfg c l = c := by
    rcases hun with hnone | ⟨id, hid, hget⟩
    · exact readLoopLine_noId hd hnone
    · exact readLoopLine_unregistered hd hid hget
  refine ⟨h, by rw [h], by rw [h], fun ch => by rw [h], fun rest => ?_⟩
  rw [readLoop_cons, h]

/-- C19, a concrete run: three requests wait; a notification changes nothing,
and once "2" has been answered a second answer to "2" changes nothing. -/
theorem readLoop_ignores_unmatched_witness :
    readLoopLine sampleCodec sampleWaiting
        "\x7b\"jsonrpc\":\"2.0\",\"method\":\"notifications/progress\"\x7d\n" = sampleWaiting
    ∧ readLoopLine sampleCodec (readLoopLine sampleCodec sampleWaiting (sampleResultLine "2" "\"two\""))
        (sampleResultLine "2" "\"two\"")
      = readLoopLine sampleCodec sampleWaiting (sampleResultLine "2" "\"two\"") :=
  ⟨(readLoop_ignores_unmatched sampleCodec sampleWaiting
      "\x7b\"jsonrpc\":\"2.0\",\"method\":\"notifications/progress\"\x7d\n"
      { JSONRPC := "2.0" } rfl (Or.inl rfl)).1,
   (readLoop_ignores_unmatched sampleCodec
      (readLoopLine sampleCodec sampleWaiting (sampleResultLine "2" "\"two\""))
      (sampleResultLine "2" "\"two\"")
      { JSONRPC := "2.0", Result := some "\"two\"", ID := some "2" } rfl
      (Or.inr ⟨"2", rfl, by decide⟩)).1⟩

end Gollama
